import Mathlib

/-!
# A verification development for the 2d-tree point set, and for the cache and the
buddy allocator of `lfru-buddy`

Shallow embedding of `src/2d-tree/include/primitives.h` and
`src/2d-tree/src/2dtree.cpp`, of `src/lfru-buddy/include/cache.h`, and of
`src/lfru-buddy/include/pool.h` with `src/lfru-buddy/src/pool.cpp`.

Coordinates are finite `double`s without NaN.  Every finite double is an integer
multiple of the least positive subnormal `2^-1074`, so a coordinate is kept
exactly as that integer multiple: comparisons of doubles are comparisons of
these integers, and `-0.0 == 0.0` holds because both are the integer `0`.
-/

set_option autoImplicit false

/-! ## Geometry primitives -/

/-- The two partitioning directions (`enum class Axis`). -/
inductive Axis where
  | X
  | Y
  deriving DecidableEq, Repr

/-- A planar point (`class Point`): `x_` and `y_`, in units of `2^-1074`. -/
structure Point where
  x : Int
  y : Int
  deriving DecidableEq, Repr

/-- The value `std::numeric_limits<double>::min()`: the least positive normal double
`2^-1022`, in units of `2^-1074` (that is `2^52`, written as a shift). -/
def dbl_min : Int := Int.ofNat (1 <<< 52)

/-- The value `std::numeric_limits<double>::max()`: `(2^53 - 1) * 2^971`, in units of
`2^-1074` (that is `(2^53 - 1) * 2^2045`). -/
def dbl_max : Int := Int.ofNat (((1 <<< 53) - 1) <<< 2045)

/-- The double of integral value `n`, in units of `2^-1074` (that is `n * 2^1074`). -/
def dbl (n : Int) : Int := n * Int.ofNat (1 <<< 1074)

/-- The point with the integral coordinates `(x, y)`. -/
def pt (x y : Int) : Point := Point.mk (dbl x) (dbl y)

/-- The anonymous-namespace `get_axis(depth)`. -/
def get_axis (depth : Nat) : Axis :=
  if depth % 2 = 0 then Axis.X else Axis.Y

/-- The method `Point::coord(axis)`. -/
def Point.coord (p : Point) (axis : Axis) : Int :=
  if axis = Axis.X then p.x else p.y

/-- The anonymous-namespace `create_point(p, axis, coord)`. -/
def create_point (p : Point) (axis : Axis) (coord : Int) : Point :=
  if axis = Axis.X then Point.mk coord p.y else Point.mk p.x coord

/-- The comparison `Point::operator<`: by `y`, then by `x`. -/
def Point.lt (a p : Point) : Bool :=
  decide (a.y < p.y) || (decide (a.y = p.y) && decide (a.x < p.x))

/-- The comparison `Point::operator==`. -/
def Point.eq (a p : Point) : Bool :=
  decide (a.x = p.x) && decide (a.y = p.y)

/-- An exact Euclidean distance: the value `sqrt sq`, kept by its radicand. -/
structure Surd where
  sq : Int
  deriving DecidableEq, Repr

/-- The method `Point::distance`: `sqrt (dx * dx + dy * dy)` in exact arithmetic. -/
def Point.distance (a p : Point) : Surd :=
  let dx := a.x - p.x
  let dy := a.y - p.y
  Surd.mk (dx * dx + dy * dy)

/-- The comparison `a < b` of two exact distances `sqrt a.sq < sqrt b.sq`. -/
def Surd.lt (a b : Surd) : Bool :=
  decide (a.sq < b.sq)

/-- The test `coord + d >= pivot` for the exact distance `d = sqrt d.sq`. -/
def Surd.add_ge (coord : Int) (d : Surd) (pivot : Int) : Bool :=
  decide (pivot - coord ≤ 0) || decide ((pivot - coord) * (pivot - coord) ≤ d.sq)

/-- The test `coord - d <= pivot` for the exact distance `d = sqrt d.sq`. -/
def Surd.sub_le (coord : Int) (d : Surd) (pivot : Int) : Bool :=
  decide (coord - pivot ≤ 0) || decide ((coord - pivot) * (coord - pivot) ≤ d.sq)

/-- An axis-aligned box (`class Rect`). -/
structure Rect where
  left_bottom : Point
  right_top : Point
  deriving DecidableEq, Repr

/-- Accessor `Rect::xmin`. -/
def Rect.xmin (r : Rect) : Int := r.left_bottom.x

/-- Accessor `Rect::ymin`. -/
def Rect.ymin (r : Rect) : Int := r.left_bottom.y

/-- Accessor `Rect::xmax`. -/
def Rect.xmax (r : Rect) : Int := r.right_top.x

/-- Accessor `Rect::ymax`. -/
def Rect.ymax (r : Rect) : Int := r.right_top.y

/-- The method `Rect::max_coord`. -/
def Rect.max_coord (r : Rect) (axis : Axis) : Int := r.right_top.coord axis

/-- The method `Rect::min_coord`. -/
def Rect.min_coord (r : Rect) (axis : Axis) : Int := r.left_bottom.coord axis

/-- The method `Rect::contains`. -/
def Rect.contains (r : Rect) (p : Point) : Bool :=
  decide (p.x ≥ r.xmin) && decide (p.x ≤ r.xmax) && decide (p.y ≥ r.ymin) && decide (p.y ≤ r.ymax)

/-- The method `Rect::intersects`. -/
def Rect.intersects (a r : Rect) : Bool :=
  decide (a.xmax ≥ r.xmin) && decide (a.ymax ≥ r.ymin) && decide (r.xmax ≥ a.xmin)
    && decide (r.ymax ≥ a.ymin)

/-! ## The `std::set<Point>` store -/

/-- The call `std::set<Point>::insert`: the set is its ascending key sequence under
`Point::operator<`; a key equivalent to a stored one is not inserted. -/
def set_insert (p : Point) : List Point → List Point
  | [] => [p]
  | q :: qs =>
    if p.lt q then p :: q :: qs
    else if q.lt p then q :: set_insert p qs
    else q :: qs

namespace kdtree

/-- A `std::shared_ptr<Node>`: `null` is `nullptr`, `mk` a `struct Node` with its
members in declaration order. -/
inductive Node where
  | null : Node
  | mk (point : Point) (rect : Rect) (left right : Node) (axis : Axis) : Node
  deriving DecidableEq, Repr

/-- A candidate of the k-nearest search (`struct Distance`). -/
structure Distance where
  distance : Surd
  node : Node
  deriving DecidableEq, Repr

/-- The comparison `Distance::operator<`. -/
def Distance.lt (a that : Distance) : Bool :=
  a.distance.lt that.distance

/-- The standard-library algorithms the tree calls.  Their code is not part of the
repository, so they are parameters:
`nth_element c n axis` is the range `c` after
`std::nth_element(first, first + n, last, comp)` with the comparator of `build`,
`comp a b = a.coord(axis) < b.coord(axis)`;
`push_heap` and `pop_heap` are the vector after `std::push_heap(begin, end)` and
`std::pop_heap(begin, end)`. -/
structure StdAlgo where
  nth_element : List Point → Nat → Axis → List Point
  push_heap : List Distance → List Distance
  pop_heap : List Distance → List Distance

/-- The comparison `Node::operator>` of a node (its `point` and `axis`) with a point. -/
def Node.gt (point : Point) (axis : Axis) (p : Point) : Bool :=
  if axis = Axis.X then
    if point.x = p.x then decide (point.y > p.y) else decide (point.x > p.x)
  else
    if point.y = p.y then decide (point.x > p.x) else decide (point.y > p.y)

/-- The recursive `PointSet::build(node, first, last, begin, min, max, depth)`.
`node` is the pointer found at this place in the previous tree (`root`,
`node->left` or `node->right`, passed by reference), `c` the range `[first, last)`.
The guard `first >= last || last == begin` is the empty range: a range that ends at
`begin` starts there too.  A node that is not null is kept with its `const` members
`point`, `rect` and `axis`; only its children are assigned.  The fuel bounds the
recursion depth; `build()` passes the length of the range, which is enough when
`nth_element` keeps the length of its range. -/
def buildAux (lib : StdAlgo) : Nat → Node → List Point → Point → Point → Nat → Node
  | 0, _, _, _, _, _ => Node.null
  | fuel + 1, node, c, min, max, depth =>
    match c with
    | [] => Node.null
    | [p] => Node.mk p (Rect.mk min max) Node.null Node.null (get_axis depth)
    | _ =>
      let axis := get_axis depth
      let size := c.length
      let s := lib.nth_element c (size / 2) axis
      match s.drop (size / 2) with
      | [] => Node.null
      | middle :: after =>
        let pivot := middle.coord axis
        match node with
        | Node.null =>
          Node.mk middle (Rect.mk min max)
            (buildAux lib fuel Node.null (s.take (size / 2)) min
              (create_point max axis pivot) (depth + 1))
            (buildAux lib fuel Node.null after (create_point min axis pivot) max (depth + 1))
            axis
        | Node.mk point rect left right ax =>
          Node.mk point rect
            (buildAux lib fuel left (s.take (size / 2)) min
              (create_point max axis pivot) (depth + 1))
            (buildAux lib fuel right after (create_point min axis pivot) max (depth + 1))
            ax

/-- The method `PointSet::preorder_traversal`: the nodes pushed onto `dfs`. -/
def preorder_traversal : Node → List Node
  | Node.null => []
  | Node.mk point rect left right axis =>
    Node.mk point rect left right axis :: (preorder_traversal left ++ preorder_traversal right)

/-- The point an iterator yields at a node pointer (`(*current)->point`); the
vectors iterated only hold non-null pointers. -/
def Node.point? : Node → Option Point
  | Node.null => none
  | Node.mk point _ _ _ _ => some point

/-- The points an iterator pair yields over a vector of node pointers. -/
def points_of (v : List Node) : List Point :=
  v.filterMap Node.point?

/-- The recursive `PointSet::search(node, point)`. -/
def search : Node → Point → Node
  | Node.null, _ => Node.null
  | Node.mk point rect left right axis, p =>
    if point.eq p then Node.mk point rect left right axis
    else if Node.gt point axis p then search left p
    else search right p

/-- The recursive `PointSet::range(node, rect, r)`: the nodes pushed onto `r`. -/
def rangeAux : Node → Rect → List Node
  | Node.null, _ => []
  | Node.mk point nrect left right axis, rect =>
    if rect.intersects nrect then
      let here := if rect.contains point then [Node.mk point nrect left right axis] else []
      let point_coord := point.coord axis
      let min_coord := rect.min_coord axis
      let max_coord := rect.max_coord axis
      if max_coord ≥ point_coord ∧ min_coord ≤ point_coord then
        here ++ rangeAux left rect ++ rangeAux right rect
      else if max_coord ≤ point_coord then
        here ++ rangeAux left rect
      else if min_coord ≥ point_coord then
        here ++ rangeAux right rect
      else here
    else []

/-- The state of a `kdtree::PointSet`: its data members. -/
structure PointSet where
  root : Node
  need_build : Bool
  points : List Point
  dfs : List Node
  deriving DecidableEq, Repr

/-- The constructor `PointSet()` with an empty file name. -/
def PointSet.new : PointSet :=
  { root := Node.null, need_build := true, points := [], dfs := [] }

/-- The method `PointSet::put`. -/
def PointSet.put (s : PointSet) (p : Point) : PointSet :=
  { s with need_build := true, points := set_insert p s.points }

/-- The method `PointSet::build()`. -/
def PointSet.build (lib : StdAlgo) (s : PointSet) : PointSet :=
  let root := buildAux lib s.points.length s.root s.points
    (Point.mk dbl_min dbl_min) (Point.mk dbl_max dbl_max) 0
  { s with root := root, dfs := preorder_traversal root }

/-- The method `PointSet::build_if_need`. -/
def PointSet.build_if_need (lib : StdAlgo) (s : PointSet) : PointSet :=
  if s.need_build then PointSet.build lib { s with need_build := false } else s

/-- The method `PointSet::contains`: the result and the state it leaves. -/
def PointSet.contains (lib : StdAlgo) (s : PointSet) (point : Point) : Bool × PointSet :=
  let s1 := PointSet.build_if_need lib s
  (decide (search s1.root point ≠ Node.null), s1)

/-- The method `PointSet::empty`. -/
def PointSet.empty (lib : StdAlgo) (s : PointSet) : Bool × PointSet :=
  let s1 := PointSet.build_if_need lib s
  (s1.points.isEmpty, s1)

/-- The method `PointSet::size`. -/
def PointSet.size (lib : StdAlgo) (s : PointSet) : Nat × PointSet :=
  let s1 := PointSet.build_if_need lib s
  (s1.points.length, s1)

/-- Iteration from `begin()` to `end()`: the points yielded and the state left. -/
def PointSet.iterate (lib : StdAlgo) (s : PointSet) : List Point × PointSet :=
  let s1 := PointSet.build_if_need lib s
  (points_of s1.dfs, s1)

/-- The method `PointSet::range(r)`: the points between the two iterators. -/
def PointSet.range (lib : StdAlgo) (s : PointSet) (r : Rect) : List Point × PointSet :=
  let s1 := PointSet.build_if_need lib s
  (points_of (rangeAux s1.root r), s1)

/-- The recursive `PointSet::nearest(node, point, k, heap)`.  The result is `none`
when the code reads `heap[0]` of an empty vector. -/
def nearestAux (lib : StdAlgo) (point : Point) (k : Nat) :
    Node → List Distance → Option (List Distance)
  | Node.null, heap => some heap
  | Node.mk npoint nrect left right axis, heap =>
    let dist := point.distance npoint
    let wanted : Option Bool :=
      if heap.length < k then some true
      else heap.head?.map fun worst => dist.lt worst.distance
    match wanted with
    | none => none
    | some b =>
      let heap1 :=
        if b then
          let pushed := lib.push_heap (heap ++ [Distance.mk dist (Node.mk npoint nrect left right axis)])
          if pushed.length > k then (lib.pop_heap pushed).dropLast else pushed
        else heap
      let coord := point.coord axis
      let pivot := npoint.coord axis
      if coord < pivot then
        match nearestAux lib point k left heap1 with
        | none => none
        | some heap2 =>
          match heap2.head? with
          | none => none
          | some worst =>
            if Surd.add_ge coord worst.distance pivot then nearestAux lib point k right heap2
            else some heap2
      else
        match nearestAux lib point k right heap1 with
        | none => none
        | some heap2 =>
          match heap2.head? with
          | none => none
          | some worst =>
            if Surd.sub_le coord worst.distance pivot then nearestAux lib point k left heap2
            else some heap2

/-- The method `PointSet::nearest(point, k)`: the points between the two iterators
(`none` when the traversal reads out of bounds) and the state left.  The nested
calls of `empty()`, `size()`, `begin()` and `end()` run `build_if_need` again on a
state whose flag is already false, which leaves it as it is. -/
def PointSet.nearest (lib : StdAlgo) (s : PointSet) (point : Point) (k : Nat) :
    Option (List Point) × PointSet :=
  let s1 := PointSet.build_if_need lib s
  if s1.points.isEmpty || k == 0 then (some [], s1)
  else if k ≥ s1.points.length then (some (points_of s1.dfs), s1)
  else
    match nearestAux lib point k s1.root [] with
    | none => (none, s1)
    | some heap => (some (points_of (heap.map Distance.node)), s1)

/-- Puts the points of a list one after another, with no read in between. -/
def PointSet.put_all (s : PointSet) (ps : List Point) : PointSet :=
  ps.foldl PointSet.put s

/-! ## What the C++ standard promises of the library algorithms -/

/-- The postcondition of `std::nth_element` with the comparator of `build`: the
range is permuted; no element from position `n` on compares less than an element
before position `n`; and the element at position `n` is the one a sorted range
would have there, that is, no later element compares less than it. -/
def NthElementSpec (lib : StdAlgo) : Prop :=
  ∀ (c : List Point) (n : Nat) (axis : Axis), n < c.length →
    (lib.nth_element c n axis).Perm c ∧
    (∀ a ∈ (lib.nth_element c n axis).take n, ∀ b ∈ (lib.nth_element c n axis).drop n,
      ¬ (b.coord axis < a.coord axis)) ∧
    (∀ m ∈ ((lib.nth_element c n axis).drop n).head?,
      ∀ b ∈ ((lib.nth_element c n axis).drop n).tail, ¬ (b.coord axis < m.coord axis))

/-- The heap property of a range under `Distance::operator<`: no element compares
greater than its parent. -/
def IsHeap (h : List Distance) : Prop :=
  ∀ (i : Nat) (hi : i < h.length), 0 < i →
    (h.get ⟨(i - 1) / 2, by omega⟩).lt (h.get ⟨i, hi⟩) = false

/-- The postconditions of `std::push_heap` and `std::pop_heap`: on a range whose
leading part is a heap, `push_heap` permutes the range into a heap; on a non-empty
heap, `pop_heap` moves the first element to the end and leaves a heap before it. -/
def HeapSpec (lib : StdAlgo) : Prop :=
  (∀ (h : List Distance) (d : Distance), IsHeap h →
    IsHeap (lib.push_heap (h ++ [d])) ∧ (lib.push_heap (h ++ [d])).Perm (h ++ [d])) ∧
  (∀ (d : Distance) (h : List Distance), IsHeap (d :: h) →
    ∃ rest, lib.pop_heap (d :: h) = rest ++ [d] ∧ IsHeap rest ∧ rest.Perm h)

/-! ## Reference instances of the library algorithms -/

/-- Orders two points by their coordinate on an axis. -/
def coord_le (axis : Axis) (a b : Point) : Prop := a.coord axis ≤ b.coord axis

instance (axis : Axis) : DecidableRel (coord_le axis) :=
  fun a b => inferInstanceAs (Decidable (a.coord axis ≤ b.coord axis))

/-- Orders two candidates by descending distance. -/
def dist_ge (a b : Distance) : Prop := b.distance.sq ≤ a.distance.sq

instance : DecidableRel dist_ge :=
  fun a b => inferInstanceAs (Decidable (b.distance.sq ≤ a.distance.sq))

instance (axis : Axis) : IsTotal Point (coord_le axis) :=
  ⟨fun a b => le_total (a.coord axis) (b.coord axis)⟩

instance (axis : Axis) : IsTrans Point (coord_le axis) :=
  ⟨fun _ _ _ h1 h2 => Int.le_trans h1 h2⟩

instance : IsTotal Distance dist_ge :=
  ⟨fun a b => le_total b.distance.sq a.distance.sq⟩

instance : IsTrans Distance dist_ge :=
  ⟨fun _ _ _ h1 h2 => Int.le_trans h2 h1⟩

/-- A conforming library: `nth_element` sorts the whole range stably by the axis
coordinate; `push_heap` sorts the range by descending distance; `pop_heap` moves
the first element to the end and sorts the others by descending distance. -/
def sorting_lib : StdAlgo :=
  { nth_element := fun c _ axis => c.insertionSort (coord_le axis)
    push_heap := fun h => h.insertionSort dist_ge
    pop_heap := fun h =>
      match h with
      | [] => []
      | d :: rest => rest.insertionSort dist_ge ++ [d] }

/-- A conforming library whose `nth_element` sorts the reversed range stably, so
that elements of equal coordinate change their relative order. -/
def reversing_lib : StdAlgo :=
  { sorting_lib with nth_element := fun c _ axis => c.reverse.insertionSort (coord_le axis) }

/-! ## Views of a tree used to state its properties -/

/-- The points of the nodes of a tree, in preorder. -/
def Node.points : Node → List Point
  | Node.null => []
  | Node.mk point _ left right _ => point :: (Node.points left ++ Node.points right)

/-- The weak partition property of a tree: at every node, no point of the left
subtree is beyond the node on the node's axis, and no point of the right subtree
is before it. -/
def Node.Partitioned : Node → Prop
  | Node.null => True
  | Node.mk point _ left right axis =>
    (∀ q ∈ Node.points left, q.coord axis ≤ point.coord axis) ∧
    (∀ q ∈ Node.points right, point.coord axis ≤ q.coord axis) ∧
    Node.Partitioned left ∧ Node.Partitioned right

/-- The candidate the k-nearest traversal makes of a node: its distance to the
query point, and the node. -/
def cand (point : Point) : Node → Distance
  | Node.null => Distance.mk (Surd.mk 0) Node.null
  | Node.mk npoint rect left right axis =>
    Distance.mk (point.distance npoint) (Node.mk npoint rect left right axis)

/-- The candidates of all nodes of a tree, in preorder. -/
def cands (point : Point) (t : Node) : List Distance :=
  (preorder_traversal t).map (cand point)

/-- The heap holds the `k` best of the candidates seen: it is a heap of at most
`k` of them, no candidate left out is closer than a held one, and none is left
out while fewer than `k` are held. -/
def KBest (k : Nat) (heap seen : List Distance) : Prop :=
  IsHeap heap ∧ heap.length ≤ k ∧
  ∃ rest, seen.Perm (heap ++ rest) ∧
    (∀ h ∈ heap, ∀ x ∈ rest, h.distance.sq ≤ x.distance.sq) ∧
    (heap.length < k → rest = [])

/-- The method `PointSet::nearest(p)`: the optional point returned (`some none` is
`std::nullopt`; the outer `none` stands for an out-of-bounds read in the traversal)
and the state left.  The two iterators of `nearest(p, 1)` are equal exactly when
the sequence between them is empty. -/
def PointSet.nearest1 (lib : StdAlgo) (s : PointSet) (p : Point) :
    Option (Option Point) × PointSet :=
  match PointSet.nearest lib s p 1 with
  | (none, s1) => (none, s1)
  | (some [], s1) => (some none, s1)
  | (some (q :: _), s1) => (some (some q), s1)

/-- The public operations of a `kdtree::PointSet`. -/
inductive Op where
  | put (p : Point)
  | contains (p : Point)
  | empty
  | size
  | iterate
  | range (r : Rect)
  | nearest (p : Point) (k : Nat)
  | nearest1 (p : Point)
  deriving DecidableEq, Repr

/-- The state an operation leaves. -/
def PointSet.step (lib : StdAlgo) (s : PointSet) : Op → PointSet
  | Op.put p => s.put p
  | Op.contains p => (PointSet.contains lib s p).2
  | Op.empty => (PointSet.empty lib s).2
  | Op.size => (PointSet.size lib s).2
  | Op.iterate => (PointSet.iterate lib s).2
  | Op.range r => (PointSet.range lib s r).2
  | Op.nearest p k => (PointSet.nearest lib s p k).2
  | Op.nearest1 p => (PointSet.nearest1 lib s p).2

/-- The states a `PointSet` can be in: the freshly constructed one, and every state
an operation leaves from a reachable one. -/
inductive Reachable (lib : StdAlgo) : PointSet → Prop
  | new : Reachable lib PointSet.new
  | step (s : PointSet) (op : Op) : Reachable lib s → Reachable lib (PointSet.step lib s op)

/-- Every node's rect contains the points of the node's subtree. -/
def Node.RectsCover : Node → Prop
  | Node.null => True
  | Node.mk point rect left right _ =>
    (∀ q ∈ point :: (Node.points left ++ Node.points right), rect.contains q = true) ∧
    Node.RectsCover left ∧ Node.RectsCover right

end kdtree

/-! ## The brute-force point set -/

/-- The call `std::set<Point>::find(p) != end()`: some stored key is equivalent to
`p`, that is, neither compares less than the other. -/
def set_contains (p : Point) (l : List Point) : Bool :=
  l.any fun q => !(p.lt q) && !(q.lt p)

namespace rbtree

/-- The state of an `rbtree::PointSet`: the vector `points` (in insertion order)
and the set `set_points` (ascending). -/
structure PointSet where
  points : List Point
  set_points : List Point
  deriving DecidableEq, Repr

/-- The constructor `PointSet()` with an empty file name. -/
def PointSet.new : PointSet :=
  { points := [], set_points := [] }

/-- The method `rbtree::PointSet::contains`. -/
def PointSet.contains (s : PointSet) (p : Point) : Bool :=
  set_contains p s.set_points

/-- The method `rbtree::PointSet::put`. -/
def PointSet.put (s : PointSet) (p : Point) : PointSet :=
  if !(s.contains p) then
    { points := s.points ++ [p], set_points := set_insert p s.set_points }
  else s

/-- The method `rbtree::PointSet::range`: the points between the two iterators. -/
def PointSet.range (s : PointSet) (rect : Rect) : List Point :=
  s.points.filter fun p => rect.contains p

/-- Puts the points of a list one after another. -/
def PointSet.put_all (s : PointSet) (ps : List Point) : PointSet :=
  ps.foldl PointSet.put s

end rbtree

/-! ## The remaining members of the primitives, the bulk load, and further views -/

/-- The comparison `Point::operator!=`. -/
def Point.ne (a p : Point) : Bool := !(a.eq p)

/-- The comparison `Point::operator>`. -/
def Point.gt (a p : Point) : Bool := p.lt a

/-- The comparison `Point::operator<=`. -/
def Point.le (a p : Point) : Bool := a.lt p || a.eq p

/-- The comparison `Point::operator>=`. -/
def Point.ge (a p : Point) : Bool := !(a.lt p)

/-- The method `Rect::distance`: `sqrt (dx * dx + dy * dy)` in exact arithmetic, for
the per-axis gaps `dx`, `dy` between the point and the box. -/
def Rect.distance (r : Rect) (p : Point) : Surd :=
  let dx := if p.x < r.xmin then p.x - r.xmin else if p.x > r.xmax then p.x - r.xmax else 0
  let dy := if p.y < r.ymin then p.y - r.ymin else if p.y > r.ymax then p.y - r.ymax else 0
  Surd.mk (dx * dx + dy * dy)

/-- The point obtained by clamping the coordinates of `p` into the box. -/
def Rect.clamp (r : Rect) (p : Point) : Point :=
  Point.mk (if p.x < r.xmin then r.xmin else if p.x > r.xmax then r.xmax else p.x)
    (if p.y < r.ymin then r.ymin else if p.y > r.ymax then r.ymax else p.y)

/-- The pairs `(t0,t1), (t2,t3), ...` of a token sequence, from its start up to and
not including the first pair in which a token is missing or does not parse (`none`
is a token that does not parse as a number). -/
def pairs_before_failure : List (Option Int) → List Point
  | some x :: some y :: rest => Point.mk x y :: pairs_before_failure rest
  | _ => []

namespace kdtree

/-- The loop of the constructor `kdtree::PointSet::PointSet(filename)` over the
tokens of the stream: `fs >> x >> y` fails when either token is missing or does not
parse, and the loop then breaks; otherwise `points.emplace(x, y)`. -/
def load_loop : List (Option Int) → List Point → List Point
  | some x :: some y :: rest, points => load_loop rest (set_insert (Point.mk x y) points)
  | _, points => points

/-- The constructor `kdtree::PointSet::PointSet(filename)` for a non-empty file
name whose stream yields the given tokens: the loop, then `build_if_need()`.
Nothing is thrown to the caller (`catch (...)`). -/
def PointSet.of_file (lib : StdAlgo) (tokens : List (Option Int)) : PointSet :=
  PointSet.build_if_need lib
    { root := Node.null, need_build := true, points := load_loop tokens [], dfs := [] }

/-- The comparison `Node::operator!=` of a node (its `point`) with a point. -/
def Node.ne (point : Point) (p : Point) : Bool := !(point.eq p)

/-- The comparison `Node::operator<` of a node (its `point` and `axis`) with a point. -/
def Node.lt (point : Point) (axis : Axis) (p : Point) : Bool :=
  !(Node.gt point axis p) && Node.ne point p

/-- The rect of a node, when the pointer is not null. -/
def Node.rect? : Node → Option Rect
  | Node.null => none
  | Node.mk _ rect _ _ _ => some rect

/-- The depth and the axis of every node of a tree whose root is at depth `d`, in
preorder. -/
def Node.axes_by_depth : Nat → Node → List (Nat × Axis)
  | _, Node.null => []
  | d, Node.mk _ _ left right axis =>
    (d, axis) :: (Node.axes_by_depth (d + 1) left ++ Node.axes_by_depth (d + 1) right)

/-- Every node's axis is the one `get_axis` gives for its depth. -/
def Node.AxisAlternates : Nat → Node → Prop
  | _, Node.null => True
  | d, Node.mk _ _ left right axis =>
    axis = get_axis d ∧ Node.AxisAlternates (d + 1) left ∧ Node.AxisAlternates (d + 1) right

/-- Every present child's rect is the parent's rect split at the parent's point
coordinate along the parent's axis: the left child keeps the lower corner, the
right child the upper one. -/
def Node.RectsSplit : Node → Prop
  | Node.null => True
  | Node.mk point rect left right axis =>
    (∀ lr ∈ Node.rect? left, lr =
      Rect.mk rect.left_bottom (create_point rect.right_top axis (point.coord axis))) ∧
    (∀ rr ∈ Node.rect? right, rr =
      Rect.mk (create_point rect.left_bottom axis (point.coord axis)) rect.right_top) ∧
    Node.RectsSplit left ∧ Node.RectsSplit right

end kdtree

namespace rbtree

/-- The loop of the constructor `rbtree::PointSet::PointSet(filename)` over the
tokens of the stream, with `put(Point(x, y))` for every pair read. -/
def load_loop : List (Option Int) → PointSet → PointSet
  | some x :: some y :: rest, s => load_loop rest (s.put (Point.mk x y))
  | _, s => s

/-- The constructor `rbtree::PointSet::PointSet(filename)` for a non-empty file
name whose stream yields the given tokens. -/
def PointSet.of_file (tokens : List (Option Int)) : PointSet :=
  load_loop tokens PointSet.new

end rbtree

namespace kdtree

/-- The order the search relies on: at every node `n`, `n > q` for every point `q`
of the left subtree and `n < q` for every point `q` of the right subtree, under the
node comparator. -/
def Node.SearchOrdered : Node → Prop
  | Node.null => True
  | Node.mk point _ left right axis =>
    (∀ q ∈ Node.points left, Node.gt point axis q = true) ∧
    (∀ q ∈ Node.points right, Node.lt point axis q = true) ∧
    Node.SearchOrdered left ∧ Node.SearchOrdered right

/-- No two different points of the list share an `x` or a `y` coordinate. -/
def DistinctCoords (c : List Point) : Prop :=
  ∀ a ∈ c, ∀ b ∈ c, a ≠ b → a.x ≠ b.x ∧ a.y ≠ b.y

end kdtree

namespace kdtree

/-! ## The shape of a tree -/

/-- The number of nodes of a tree, which is the number of points it holds. -/
def Node.size : Node → Nat
  | Node.null => 0
  | Node.mk _ _ left right _ => 1 + (Node.size left + Node.size right)

/-- The height of a tree: the number of nodes on a longest path down from the root. -/
def Node.height : Node → Nat
  | Node.null => 0
  | Node.mk _ _ left right _ => 1 + max (Node.height left) (Node.height right)

/-- At every node, of the `m` points of the node's subtree the left subtree holds
`m / 2` (rounded down) and the right subtree the `m - 1 - m / 2` others. -/
def Node.Balanced : Node → Prop
  | Node.null => True
  | Node.mk point rect left right axis =>
    Node.size left = Node.size (Node.mk point rect left right axis) / 2 ∧
    Node.size right = Node.size (Node.mk point rect left right axis) - 1
      - Node.size (Node.mk point rect left right axis) / 2 ∧
    Node.Balanced left ∧ Node.Balanced right

end kdtree

namespace kdtree

/-- The unpruned range search: every node of the tree is visited, in the order of
the traversal, and kept when the query rectangle contains its point.  This is the
reference the pruned traversal `rangeAux` is compared with. -/
def range_unpruned (t : Node) (R : Rect) : List Node :=
  (preorder_traversal t).filter fun n =>
    match n with
    | Node.null => false
    | Node.mk point _ _ _ _ => R.contains point

end kdtree

namespace kdtree

/-- The first block of the recursive `nearest` (lines 502 to 510): the candidate
`d` of the node is offered to the heap.  The result is `none` when the test reads
`heap[0]` of an empty vector. -/
def offer (lib : StdAlgo) (k : Nat) (heap : List Distance) (d : Distance) :
    Option (List Distance) :=
  let wanted : Option Bool :=
    if heap.length < k then some true
    else heap.head?.map fun worst => d.distance.lt worst.distance
  match wanted with
  | none => none
  | some b =>
    some
      (if b then
        let pushed := lib.push_heap (heap ++ [d])
        if pushed.length > k then (lib.pop_heap pushed).dropLast else pushed
      else heap)

/-- The recursive `nearest` with a log: the same traversal as `nearestAux`, which
returns besides the heap the heaps as they stood after the offer at each visited
node, in the order of the visits. -/
def nearestLog (lib : StdAlgo) (point : Point) (k : Nat) :
    Node → List Distance → Option (List Distance × List (List Distance))
  | Node.null, heap => some (heap, [])
  | Node.mk npoint nrect left right axis, heap =>
    match offer lib k heap
      (Distance.mk (point.distance npoint) (Node.mk npoint nrect left right axis)) with
    | none => none
    | some heap1 =>
      let coord := point.coord axis
      let pivot := npoint.coord axis
      if coord < pivot then
        match nearestLog lib point k left heap1 with
        | none => none
        | some (heap2, log2) =>
          match heap2.head? with
          | none => none
          | some worst =>
            if Surd.add_ge coord worst.distance pivot then
              match nearestLog lib point k right heap2 with
              | none => none
              | some (heap3, log3) => some (heap3, heap1 :: (log2 ++ log3))
            else some (heap2, heap1 :: log2)
      else
        match nearestLog lib point k right heap1 with
        | none => none
        | some (heap2, log2) =>
          match heap2.head? with
          | none => none
          | some worst =>
            if Surd.sub_le coord worst.distance pivot then
              match nearestLog lib point k left heap2 with
              | none => none
              | some (heap3, log3) => some (heap3, heap1 :: (log2 ++ log3))
            else some (heap2, heap1 :: log2)

/-- What a traversal of the tree `t` that starts with the heap `heap` leaves, for the
heap `out` it returns and the heaps `log` it went through: all of them are heaps of
at least one and at most `k` candidates, the heap never shrinks, the heap returned
is the one started with or one of the log, and a heap returned with fewer than `k`
candidates holds the candidate of every node of `t`, all of which were visited. -/
def LogSpec (k : Nat) (point : Point) (t : Node) (heap out : List Distance)
    (log : List (List Distance)) : Prop :=
  IsHeap out ∧ out.length ≤ k ∧ heap.length ≤ out.length ∧ out ∈ heap :: log ∧
  (t ≠ Node.null → out ∈ log) ∧
  (∀ h ∈ log, IsHeap h ∧ 1 ≤ h.length ∧ h.length ≤ k) ∧
  (out.length < k → out.Perm (heap ++ cands point t) ∧ log.length = t.size)

end kdtree

/-! ## The two-tier cache of `lfru-buddy` -/

namespace lfru

/-- The allocator a `Cache` is instantiated with (template parameter `Allocator`;
its code is not part of the repository), over its own state `A`:
`create a key` is the allocator after `m_alloc.create<T>(key)`, or `none` when the
call throws; `destroy a e` is the allocator after `m_alloc.destroy(e)`. -/
structure Allocator (A Key : Type) where
  create : A → Key → Option A
  destroy : A → Key → A

/-- The data members of a `Cache`.  A `KeyProvider *` held in a list is modelled by
the key its element was created with, which is what `*elem == key` compares. -/
structure Cache (A Key : Type) where
  m_max_top_size : Nat
  m_max_low_size : Nat
  lru : List Key
  fifo : List Key
  m_alloc : A

/-- The constructor `Cache(cache_size, alloc_args...)`. -/
def Cache.new {A Key : Type} (cache_size : Nat) (a : A) : Cache A Key :=
  { m_max_top_size := cache_size, m_max_low_size := cache_size, lru := [], fifo := [],
    m_alloc := a }

/-- The method `Cache::size`. -/
def Cache.size {A Key : Type} (c : Cache A Key) : Nat := c.lru.length + c.fifo.length

/-- How a call of `Cache::get` ends: it returns the element `elem` and leaves the
state `c`; or `create` throws and the state `c` is left; or the call reads `back()`
of an empty list, which is undefined. -/
inductive GetResult (A Key : Type) where
  | value (elem : Key) (c : Cache A Key) : GetResult A Key
  | bad_alloc (c : Cache A Key) : GetResult A Key
  | undefined : GetResult A Key

/-- The state a call leaves, when it leaves one. -/
def GetResult.state? {A Key : Type} : GetResult A Key → Option (Cache A Key)
  | GetResult.value _ c => some c
  | GetResult.bad_alloc c => some c
  | GetResult.undefined => none

/-- The method `Cache::get(key)`.  `std::find_if` with the test `*elem == key` finds
the first element of the key, so it succeeds exactly when the key is in the list;
`splice(lru.begin(), list, it)` takes that element out of its list and puts it at
the front of `lru`. -/
def Cache.get {A Key : Type} [DecidableEq Key] (alloc : Allocator A Key) (c : Cache A Key)
    (key : Key) : GetResult A Key :=
  if key ∈ c.lru then
    GetResult.value key { c with lru := key :: c.lru.erase key }
  else if key ∈ c.fifo then
    if c.m_max_top_size = c.lru.length then
      match c.lru.getLast? with
      | none => GetResult.undefined
      | some back =>
        GetResult.value key
          { c with lru := key :: c.lru.dropLast, fifo := back :: c.fifo.erase key }
    else
      GetResult.value key { c with lru := key :: c.lru, fifo := c.fifo.erase key }
  else
    match alloc.create c.m_alloc key with
    | none => GetResult.bad_alloc c
    | some a1 =>
      if c.m_max_low_size = c.fifo.length then
        match c.fifo.getLast? with
        | none => GetResult.undefined
        | some back =>
          GetResult.value key
            { c with fifo := key :: c.fifo.dropLast, m_alloc := alloc.destroy a1 back }
      else
        GetResult.value key { c with fifo := key :: c.fifo, m_alloc := a1 }

/-- The states of a cache constructed with `cache_size`: the fresh one, and every
state a call of `get` leaves from one of them. -/
inductive Cache.Reachable {A Key : Type} [DecidableEq Key] (alloc : Allocator A Key)
    (cache_size : Nat) (a0 : A) : Cache A Key → Prop
  | new : Cache.Reachable alloc cache_size a0 (Cache.new cache_size a0)
  | get (c c1 : Cache A Key) (key : Key) : Cache.Reachable alloc cache_size a0 c →
      (c.get alloc key).state? = some c1 → Cache.Reachable alloc cache_size a0 c1

/-- The invariant of a cache of `cache_size`: each list holds at most `cache_size`
entries and no key occurs twice across the two lists. -/
def Cache.Inv {A Key : Type} (cache_size : Nat) (c : Cache A Key) : Prop :=
  c.m_max_top_size = cache_size ∧ c.m_max_low_size = cache_size ∧
  c.lru.length ≤ cache_size ∧ c.fifo.length ≤ cache_size ∧ (c.lru ++ c.fifo).Nodup

/-- An allocator that never fails, over a trivial state. -/
def unit_allocator : Allocator Unit Nat :=
  { create := fun _ _ => some (), destroy := fun _ _ => () }

end lfru

/-! ## The buddy allocator of `lfru-buddy` -/

namespace pool

/-- The loop of `block_size(pool_size)`, over the `std::size_t` variables `value`
and `block_size` (64 bits, so `value <<= 1` and `++block_size` wrap).  The fuel
bounds the number of iterations; `none` says the loop has not ended within it. -/
def block_size_loop (pool_size : Nat) : Nat → Nat → Nat → Option Nat
  | 0, _, _ => none
  | fuel + 1, value, block_size =>
    if value < pool_size then
      block_size_loop pool_size fuel ((value <<< 1) % 2 ^ 64) ((block_size + 1) % 2 ^ 64)
    else some block_size

/-- The function `block_size(pool_size)` of `pool.cpp`.  After 64 iterations `value`
is zero and stays so, hence 65 iterations are all the fuel the loop can use: `none`
says it never ends. -/
def block_size (pool_size : Nat) : Option Nat :=
  block_size_loop pool_size 65 1 0

/-- The function `pool_size(block_size)` of `pool.cpp`: `1U << block_size` on the
32-bit `unsigned int`, which is undefined (`none`) from a shift of 32 on. -/
def pool_size (block_size : Nat) : Option Nat :=
  if block_size < 32 then some (1 <<< block_size) else none

/-- The insertion `std::set<std::size_t>::insert(x)`, on the ascending sequence of
the set's elements. -/
def index_insert (x : Nat) : List Nat → List Nat
  | [] => [x]
  | y :: ys =>
    if x < y then x :: y :: ys
    else if x = y then y :: ys
    else y :: index_insert x ys

/-- The data members of a `PoolAllocator`: `m_storage` is kept by its size, each set
of `m_free` by its ascending sequence, and the map `m_sizes` by its entries. -/
structure PoolAllocator where
  min_block_size : Nat
  max_block_size : Nat
  m_storage : Nat
  m_free : List (List Nat)
  m_sizes : List (Nat × Nat)
  deriving DecidableEq, Repr

/-- The method `to_free_index`, a subtraction of `std::size_t`. -/
def to_free_index (s : PoolAllocator) (index : Nat) : Nat :=
  (index + 2 ^ 64 - s.min_block_size) % 2 ^ 64

/-- The statement `m_free[to_free_index(size)].insert(x)`; `none` when the vector is
indexed out of its bounds. -/
def free_insert (s : PoolAllocator) (size x : Nat) : Option PoolAllocator :=
  match s.m_free[to_free_index s size]? with
  | none => none
  | some l => some { s with m_free := s.m_free.set (to_free_index s size) (index_insert x l) }

/-- The method `delete_index(size)`: the least index of the free set of this order,
which is taken out of the set; `none` when the vector is indexed out of its bounds
or the set is empty. -/
def delete_index (s : PoolAllocator) (size : Nat) : Option (Nat × PoolAllocator) :=
  match s.m_free[to_free_index s size]? with
  | some (index :: rest) =>
    some (index, { s with m_free := s.m_free.set (to_free_index s size) rest })
  | _ => none

/-- The constructor `PoolAllocator(min_p, max_p)` over the 32-bit `unsigned`
parameters; `none` when `1U << max_p` is undefined or `m_free` is indexed out of its
bounds. -/
def PoolAllocator.new (min_p max_p : Nat) : Option PoolAllocator :=
  match pool_size max_p with
  | none => none
  | some storage =>
    free_insert
      { min_block_size := min_p, max_block_size := max_p, m_storage := storage,
        m_free := List.replicate ((max_p + 2 ^ 32 - min_p + 1) % 2 ^ 32) [],
        m_sizes := [] }
      max_p 0

/-- The assignment `m_sizes[index] = size`. -/
def sizes_assign (index size : Nat) (m : List (Nat × Nat)) : List (Nat × Nat) :=
  (index, size) :: m.filter fun e => e.1 ≠ index

/-- The value of `m_sizes[index]`, which is 0 for a key the map does not hold. -/
def sizes_lookup (index : Nat) (m : List (Nat × Nat)) : Nat :=
  (m.lookup index).getD 0

/-- The statement `m_sizes.erase(index)`. -/
def sizes_erase (index : Nat) (m : List (Nat × Nat)) : List (Nat × Nat) :=
  m.filter fun e => e.1 ≠ index

/-- The inner loop of `allocate` (lines 38 to 43), by the number of iterations left:
with `r + 1` left, `current` is `min_size + r`. -/
def split (min_size : Nat) : Nat → Nat → PoolAllocator → Option (Nat × PoolAllocator)
  | 0, index, s => some (index, s)
  | r + 1, index, s =>
    match pool_size (min_size + r) with
    | none => none
    | some p =>
      match free_insert s (min_size + r) index with
      | none => none
      | some s1 =>
        match free_insert s1 (min_size + r) (index + p) with
        | none => none
        | some s2 =>
          match delete_index s2 (min_size + r) with
          | none => none
          | some (index1, s3) => split min_size r index1 s3

/-- How a call of `allocate` ends: it returns `&m_storage[index]` and leaves the
state `s`; it throws `std::bad_alloc` (the state is as before); its behaviour is
undefined; or it does not return. -/
inductive AllocResult where
  | block (index : Nat) (s : PoolAllocator) : AllocResult
  | bad_alloc : AllocResult
  | undefined : AllocResult
  | no_return : AllocResult
  deriving DecidableEq, Repr

/-- The outer loop of `allocate` (lines 35 to 47), by the number of iterations left. -/
def find_block (min_size : Nat) : Nat → Nat → PoolAllocator → AllocResult
  | 0, _, _ => AllocResult.bad_alloc
  | r + 1, size, s =>
    match s.m_free[to_free_index s size]? with
    | none => AllocResult.undefined
    | some [] => find_block min_size r (size + 1) s
    | some (_ :: _) =>
      match delete_index s size with
      | none => AllocResult.undefined
      | some (index, s1) =>
        match split min_size (size - min_size) index s1 with
        | none => AllocResult.undefined
        | some (index2, s2) =>
          AllocResult.block index2
            { s2 with m_sizes := sizes_assign index2 min_size s2.m_sizes }

/-- The method `PoolAllocator::allocate(n)`. -/
def allocate (s : PoolAllocator) (n : Nat) : AllocResult :=
  match block_size n with
  | none => AllocResult.no_return
  | some b =>
    find_block (max s.min_block_size b) (s.max_block_size + 1 - max s.min_block_size b)
      (max s.min_block_size b) s

/-- The loop of `deallocate` (lines 60 to 77), by the number of iterations left;
`current` is `*current_it`. -/
def merge : Nat → Nat → Nat → PoolAllocator → Option PoolAllocator
  | 0, _, _, s => some s
  | r + 1, current_size, current, s =>
    match pool_size current_size with
    | none => none
    | some p =>
      let buddy_number := current / p
      let buddy_address :=
        if buddy_number % 2 = 0 then current + p else (current + 2 ^ 64 - p) % 2 ^ 64
      match s.m_free[to_free_index s current_size]? with
      | none => none
      | some l =>
        if buddy_address ∈ l then
          let erased := s.m_free.set (to_free_index s current_size)
            ((l.erase current).erase buddy_address)
          match erased[to_free_index s current_size + 1]? with
          | none => none
          | some up =>
            let merged := if buddy_number % 2 = 0 then current else buddy_address
            let raised := erased.set (to_free_index s current_size + 1) (index_insert merged up)
            merge r (current_size + 1) merged { s with m_free := raised }
        else some s

/-- How a call of `deallocate` ends. -/
inductive DeallocResult where
  | done (s : PoolAllocator) : DeallocResult
  | bad_alloc : DeallocResult
  | undefined : DeallocResult
  deriving DecidableEq, Repr

/-- The method `PoolAllocator::deallocate(ptr)`, for the pointer
`&m_storage[0] + index`. -/
def deallocate (s : PoolAllocator) (index : Nat) : DeallocResult :=
  if s.m_storage - 1 < index then DeallocResult.bad_alloc
  else
    match free_insert s (sizes_lookup index s.m_sizes) index with
    | none => DeallocResult.undefined
    | some s1 =>
      match merge (s.max_block_size - sizes_lookup index s.m_sizes)
          (sizes_lookup index s.m_sizes) index s1 with
      | none => DeallocResult.undefined
      | some s2 => DeallocResult.done { s2 with m_sizes := sizes_erase index s2.m_sizes }


/-- How a block is held: in a free set, in `m_sizes`, or by a call of `allocate`
that has taken it out of a free set and not yet entered it in `m_sizes`. -/
inductive Tag where
  | free : Tag
  | used : Tag
  | held : Tag
  deriving DecidableEq, Repr

/-- The block at offset `i` of order `o` is free: `i` is in the free set of order
`o`. -/
def IsFree (s : PoolAllocator) (i o : Nat) : Prop :=
  s.min_block_size ≤ o ∧ ∃ l, s.m_free[o - s.min_block_size]? = some l ∧ i ∈ l

/-- The block at offset `i` of order `o` is allocated: `m_sizes` maps `i` to `o`. -/
def IsAlloc (s : PoolAllocator) (i o : Nat) : Prop := (i, o) ∈ s.m_sizes

/-- The byte at offset `x` lies in the block at offset `i` of order `o`. -/
def Covers (i o x : Nat) : Prop := i ≤ x ∧ x < i + 2 ^ o

/-- The blocks of a state, with the block a running call holds, if any. -/
def blocks (s : PoolAllocator) (held : Option (Nat × Nat)) : Tag → Nat → Nat → Prop
  | Tag.free, i, o => IsFree s i o
  | Tag.used, i, o => IsAlloc s i o
  | Tag.held, i, o => held = some (i, o)

/-- A family of blocks tiles the pool `[0, 2 ^ hi)`: every block has an order from
`lo` to `hi`, starts at a multiple of its size and ends within the pool; every byte
of the pool lies in a block; and two blocks that share a byte are the same block,
held the same way. -/
def Tiling (lo hi : Nat) (F : Tag → Nat → Nat → Prop) : Prop :=
  (∀ t i o, F t i o → lo ≤ o ∧ o ≤ hi ∧ 2 ^ o ∣ i ∧ i + 2 ^ o ≤ 2 ^ hi) ∧
  (∀ x, x < 2 ^ hi → ∃ t i o, F t i o ∧ Covers i o x) ∧
  (∀ t i o t' i' o' x, F t i o → F t' i' o' → Covers i o x → Covers i' o' x →
    t = t' ∧ i = i' ∧ o = o')

/-- The representation is sound: the orders are those of 32-bit shifts, the storage
has the size of the pool, `m_free` has a set for each order, kept ascending. -/
def WellFormed (s : PoolAllocator) : Prop :=
  s.min_block_size ≤ s.max_block_size ∧ s.max_block_size < 32 ∧
  s.m_storage = 2 ^ s.max_block_size ∧
  s.m_free.length = s.max_block_size - s.min_block_size + 1 ∧
  ∀ l ∈ s.m_free, l.Pairwise fun a b => a < b

/-- The invariant of the allocator: the free blocks and the allocated blocks tile the
pool. -/
def Inv (s : PoolAllocator) : Prop :=
  WellFormed s ∧ Tiling s.min_block_size s.max_block_size (blocks s none)

/-- The states of a `PoolAllocator(min_p, max_p)`: the constructed one, and every
state left by an `allocate` that returns a block or by a `deallocate` of the start of
an allocated block. -/
inductive Reachable (min_p max_p : Nat) : PoolAllocator → Prop
  | new (s : PoolAllocator) : PoolAllocator.new min_p max_p = some s → Reachable min_p max_p s
  | allocate (s s1 : PoolAllocator) (n index : Nat) : Reachable min_p max_p s →
      n < 2 ^ 64 → allocate s n = AllocResult.block index s1 → Reachable min_p max_p s1
  | deallocate (s s1 : PoolAllocator) (index order : Nat) : Reachable min_p max_p s →
      (index, order) ∈ s.m_sizes → deallocate s index = DeallocResult.done s1 →
      Reachable min_p max_p s1

end pool

/-! ## Exact distances are the real square roots

The code compares `double` distances and adds them to coordinates.  In exact
arithmetic these tests are the tests on radicands below. -/

theorem Point.distance_sq_nonneg (a p : Point) : 0 ≤ (a.distance p).sq := by
  simp only [Point.distance]
  have h1 := mul_self_nonneg (a.x - p.x)
  have h2 := mul_self_nonneg (a.y - p.y)
  omega

theorem Surd.lt_iff_real (a b : Surd) (ha : 0 ≤ a.sq) :
    a.lt b = true ↔ Real.sqrt (a.sq : ℝ) < Real.sqrt (b.sq : ℝ) := by
  have ha' : (0 : ℝ) ≤ (a.sq : ℝ) := by exact_mod_cast ha
  simp only [Surd.lt, decide_eq_true_eq]
  rw [Real.sqrt_lt_sqrt_iff ha']
  exact Int.cast_lt.symm

theorem Surd.add_ge_iff_real (coord pivot : Int) (d : Surd) :
    Surd.add_ge coord d pivot = true ↔ (coord : ℝ) + Real.sqrt (d.sq : ℝ) ≥ (pivot : ℝ) := by
  simp only [Surd.add_ge, Bool.or_eq_true, decide_eq_true_eq, ge_iff_le]
  have hsq := Real.sqrt_nonneg (d.sq : ℝ)
  by_cases h : pivot - coord ≤ 0
  · have h' : ((pivot : ℝ) - coord) ≤ 0 := by exact_mod_cast h
    constructor
    · intro _; linarith
    · intro _; exact Or.inl h
  · have hpos : (0 : ℝ) < (pivot : ℝ) - coord := by
      have : 0 < pivot - coord := by omega
      exact_mod_cast this
    have key := Real.le_sqrt' (y := (d.sq : ℝ)) hpos
    constructor
    · intro hor
      rcases hor with h1 | h1
      · exact absurd h1 h
      · have h3 : ((pivot : ℝ) - coord) * ((pivot : ℝ) - coord) ≤ (d.sq : ℝ) := by
          exact_mod_cast h1
        have h4 := key.mpr (by rw [pow_two]; exact h3)
        linarith
    · intro hle
      right
      have h1 : (pivot : ℝ) - coord ≤ Real.sqrt (d.sq : ℝ) := by linarith
      have h2 := key.mp h1
      rw [pow_two] at h2
      exact_mod_cast h2

theorem Surd.sub_le_iff_real (coord pivot : Int) (d : Surd) :
    Surd.sub_le coord d pivot = true ↔ (coord : ℝ) - Real.sqrt (d.sq : ℝ) ≤ (pivot : ℝ) := by
  simp only [Surd.sub_le, Bool.or_eq_true, decide_eq_true_eq]
  have hsq := Real.sqrt_nonneg (d.sq : ℝ)
  by_cases h : coord - pivot ≤ 0
  · have h' : ((coord : ℝ) - pivot) ≤ 0 := by exact_mod_cast h
    constructor
    · intro _; linarith
    · intro _; exact Or.inl h
  · have hpos : (0 : ℝ) < (coord : ℝ) - pivot := by
      have : 0 < coord - pivot := by omega
      exact_mod_cast this
    have key := Real.le_sqrt' (y := (d.sq : ℝ)) hpos
    constructor
    · intro hor
      rcases hor with h1 | h1
      · exact absurd h1 h
      · have h3 : ((coord : ℝ) - pivot) * ((coord : ℝ) - pivot) ≤ (d.sq : ℝ) := by
          exact_mod_cast h1
        have h4 := key.mpr (by rw [pow_two]; exact h3)
        linarith
    · intro hle
      right
      have h1 : (coord : ℝ) - pivot ≤ Real.sqrt (d.sq : ℝ) := by linarith
      have h2 := key.mp h1
      rw [pow_two] at h2
      exact_mod_cast h2

/-! ## The store: `std::set` insertion and `put` -/

theorem Point.eq_of_not_lt {p q : Point} (h1 : p.lt q = false) (h2 : q.lt p = false) :
    p = q := by
  obtain ⟨px, py⟩ := p
  obtain ⟨qx, qy⟩ := q
  simp only [Point.lt, Bool.or_eq_false_iff, Bool.and_eq_false_iff, decide_eq_false_iff_not,
    not_lt] at h1 h2
  have hy : py = qy := le_antisymm h2.1 h1.1
  subst hy
  have hx : px = qx := by
    rcases h1.2 with h | h
    · exact absurd rfl h
    · rcases h2.2 with h' | h'
      · exact absurd rfl h'
      · exact le_antisymm h' h
  rw [hx]

theorem set_insert_perm {p : Point} {l : List Point} (h : p ∉ l) :
    (set_insert p l).Perm (p :: l) := by
  induction l with
  | nil => simp [set_insert]
  | cons q qs ih =>
    have hq : p ≠ q := fun e => h (e ▸ List.mem_cons_self _ _)
    have hqs : p ∉ qs := fun e => h (List.mem_cons_of_mem _ e)
    unfold set_insert
    split
    · exact List.Perm.refl _
    · split
      · exact ((ih hqs).cons q).trans (List.Perm.swap p q qs)
      · rename_i h1 h2
        exact absurd (Point.eq_of_not_lt (by simpa using h1) (by simpa using h2)) hq

namespace kdtree

theorem put_all_points_perm (ps : List Point) :
    ∀ s : PointSet, ps.Nodup → (∀ p ∈ ps, p ∉ s.points) →
      (s.put_all ps).points.Perm (ps ++ s.points) := by
  induction ps with
  | nil => intro s _ _; simp [PointSet.put_all]
  | cons a as ih =>
    intro s hnd hdisj
    have ha : a ∉ s.points := hdisj a (List.mem_cons_self _ _)
    have hins : (s.put a).points.Perm (a :: s.points) := set_insert_perm ha
    have hnd2 := List.nodup_cons.mp hnd
    have hstep : (PointSet.put_all (s.put a) as).points.Perm (as ++ (s.put a).points) := by
      apply ih (s.put a) hnd2.2
      intro p hp hmem
      rcases List.mem_cons.mp (hins.subset hmem) with e | e
      · exact hnd2.1 (e ▸ hp)
      · exact hdisj p (List.mem_cons_of_mem _ hp) e
    have h1 : (as ++ (s.put a).points).Perm (as ++ a :: s.points) := hins.append_left as
    have h2 : (as ++ a :: s.points).Perm (a :: as ++ s.points) := by
      exact @List.perm_middle _ a as s.points
    exact (hstep.trans h1).trans h2

theorem put_all_new_points (ps : List Point) (hnd : ps.Nodup) :
    (PointSet.new.put_all ps).points.Perm ps := by
  have h := put_all_points_perm ps PointSet.new hnd (by intro p _; simp [PointSet.new])
  simpa [PointSet.new] using h

theorem build_if_need_points (lib : StdAlgo) (s : PointSet) :
    (PointSet.build_if_need lib s).points = s.points := by
  unfold PointSet.build_if_need PointSet.build
  split <;> rfl

theorem build_if_need_need_build (lib : StdAlgo) (s : PointSet) :
    (PointSet.build_if_need lib s).need_build = false := by
  unfold PointSet.build_if_need PointSet.build
  split
  · rfl
  · rename_i h; simpa using h

theorem put_all_need_build (ps : List Point) :
    ∀ s : PointSet, s.need_build = true → (s.put_all ps).need_build = true := by
  induction ps with
  | nil => intro s h; simpa [PointSet.put_all] using h
  | cons a as ih => intro s _; exact ih (s.put a) rfl

theorem put_all_root (ps : List Point) :
    ∀ s : PointSet, (s.put_all ps).root = s.root := by
  induction ps with
  | nil => intro s; rfl
  | cons a as ih => intro s; exact ih (s.put a)

/-- C7: after putting pairwise distinct points into an empty set, `size()` is the
number of points put and `empty()` is true exactly when that number is 0, whatever
the library algorithms do. -/
theorem size_and_empty_after_puts (lib : StdAlgo) (ps : List Point) (hnd : ps.Nodup) :
    (PointSet.size lib (PointSet.new.put_all ps)).1 = ps.length ∧
    ((PointSet.empty lib (PointSet.new.put_all ps)).1 = true ↔ ps.length = 0) := by
  have hperm := put_all_new_points ps hnd
  have hlen : (PointSet.new.put_all ps).points.length = ps.length := hperm.length_eq
  constructor
  · simp [PointSet.size, build_if_need_points, hlen]
  · simp only [PointSet.empty, build_if_need_points, List.isEmpty_iff, ← List.length_eq_zero,
      hlen]

theorem size_and_empty_after_puts_witness :
    [pt 2 3, pt 5 4, pt 9 6].Nodup ∧
    (PointSet.size sorting_lib (PointSet.new.put_all [pt 2 3, pt 5 4, pt 9 6])).1 = 3 ∧
    ((PointSet.empty sorting_lib (PointSet.new.put_all [pt 2 3, pt 5 4, pt 9 6])).1 = true
      ↔ [pt 2 3, pt 5 4, pt 9 6].length = 0) :=
  ⟨by decide, size_and_empty_after_puts sorting_lib [pt 2 3, pt 5 4, pt 9 6] (by decide)⟩

/-! ## The tree builder -/

theorem points_of_preorder (t : Node) : points_of (preorder_traversal t) = t.points := by
  induction t with
  | null => rfl
  | mk point rect left right axis ihl ihr =>
    simp only [preorder_traversal, points_of, List.filterMap_cons, Node.point?,
      List.filterMap_append, Node.points]
    simp only [points_of] at ihl ihr
    rw [ihl, ihr]

theorem nth_element_length {lib : StdAlgo} (hspec : NthElementSpec lib) (c : List Point)
    (axis : Axis) (hc : 2 ≤ c.length) :
    (lib.nth_element c (c.length / 2) axis).length = c.length :=
  (hspec c (c.length / 2) axis (by omega)).1.length_eq

theorem nth_element_split {lib : StdAlgo} (hspec : NthElementSpec lib) (c : List Point)
    (axis : Axis) (hc : 2 ≤ c.length) :
    ∃ middle after, (lib.nth_element c (c.length / 2) axis).drop (c.length / 2)
      = middle :: after := by
  have hlen := nth_element_length hspec c axis hc
  cases hd : (lib.nth_element c (c.length / 2) axis).drop (c.length / 2) with
  | nil =>
    have := congrArg List.length hd
    simp only [List.length_drop, List.length_nil, hlen] at this
    omega
  | cons m a => exact ⟨m, a, rfl⟩

theorem buildAux_null_step (lib : StdAlgo) (fuel : Nat) (c : List Point) (mn mx : Point)
    (depth : Nat) (hc : 2 ≤ c.length) (middle : Point) (after : List Point)
    (hs : (lib.nth_element c (c.length / 2) (get_axis depth)).drop (c.length / 2)
      = middle :: after) :
    buildAux lib (fuel + 1) Node.null c mn mx depth =
      Node.mk middle (Rect.mk mn mx)
        (buildAux lib fuel Node.null
          ((lib.nth_element c (c.length / 2) (get_axis depth)).take (c.length / 2)) mn
          (create_point mx (get_axis depth) (middle.coord (get_axis depth))) (depth + 1))
        (buildAux lib fuel Node.null after
          (create_point mn (get_axis depth) (middle.coord (get_axis depth))) mx (depth + 1))
        (get_axis depth) := by
  match c, hc, hs with
  | a :: b :: rest, _, hs =>
    simp only [buildAux]
    rw [hs]

theorem buildAux_reuse_step (lib : StdAlgo) (fuel : Nat) (point : Point) (rect : Rect)
    (left right : Node) (ax : Axis) (c : List Point) (mn mx : Point)
    (depth : Nat) (hc : 2 ≤ c.length) (middle : Point) (after : List Point)
    (hs : (lib.nth_element c (c.length / 2) (get_axis depth)).drop (c.length / 2)
      = middle :: after) :
    buildAux lib (fuel + 1) (Node.mk point rect left right ax) c mn mx depth =
      Node.mk point rect
        (buildAux lib fuel left
          ((lib.nth_element c (c.length / 2) (get_axis depth)).take (c.length / 2)) mn
          (create_point mx (get_axis depth) (middle.coord (get_axis depth))) (depth + 1))
        (buildAux lib fuel right after
          (create_point mn (get_axis depth) (middle.coord (get_axis depth))) mx (depth + 1))
        ax := by
  match c, hc, hs with
  | a :: b :: rest, _, hs =>
    simp only [buildAux]
    rw [hs]

/-- Induction over the recursion of `build` on an empty previous tree. -/
theorem build_induction {lib : StdAlgo} (hspec : NthElementSpec lib)
    (Q : List Point → Point → Point → Nat → Node → Prop)
    (hnil : ∀ mn mx depth, Q [] mn mx depth Node.null)
    (hone : ∀ p mn mx depth,
      Q [p] mn mx depth (Node.mk p (Rect.mk mn mx) Node.null Node.null (get_axis depth)))
    (hstep : ∀ c mn mx depth middle after l r, 2 ≤ c.length →
      (lib.nth_element c (c.length / 2) (get_axis depth)).drop (c.length / 2)
        = middle :: after →
      Q ((lib.nth_element c (c.length / 2) (get_axis depth)).take (c.length / 2)) mn
        (create_point mx (get_axis depth) (middle.coord (get_axis depth))) (depth + 1) l →
      Q after (create_point mn (get_axis depth) (middle.coord (get_axis depth))) mx
        (depth + 1) r →
      Q c mn mx depth (Node.mk middle (Rect.mk mn mx) l r (get_axis depth))) :
    ∀ (fuel : Nat) (c : List Point) (mn mx : Point) (depth : Nat), c.length ≤ fuel →
      Q c mn mx depth (buildAux lib fuel Node.null c mn mx depth) := by
  intro fuel
  induction fuel with
  | zero =>
    intro c mn mx depth hlen
    have : c = [] := List.length_eq_zero.mp (by omega)
    subst this
    exact hnil mn mx depth
  | succ fuel ih =>
    intro c mn mx depth hlen
    rcases c with _ | ⟨a, _ | ⟨b, rest⟩⟩
    · exact hnil mn mx depth
    · exact hone a mn mx depth
    · have hc : 2 ≤ (a :: b :: rest).length := by simp
      generalize a :: b :: rest = c at hc hlen ⊢
      obtain ⟨middle, after, hs⟩ := nth_element_split hspec c (get_axis depth) hc
      have hl := nth_element_length hspec c (get_axis depth) hc
      rw [buildAux_null_step lib fuel c mn mx depth hc middle after hs]
      have hafter : after.length + 1 = c.length - c.length / 2 := by
        have := congrArg List.length hs
        simp only [List.length_drop, hl, List.length_cons] at this
        omega
      apply hstep _ _ _ _ _ _ _ _ hc hs
      · apply ih
        simp only [List.length_take, hl]
        omega
      · apply ih
        omega

theorem nth_element_parts {lib : StdAlgo} (hspec : NthElementSpec lib) (c : List Point)
    (axis : Axis) (hc : 2 ≤ c.length) (middle : Point) (after : List Point)
    (hs : (lib.nth_element c (c.length / 2) axis).drop (c.length / 2) = middle :: after) :
    (middle :: ((lib.nth_element c (c.length / 2) axis).take (c.length / 2) ++ after)).Perm c ∧
    (∀ a ∈ (lib.nth_element c (c.length / 2) axis).take (c.length / 2),
      a.coord axis ≤ middle.coord axis) ∧
    (∀ b ∈ after, middle.coord axis ≤ b.coord axis) := by
  obtain ⟨hperm, hpart, hnth⟩ := hspec c (c.length / 2) axis (by omega)
  have hsplit := List.take_append_drop (c.length / 2) (lib.nth_element c (c.length / 2) axis)
  rw [hs] at hsplit hpart hnth
  refine ⟨?_, ?_, ?_⟩
  · exact (List.perm_middle.symm.trans (List.Perm.of_eq hsplit)).trans hperm
  · intro a ha
    exact not_lt.mp (hpart a ha middle (List.mem_cons_self _ _))
  · intro b hb
    exact not_lt.mp (hnth middle (by simp) b (by simpa using hb))

theorem build_points_partitioned {lib : StdAlgo} (hspec : NthElementSpec lib) :
    ∀ (fuel : Nat) (c : List Point) (mn mx : Point) (depth : Nat), c.length ≤ fuel →
      (buildAux lib fuel Node.null c mn mx depth).points.Perm c ∧
      (buildAux lib fuel Node.null c mn mx depth).Partitioned := by
  apply build_induction hspec (fun c _ _ _ t => t.points.Perm c ∧ t.Partitioned)
  · intro _ _ _; exact ⟨List.Perm.refl _, trivial⟩
  · intro p _ _ _; exact ⟨List.Perm.refl _, by simp [Node.Partitioned, Node.points]⟩
  · intro c mn mx depth middle after l r hc hs hl hr
    obtain ⟨hperm, hle, hge⟩ := nth_element_parts hspec c (get_axis depth) hc middle after hs
    refine ⟨?_, ?_, ?_, hl.2, hr.2⟩
    · simp only [Node.points]
      exact ((hl.1.append hr.1).cons middle).trans hperm
    · intro q hq; exact hle q (hl.1.subset hq)
    · intro q hq; exact hge q (hr.1.subset hq)

/-! ## The reference libraries conform -/

theorem sorted_nth_spec (axis : Axis) (s : List Point) (hs : s.Sorted (coord_le axis))
    (n : Nat) :
    (∀ a ∈ s.take n, ∀ b ∈ s.drop n, ¬ (b.coord axis < a.coord axis)) ∧
    (∀ m ∈ (s.drop n).head?, ∀ b ∈ (s.drop n).tail, ¬ (b.coord axis < m.coord axis)) := by
  constructor
  · have h : (s.take n ++ s.drop n).Pairwise (coord_le axis) := by
      rw [List.take_append_drop]; exact hs
    intro a ha b hb
    exact not_lt.mpr ((List.pairwise_append.mp h).2.2 a ha b hb)
  · have h : (s.drop n).Pairwise (coord_le axis) := List.Pairwise.sublist (List.drop_sublist n s) hs
    intro m hm b hb
    cases hd : s.drop n with
    | nil => rw [hd] at hb; simp at hb
    | cons x xs =>
      rw [hd] at hm hb h
      simp only [List.head?_cons, Option.mem_def, Option.some.injEq] at hm
      subst hm
      exact not_lt.mpr ((List.pairwise_cons.mp h).1 b (by simpa using hb))

theorem sorting_lib_nth : NthElementSpec sorting_lib := by
  intro c n axis _
  exact ⟨List.perm_insertionSort _ c,
    sorted_nth_spec axis _ (List.sorted_insertionSort (coord_le axis) c) n⟩

theorem reversing_lib_nth : NthElementSpec reversing_lib := by
  intro c n axis _
  exact ⟨(List.perm_insertionSort _ c.reverse).trans (List.reverse_perm c),
    sorted_nth_spec axis _ (List.sorted_insertionSort (coord_le axis) c.reverse) n⟩

theorem isHeap_of_sorted (h : List Distance) (hs : h.Sorted dist_ge) : IsHeap h := by
  intro i hi hpos
  have hlt : (i - 1) / 2 < i := by omega
  have hrel := (List.pairwise_iff_get.mp hs) ⟨(i - 1) / 2, by omega⟩ ⟨i, hi⟩ hlt
  simp only [Distance.lt, Surd.lt, decide_eq_false_iff_not, not_lt]
  exact hrel

theorem sorting_lib_heap : HeapSpec sorting_lib := by
  constructor
  · intro h d _
    exact ⟨isHeap_of_sorted _ (List.sorted_insertionSort dist_ge (h ++ [d])),
      List.perm_insertionSort _ _⟩
  · intro d h _
    exact ⟨h.insertionSort dist_ge, rfl,
      isHeap_of_sorted _ (List.sorted_insertionSort dist_ge h), List.perm_insertionSort _ _⟩

theorem reversing_lib_heap : HeapSpec reversing_lib := sorting_lib_heap

/-! ## The first build after a run of puts -/

theorem build_if_need_put_all_root (lib : StdAlgo) (ps : List Point) :
    (PointSet.build_if_need lib (PointSet.new.put_all ps)).root =
      buildAux lib (PointSet.new.put_all ps).points.length Node.null
        (PointSet.new.put_all ps).points (Point.mk dbl_min dbl_min) (Point.mk dbl_max dbl_max) 0 := by
  have hnb : (PointSet.new.put_all ps).need_build = true := put_all_need_build ps _ rfl
  have hroot : (PointSet.new.put_all ps).root = Node.null := put_all_root ps _
  simp only [PointSet.build_if_need, hnb, if_true, PointSet.build, hroot]

theorem build_if_need_put_all_dfs (lib : StdAlgo) (ps : List Point) :
    (PointSet.build_if_need lib (PointSet.new.put_all ps)).dfs =
      preorder_traversal (PointSet.build_if_need lib (PointSet.new.put_all ps)).root := by
  have hnb : (PointSet.new.put_all ps).need_build = true := put_all_need_build ps _ rfl
  simp only [PointSet.build_if_need, hnb, if_true, PointSet.build]

theorem first_build_points {lib : StdAlgo} (hspec : NthElementSpec lib) (ps : List Point)
    (hnd : ps.Nodup) :
    (PointSet.build_if_need lib (PointSet.new.put_all ps)).root.points.Perm ps := by
  rw [build_if_need_put_all_root]
  exact ((build_points_partitioned hspec _ _ _ _ 0 (le_refl _)).1).trans
    (put_all_new_points ps hnd)

theorem first_build_partitioned {lib : StdAlgo} (hspec : NthElementSpec lib) (ps : List Point) :
    (PointSet.build_if_need lib (PointSet.new.put_all ps)).root.Partitioned := by
  rw [build_if_need_put_all_root]
  exact (build_points_partitioned hspec _ _ _ _ 0 (le_refl _)).2

/-! ## Membership search -/

theorem Point.eq_iff (a b : Point) : a.eq b = true ↔ a = b := by
  obtain ⟨ax, ay⟩ := a
  obtain ⟨bx, lb⟩ := b
  simp [Point.eq]

theorem search_sound (t : Node) (q : Point) (h : search t q ≠ Node.null) : q ∈ t.points := by
  induction t with
  | null => exact absurd rfl h
  | mk point rect left right axis ihl ihr =>
    unfold search at h
    simp only [Node.points, List.mem_cons, List.mem_append]
    by_cases he : point.eq q = true
    · exact Or.inl ((Point.eq_iff point q).mp he).symm
    · rw [if_neg he] at h
      by_cases hg : Node.gt point axis q = true
      · rw [if_pos hg] at h
        exact Or.inr (Or.inl (ihl h))
      · rw [if_neg hg] at h
        exact Or.inr (Or.inr (ihr h))

/-- C8: after putting distinct points into an empty set (the tree is built by the
query), `contains(q)` is false for every point `q` that was not put. -/
theorem contains_false_of_not_put (lib : StdAlgo) (hspec : NthElementSpec lib)
    (ps : List Point) (hnd : ps.Nodup) (q : Point) (hq : q ∉ ps) :
    (PointSet.contains lib (PointSet.new.put_all ps) q).1 = false := by
  simp only [PointSet.contains, decide_eq_false_iff_not, not_not]
  by_contra hne
  exact hq ((first_build_points hspec ps hnd).subset (search_sound _ q hne))

theorem contains_false_of_not_put_witness :
    NthElementSpec sorting_lib ∧ [pt 2 3, pt 5 4, pt 9 6].Nodup ∧
    pt 4 7 ∉ [pt 2 3, pt 5 4, pt 9 6] ∧
    (PointSet.contains sorting_lib (PointSet.new.put_all [pt 2 3, pt 5 4, pt 9 6]) (pt 4 7)).1
      = false :=
  ⟨sorting_lib_nth, by decide, by decide,
    contains_false_of_not_put sorting_lib sorting_lib_nth [pt 2 3, pt 5 4, pt 9 6] (by decide)
      (pt 4 7) (by decide)⟩

/-! ## Range search -/

theorem rangeAux_sound (r : Rect) (t : Node) :
    (points_of (rangeAux t r)).Sublist t.points ∧
    ∀ q ∈ points_of (rangeAux t r), r.contains q = true := by
  induction t with
  | null => simp [rangeAux, points_of]
  | mk point nrect left right axis ihl ihr =>
    have hhere : ∀ (rest : List Node) (tl : List Point),
        (points_of rest).Sublist tl → (∀ q ∈ points_of rest, r.contains q = true) →
        (points_of ((if r.contains point = true then
            [Node.mk point nrect left right axis] else []) ++ rest)).Sublist (point :: tl) ∧
        ∀ q ∈ points_of ((if r.contains point = true then
            [Node.mk point nrect left right axis] else []) ++ rest), r.contains q = true := by
      intro rest tl hsub hall
      by_cases hc : r.contains point = true
      · simp only [hc, if_true, points_of, List.singleton_append, List.filterMap_cons,
          Node.point?]
        refine ⟨List.Sublist.cons₂ _ hsub, ?_⟩
        intro q hq
        rcases List.mem_cons.mp hq with e | e
        · rw [e]; exact hc
        · exact hall q e
      · simp only [hc, List.nil_append]
        exact ⟨List.Sublist.cons _ hsub, hall⟩
    have happ : ∀ (a b : List Node), points_of (a ++ b) = points_of a ++ points_of b := by
      intro a b; simp [points_of]
    unfold rangeAux
    simp only [Node.points]
    split
    · split
      · have := hhere (rangeAux left r ++ rangeAux right r)
          (left.points ++ right.points)
          (by rw [happ]; exact List.Sublist.append ihl.1 ihr.1)
          (by
            intro q hq
            rw [happ] at hq
            rcases List.mem_append.mp hq with e | e
            · exact ihl.2 q e
            · exact ihr.2 q e)
        simpa only [List.append_assoc] using this
      · split
        · exact hhere (rangeAux left r) (left.points ++ right.points)
            (ihl.1.trans (List.sublist_append_left _ _)) ihl.2
        · split
          · exact hhere (rangeAux right r) (left.points ++ right.points)
              (ihr.1.trans (List.sublist_append_right _ _)) ihr.2
          · have := hhere [] (left.points ++ right.points)
              (by simp [points_of]) (by simp [points_of])
            simpa only [List.append_nil] using this
    · simp [points_of]

/-- C4: after putting distinct points into an empty set (the tree is built by the
query), every point `range(R)` returns is one of the points put and lies in `R`
(bounds included), and no point is returned twice. -/
theorem range_sound (lib : StdAlgo) (hspec : NthElementSpec lib) (ps : List Point)
    (hnd : ps.Nodup) (R : Rect) :
    (∀ q ∈ (PointSet.range lib (PointSet.new.put_all ps) R).1,
      q ∈ ps ∧ R.xmin ≤ q.x ∧ q.x ≤ R.xmax ∧ R.ymin ≤ q.y ∧ q.y ≤ R.ymax) ∧
    (PointSet.range lib (PointSet.new.put_all ps) R).1.Nodup := by
  have hperm := first_build_points hspec ps hnd
  have hsound := rangeAux_sound R (PointSet.build_if_need lib (PointSet.new.put_all ps)).root
  simp only [PointSet.range]
  constructor
  · intro q hq
    have hc := hsound.2 q hq
    simp only [Rect.contains, Bool.and_eq_true, decide_eq_true_eq, ge_iff_le] at hc
    exact ⟨hperm.subset (hsound.1.subset hq), hc.1.1.1, hc.1.1.2, hc.1.2, hc.2⟩
  · exact List.Nodup.sublist hsound.1 (hperm.nodup_iff.mpr hnd)

theorem range_sound_witness :
    NthElementSpec sorting_lib ∧ [pt 2 3, pt 5 4, pt 9 6].Nodup ∧
    ((∀ q ∈ (PointSet.range sorting_lib (PointSet.new.put_all [pt 2 3, pt 5 4, pt 9 6])
        (Rect.mk (pt 0 0) (pt 6 6))).1,
      q ∈ [pt 2 3, pt 5 4, pt 9 6] ∧ (Rect.mk (pt 0 0) (pt 6 6)).xmin ≤ q.x ∧
        q.x ≤ (Rect.mk (pt 0 0) (pt 6 6)).xmax ∧ (Rect.mk (pt 0 0) (pt 6 6)).ymin ≤ q.y ∧
        q.y ≤ (Rect.mk (pt 0 0) (pt 6 6)).ymax) ∧
    (PointSet.range sorting_lib (PointSet.new.put_all [pt 2 3, pt 5 4, pt 9 6])
        (Rect.mk (pt 0 0) (pt 6 6))).1.Nodup) :=
  ⟨sorting_lib_nth, by decide,
    range_sound sorting_lib sorting_lib_nth [pt 2 3, pt 5 4, pt 9 6] (by decide)
      (Rect.mk (pt 0 0) (pt 6 6))⟩

/-! ## The edge policies of `nearest(point, k)` -/

/-- C9: after putting a non-empty list of distinct points into an empty set (the
tree is built by the query), `nearest(p, k)` with `k >= size()` returns the
preorder listing of the built tree, which holds every point put exactly once. -/
theorem nearest_returns_all (lib : StdAlgo) (hspec : NthElementSpec lib) (ps : List Point)
    (hnd : ps.Nodup) (hne : ps ≠ []) (p : Point) (k : Nat) (hk : ps.length ≤ k) :
    (PointSet.nearest lib (PointSet.new.put_all ps) p k).1 =
      some (points_of (preorder_traversal
        (PointSet.nearest lib (PointSet.new.put_all ps) p k).2.root)) ∧
    (points_of (preorder_traversal
      (PointSet.nearest lib (PointSet.new.put_all ps) p k).2.root)).Perm ps ∧
    (points_of (preorder_traversal
      (PointSet.nearest lib (PointSet.new.put_all ps) p k).2.root)).Nodup := by
  have hperm := first_build_points hspec ps hnd
  have hlen : (PointSet.build_if_need lib (PointSet.new.put_all ps)).points.length
      = ps.length := by
    rw [build_if_need_points]; exact (put_all_new_points ps hnd).length_eq
  have hpos : 0 < ps.length := List.length_pos.mpr hne
  have h1 : ((PointSet.build_if_need lib (PointSet.new.put_all ps)).points.isEmpty
      || k == 0) = false := by
    have ha : (PointSet.build_if_need lib (PointSet.new.put_all ps)).points.isEmpty = false := by
      cases hp : (PointSet.build_if_need lib (PointSet.new.put_all ps)).points with
      | nil => rw [hp] at hlen; simp at hlen; omega
      | cons _ _ => rfl
    have hb : (k == 0) = false := by
      simp only [beq_eq_false_iff_ne, ne_eq]; omega
    rw [ha, hb]; rfl
  have h2 : k ≥ (PointSet.build_if_need lib (PointSet.new.put_all ps)).points.length := by
    omega
  have hres : PointSet.nearest lib (PointSet.new.put_all ps) p k =
      (some (points_of (PointSet.build_if_need lib (PointSet.new.put_all ps)).dfs),
        PointSet.build_if_need lib (PointSet.new.put_all ps)) := by
    simp only [PointSet.nearest, h1, Bool.false_eq_true, if_false, h2, if_true]
  rw [hres, build_if_need_put_all_dfs, points_of_preorder]
  exact ⟨rfl, hperm, hperm.nodup_iff.mpr hnd⟩

theorem nearest_returns_all_witness :
    NthElementSpec sorting_lib ∧ [pt 2 3, pt 5 4, pt 9 6].Nodup ∧
    [pt 2 3, pt 5 4, pt 9 6] ≠ [] ∧ [pt 2 3, pt 5 4, pt 9 6].length ≤ 3 ∧
    ((PointSet.nearest sorting_lib (PointSet.new.put_all [pt 2 3, pt 5 4, pt 9 6])
        (pt 3 3) 3).1 =
      some (points_of (preorder_traversal
        (PointSet.nearest sorting_lib (PointSet.new.put_all [pt 2 3, pt 5 4, pt 9 6])
          (pt 3 3) 3).2.root)) ∧
    (points_of (preorder_traversal
      (PointSet.nearest sorting_lib (PointSet.new.put_all [pt 2 3, pt 5 4, pt 9 6])
        (pt 3 3) 3).2.root)).Perm [pt 2 3, pt 5 4, pt 9 6] ∧
    (points_of (preorder_traversal
      (PointSet.nearest sorting_lib (PointSet.new.put_all [pt 2 3, pt 5 4, pt 9 6])
        (pt 3 3) 3).2.root)).Nodup) :=
  ⟨sorting_lib_nth, by decide, by decide, by decide,
    nearest_returns_all sorting_lib sorting_lib_nth [pt 2 3, pt 5 4, pt 9 6] (by decide)
      (by decide) (pt 3 3) 3 (by decide)⟩

/-- C10: in every state, `nearest(p, k)` returns the empty sequence (and reads
nothing out of bounds) when `k = 0` and when the stored set is empty. -/
theorem nearest_returns_nothing (lib : StdAlgo) (s : PointSet) (p : Point) (k : Nat)
    (h : k = 0 ∨ s.points = []) :
    (PointSet.nearest lib s p k).1 = some [] := by
  have h1 : ((PointSet.build_if_need lib s).points.isEmpty || k == 0) = true := by
    rw [build_if_need_points]
    rcases h with h | h
    · subst h; simp
    · rw [h]; rfl
  simp only [PointSet.nearest, h1, if_true]

theorem nearest_returns_nothing_witness :
    ((0 : Nat) = 0 ∨ (PointSet.new.put_all [pt 2 3, pt 5 4]).points = []) ∧
    (PointSet.nearest sorting_lib (PointSet.new.put_all [pt 2 3, pt 5 4]) (pt 3 3) 0).1
      = some [] :=
  ⟨Or.inl rfl,
    nearest_returns_nothing sorting_lib (PointSet.new.put_all [pt 2 3, pt 5 4]) (pt 3 3) 0
      (Or.inl rfl)⟩

/-! ## Where the code departs from its contract -/

theorem nth_element_pair {lib : StdAlgo} (hspec : NthElementSpec lib) (a b : Point)
    (axis : Axis) (hlt : a.coord axis < b.coord axis) :
    lib.nth_element [a, b] 1 axis = [a, b] := by
  obtain ⟨hperm, hpart, _⟩ := hspec [a, b] 1 axis (by simp)
  have hab : a ≠ b := fun e => by rw [e] at hlt; exact lt_irrefl _ hlt
  have hnd : (lib.nth_element [a, b] 1 axis).Nodup :=
    hperm.nodup_iff.mpr (by simp [hab])
  have hlen := hperm.length_eq
  generalize lib.nth_element [a, b] 1 axis = s at hperm hpart hnd hlen
  match s, hlen with
  | [u, v], _ =>
    have hu : u ∈ [a, b] := hperm.subset (by simp)
    have hv : v ∈ [a, b] := hperm.subset (by simp)
    have hp := hpart u (by simp) v (by simp)
    have huv : u ≠ v := by
      intro e; rw [e] at hnd; simp at hnd
    simp only [List.mem_cons, List.mem_singleton, List.not_mem_nil, or_false] at hu hv
    rcases hu with hu | hu <;> rcases hv with hv | hv
    · exact absurd (hu.trans hv.symm) huv
    · rw [hu, hv]
    · rw [hu, hv] at hp; exact absurd hlt hp
    · exact absurd (hu.trans hv.symm) huv

/-- C1 (code at the failing input): with a conforming `nth_element`, after putting
`(0,0)`, `(0,1)`, `(0,2)`, `(0,3)` into an empty set, `contains((0,2))` is false.
The build partitions by the `x` coordinate alone, so the four tied points may go
to either side of the root, while the search goes to the side the `y` order says. -/
theorem contains_misses_tied_point :
    NthElementSpec reversing_lib ∧
    (PointSet.contains reversing_lib
      (PointSet.new.put_all [pt 0 0, pt 0 1, pt 0 2, pt 0 3]) (pt 0 2)).1 = false :=
  ⟨reversing_lib_nth, by decide⟩

theorem rebuild_after_read_root (lib : StdAlgo) (hspec : NthElementSpec lib) :
    (PointSet.build_if_need lib
      ((PointSet.build_if_need lib (PointSet.new.put (pt 1 1))).put (pt 2 2))).root =
    Node.mk (pt 1 1) (Rect.mk (Point.mk dbl_min dbl_min) (Point.mk dbl_max dbl_max))
      (Node.mk (pt 1 1)
        (Rect.mk (Point.mk dbl_min dbl_min) (Point.mk (dbl 2) dbl_max))
        Node.null Node.null Axis.Y)
      Node.null Axis.X := by
  have hs : lib.nth_element [pt 1 1, pt 2 2] ([pt 1 1, pt 2 2].length / 2) (get_axis 0)
      = [pt 1 1, pt 2 2] :=
    nth_element_pair hspec (pt 1 1) (pt 2 2) Axis.X (by decide)
  have hstate : (PointSet.build_if_need lib (PointSet.new.put (pt 1 1))).put (pt 2 2) =
      { root := Node.mk (pt 1 1)
          (Rect.mk (Point.mk dbl_min dbl_min) (Point.mk dbl_max dbl_max))
          Node.null Node.null Axis.X
        need_build := true
        points := [pt 1 1, pt 2 2]
        dfs := [Node.mk (pt 1 1)
          (Rect.mk (Point.mk dbl_min dbl_min) (Point.mk dbl_max dbl_max))
          Node.null Node.null Axis.X] } := by
    rfl
  rw [hstate]
  show buildAux lib 2
    (Node.mk (pt 1 1) (Rect.mk (Point.mk dbl_min dbl_min) (Point.mk dbl_max dbl_max))
      Node.null Node.null Axis.X)
    [pt 1 1, pt 2 2] (Point.mk dbl_min dbl_min) (Point.mk dbl_max dbl_max) 0 = _
  rw [buildAux_reuse_step lib 1 _ _ _ _ _ [pt 1 1, pt 2 2] _ _ 0 (by simp) (pt 2 2) []
    (by rw [hs]; rfl), hs]
  rfl

/-- C2 (code at the failing input): with every conforming `nth_element`, after
`put((1,1))`, a read, and `put((2,2))`, `contains((2,2))` is false.  The rebuild
finds the old root in place and keeps its point `(1,1)` instead of the pivot. -/
theorem contains_misses_point_put_after_read (lib : StdAlgo) (hspec : NthElementSpec lib) :
    (PointSet.contains lib
      ((PointSet.contains lib (PointSet.new.put (pt 1 1)) (pt 1 1)).2.put (pt 2 2))
      (pt 2 2)).1 = false := by
  show decide (search (PointSet.build_if_need lib
      ((PointSet.build_if_need lib (PointSet.new.put (pt 1 1))).put (pt 2 2))).root (pt 2 2)
      ≠ Node.null) = false
  rw [rebuild_after_read_root lib hspec]
  decide

theorem contains_misses_point_put_after_read_witness :
    NthElementSpec sorting_lib ∧
    (PointSet.contains sorting_lib
      ((PointSet.contains sorting_lib (PointSet.new.put (pt 1 1)) (pt 1 1)).2.put (pt 2 2))
      (pt 2 2)).1 = false :=
  ⟨sorting_lib_nth, contains_misses_point_put_after_read sorting_lib sorting_lib_nth⟩

/-- C3 (code at the failing input): whatever the library, after putting `(-1,-1)`
into an empty set, `range(Rect((-2,-2),(0,0)))` returns nothing although the
rectangle contains the point.  The root rect starts at
`std::numeric_limits<double>::min()`, a positive number, so the query rectangle
does not intersect it. -/
theorem range_misses_negative_point (lib : StdAlgo) :
    (Rect.mk (pt (-2) (-2)) (pt 0 0)).contains (pt (-1) (-1)) = true ∧
    (PointSet.range lib (PointSet.new.put_all [pt (-1) (-1)])
      (Rect.mk (pt (-2) (-2)) (pt 0 0))).1 = [] := by
  constructor
  · decide
  · rfl

/-- C6 (code at the failing input): with every conforming `nth_element`, after
`put((1,1))`, a read, `put((2,2))` and a second read, the dirty flag is false, the
store holds `(1,1)` and `(2,2)`, and the cached tree holds `(1,1)` twice. -/
theorem rebuilt_tree_keeps_old_points (lib : StdAlgo) (hspec : NthElementSpec lib) :
    (PointSet.build_if_need lib
      ((PointSet.build_if_need lib (PointSet.new.put (pt 1 1))).put (pt 2 2))).need_build
      = false ∧
    (PointSet.build_if_need lib
      ((PointSet.build_if_need lib (PointSet.new.put (pt 1 1))).put (pt 2 2))).points
      = [pt 1 1, pt 2 2] ∧
    (PointSet.build_if_need lib
      ((PointSet.build_if_need lib (PointSet.new.put (pt 1 1))).put (pt 2 2))).root.points
      = [pt 1 1, pt 1 1] := by
  refine ⟨build_if_need_need_build lib _, ?_, ?_⟩
  · rw [build_if_need_points]; rfl
  · rw [rebuild_after_read_root lib hspec]; rfl

theorem rebuilt_tree_keeps_old_points_witness :
    NthElementSpec sorting_lib ∧
    (PointSet.build_if_need sorting_lib
      ((PointSet.build_if_need sorting_lib (PointSet.new.put (pt 1 1))).put (pt 2 2))).root.points
      = [pt 1 1, pt 1 1] :=
  ⟨sorting_lib_nth, (rebuilt_tree_keeps_old_points sorting_lib sorting_lib_nth).2.2⟩

/-! ## The k-nearest traversal -/

theorem isHeap_nil : IsHeap [] := by
  intro i hi _
  exact absurd hi (by simp)

theorem isHeap_get_le_head (l : List Distance) (hh : IsHeap l) :
    ∀ (i : Nat) (hi : i < l.length),
      (l.get ⟨i, hi⟩).distance.sq ≤ (l.get ⟨0, by omega⟩).distance.sq := by
  intro i
  induction i using Nat.strong_induction_on with
  | _ i ih =>
    intro hi
    rcases Nat.eq_zero_or_pos i with h0 | hpos
    · subst h0; exact le_refl _
    · have hpar := hh i hi hpos
      simp only [Distance.lt, Surd.lt, decide_eq_false_iff_not, not_lt] at hpar
      exact le_trans hpar (ih ((i - 1) / 2) (by omega) (by omega))

theorem isHeap_head_max (w : Distance) (h : List Distance) (hh : IsHeap (w :: h)) :
    ∀ x ∈ w :: h, x.distance.sq ≤ w.distance.sq := by
  intro x hx
  obtain ⟨n, hn⟩ := List.mem_iff_get.mp hx
  have := isHeap_get_le_head (w :: h) hh n.1 n.2
  rw [← hn]
  exact this

theorem kbest_nil (k : Nat) : KBest k [] [] :=
  ⟨isHeap_nil, Nat.zero_le _, [], List.Perm.refl _, by simp, fun _ => rfl⟩

/-- The candidate offered at a node (lines 503 to 510 of `nearest`): the heap
stays the `k` best of what was seen, and is not empty afterwards. -/
theorem offer_kbest {lib : StdAlgo} (hheap : HeapSpec lib) (k : Nat) (hk : 1 ≤ k)
    (heap seen : List Distance) (hinv : KBest k heap seen) (dist : Surd) (nd : Node) :
    ∃ b, (if heap.length < k then some true
          else heap.head?.map fun worst => dist.lt worst.distance) = some b ∧
      KBest k
        (if b = true then
          (if (lib.push_heap (heap ++ [Distance.mk dist nd])).length > k then
            (lib.pop_heap (lib.push_heap (heap ++ [Distance.mk dist nd]))).dropLast
          else lib.push_heap (heap ++ [Distance.mk dist nd]))
        else heap) (seen ++ [Distance.mk dist nd]) ∧
      heap.length ≤
        (if b = true then
          (if (lib.push_heap (heap ++ [Distance.mk dist nd])).length > k then
            (lib.pop_heap (lib.push_heap (heap ++ [Distance.mk dist nd]))).dropLast
          else lib.push_heap (heap ++ [Distance.mk dist nd]))
        else heap).length ∧
      1 ≤
        (if b = true then
          (if (lib.push_heap (heap ++ [Distance.mk dist nd])).length > k then
            (lib.pop_heap (lib.push_heap (heap ++ [Distance.mk dist nd]))).dropLast
          else lib.push_heap (heap ++ [Distance.mk dist nd]))
        else heap).length := by
  obtain ⟨hH, hlen, rest, hperm, hdom, hfull⟩ := hinv
  obtain ⟨hpushH, hpushP⟩ := hheap.1 heap (Distance.mk dist nd) hH
  have hpushlen : (lib.push_heap (heap ++ [Distance.mk dist nd])).length = heap.length + 1 := by
    rw [hpushP.length_eq]; simp
  generalize hpd : lib.push_heap (heap ++ [Distance.mk dist nd]) = pushed at hpushH hpushP hpushlen
  by_cases hlt : heap.length < k
  · -- room left: the candidate is pushed and nothing is evicted
    refine ⟨true, by rw [if_pos hlt], ?_, ?_, ?_⟩
    · have hnot : ¬ pushed.length > k := by omega
      simp only [if_true, if_neg hnot]
      have hrest : rest = [] := hfull hlt
      subst hrest
      refine ⟨hpushH, by omega, [], ?_, by simp, fun _ => rfl⟩
      rw [List.append_nil] at hperm ⊢
      exact (hperm.append_right _).trans hpushP.symm
    · have hnot : ¬ pushed.length > k := by omega
      simp only [if_true, if_neg hnot]; omega
    · have hnot : ¬ pushed.length > k := by omega
      simp only [if_true, if_neg hnot]; omega
  · -- the heap is full
    have hfulllen : heap.length = k := by omega
    rcases heap with _ | ⟨w, tl⟩
    · simp only [List.length_nil] at hfulllen; omega
    · have hwmax := isHeap_head_max w tl hH
      by_cases hb : dist.lt w.distance = true
      · refine ⟨true, by rw [if_neg hlt]; simp [hb], ?_⟩
        have hgt : pushed.length > k := by omega
        simp only [if_true, if_pos hgt]
        rcases pushed with _ | ⟨d, h'⟩
        · simp only [List.length_nil] at hpushlen; omega
        · obtain ⟨rest0, hpop, hpopH, hpopP⟩ := hheap.2 d h' hpushH
          have hdmax := isHeap_head_max d h' hpushH
          rw [hpop, List.dropLast_concat]
          have hl0 : rest0.length = k := by
            have hp := hpopP.length_eq
            simp only [List.length_cons] at hpushlen hfulllen
            omega
          refine ⟨⟨hpopH, by omega, d :: rest, ?_, ?_, fun h => by omega⟩, by
            simp only [List.length_cons] at hfulllen ⊢; omega, by omega⟩
          · -- seen ++ [c] ~ rest0 ++ d :: rest
            have h1 : (seen ++ [Distance.mk dist nd]).Perm
                ((w :: tl) ++ rest ++ [Distance.mk dist nd]) := hperm.append_right _
            have h2 : ((w :: tl) ++ rest ++ [Distance.mk dist nd]).Perm
                ((w :: tl) ++ [Distance.mk dist nd] ++ rest) := by
              rw [List.append_assoc, List.append_assoc]
              exact List.Perm.append_left _ List.perm_append_comm
            have h3 : ((w :: tl) ++ [Distance.mk dist nd] ++ rest).Perm (d :: h' ++ rest) :=
              hpushP.symm.append_right _
            have h4 : (d :: h' ++ rest).Perm (rest0 ++ d :: rest) := by
              have : (d :: (h' ++ rest)).Perm (d :: (rest0 ++ rest)) :=
                (hpopP.symm.append_right rest).cons d
              exact this.trans List.perm_middle.symm
            exact ((h1.trans h2).trans h3).trans h4
          · intro h hh x hx
            have hhp : h ∈ d :: h' := List.mem_cons_of_mem _ (hpopP.subset hh)
            rcases List.mem_cons.mp hx with hxd | hxr
            · rw [hxd]; exact hdmax h hhp
            · have hhc : h ∈ (w :: tl) ++ [Distance.mk dist nd] := hpushP.subset hhp
              rcases List.mem_append.mp hhc with hin | hin
              · exact hdom h hin x hxr
              · have he : h = Distance.mk dist nd := by simpa using hin
                have hcw : dist.sq < w.distance.sq := by
                  simpa [Surd.lt] using hb
                have hwx := hdom w (List.mem_cons_self _ _) x hxr
                rw [he]
                exact le_of_lt (lt_of_lt_of_le hcw hwx)
      · refine ⟨false, by rw [if_neg hlt]; simp [hb], ?_, ?_, ?_⟩
        · simp only [Bool.false_eq_true, if_false]
          refine ⟨hH, by omega, rest ++ [Distance.mk dist nd], ?_, ?_, fun h => by omega⟩
          · rw [← List.append_assoc]
            exact hperm.append_right _
          · intro h hh x hx
            rcases List.mem_append.mp hx with hxr | hxc
            · exact hdom h hh x hxr
            · have he : x = Distance.mk dist nd := by simpa using hxc
              have hcw : w.distance.sq ≤ dist.sq := by
                simpa [Surd.lt] using hb
              rw [he]
              exact le_trans (hwmax h hh) hcw
        · simp
        · simp only [Bool.false_eq_true, if_false, List.length_cons]; omega

theorem cands_mk (point np : Point) (rect : Rect) (l r : Node) (ax : Axis) :
    cands point (Node.mk np rect l r ax) =
      Distance.mk (point.distance np) (Node.mk np rect l r ax)
        :: (cands point l ++ cands point r) := by
  simp [cands, preorder_traversal, cand]

theorem cands_spec (point : Point) (t : Node) :
    ∀ x ∈ cands point t, ∃ q ∈ t.points,
      x.distance = point.distance q ∧ x.node.point? = some q := by
  induction t with
  | null => intro x hx; simp [cands, preorder_traversal] at hx
  | mk np rect l r ax ihl ihr =>
    intro x hx
    rw [cands_mk] at hx
    simp only [Node.points, List.mem_cons, List.mem_append]
    rcases List.mem_cons.mp hx with e | e
    · exact ⟨np, Or.inl rfl, by rw [e], by rw [e]; rfl⟩
    · rcases List.mem_append.mp e with e | e
      · obtain ⟨q, hq, h1, h2⟩ := ihl x e
        exact ⟨q, Or.inr (Or.inl hq), h1, h2⟩
      · obtain ⟨q, hq, h1, h2⟩ := ihr x e
        exact ⟨q, Or.inr (Or.inr hq), h1, h2⟩

theorem KBest.perm {k : Nat} {heap seen seen' : List Distance} (h : KBest k heap seen)
    (hp : seen'.Perm seen) : KBest k heap seen' := by
  obtain ⟨hH, hlen, rest, hperm, hdom, hfull⟩ := h
  exact ⟨hH, hlen, rest, hp.trans hperm, hdom, hfull⟩

theorem sq_gap_le_distance (point q : Point) (ax : Axis) (g : Int)
    (hg : g * g ≤ (point.coord ax - q.coord ax) * (point.coord ax - q.coord ax)) :
    g * g ≤ (point.distance q).sq := by
  obtain ⟨px, py⟩ := point
  obtain ⟨qx, qy⟩ := q
  cases ax
  · simp only [Point.coord, if_true] at hg
    simp only [Point.distance]
    have := mul_self_nonneg (py - qy)
    omega
  · simp only [Point.coord, reduceCtorEq, if_false] at hg
    simp only [Point.distance]
    have := mul_self_nonneg (px - qx)
    omega

/-- A far subtree may be skipped: when the worst held candidate is closer than
the splitting line, and the node itself was seen, the heap is still the `k` best
after counting the far candidates as seen. -/
theorem skip_kbest (k : Nat) (worst : Distance) (tl seen far : List Distance)
    (hinv : KBest k (worst :: tl) seen) (c : Distance) (hc : c ∈ seen) (g : Int)
    (hgc : g ≤ c.distance.sq) (hfar : ∀ x ∈ far, g ≤ x.distance.sq)
    (hworst : worst.distance.sq < g) :
    KBest k (worst :: tl) (seen ++ far) := by
  obtain ⟨hH, hlen, rest, hperm, hdom, hfull⟩ := hinv
  have hmax := isHeap_head_max worst tl hH
  refine ⟨hH, hlen, rest ++ far, ?_, ?_, ?_⟩
  · rw [← List.append_assoc]
    exact hperm.append_right far
  · intro h hh x hx
    rcases List.mem_append.mp hx with e | e
    · exact hdom h hh x e
    · exact le_of_lt (lt_of_le_of_lt (hmax h hh) (lt_of_lt_of_le hworst (hfar x e)))
  · intro hshort
    have hrest := hfull hshort
    subst hrest
    rw [List.append_nil] at hperm
    have hcm : c ∈ worst :: tl := hperm.subset hc
    have := hmax c hcm
    omega

/-- The two recursive calls of `nearest` at a node (lines 513 to 524), for either
order of the children. -/
theorem visit_children_kbest {lib : StdAlgo} (k : Nat) (point : Point) (near far : Node)
    (heap1 seen1 : List Distance) (c : Distance) (hc : c ∈ seen1)
    (hk1 : KBest k heap1 seen1) (hpos1 : 1 ≤ heap1.length)
    (ihn : ∀ heap seen : List Distance, KBest k heap seen →
      ∃ heap', nearestAux lib point k near heap = some heap' ∧
        KBest k heap' (seen ++ cands point near) ∧ heap.length ≤ heap'.length)
    (ihf : ∀ heap seen : List Distance, KBest k heap seen →
      ∃ heap', nearestAux lib point k far heap = some heap' ∧
        KBest k heap' (seen ++ cands point far) ∧ heap.length ≤ heap'.length)
    (test : Surd → Bool) (g : Int) (htest : ∀ d : Surd, test d = false → d.sq < g)
    (hgc : g ≤ c.distance.sq) (hgfar : ∀ x ∈ cands point far, g ≤ x.distance.sq) :
    ∃ heap',
      (match nearestAux lib point k near heap1 with
        | none => none
        | some heap2 =>
          match heap2.head? with
          | none => none
          | some worst =>
            if test worst.distance = true then nearestAux lib point k far heap2
            else some heap2) = some heap' ∧
      KBest k heap' (seen1 ++ cands point near ++ cands point far) ∧
      heap1.length ≤ heap'.length := by
  obtain ⟨heap2, hn, hk2, hlen2⟩ := ihn heap1 seen1 hk1
  rw [hn]
  rcases heap2 with _ | ⟨worst, tl⟩
  · simp only [List.length_nil] at hlen2; omega
  · simp only [List.head?_cons]
    by_cases ht : test worst.distance = true
    · rw [if_pos ht]
      obtain ⟨heap3, hf, hk3, hlen3⟩ := ihf (worst :: tl) (seen1 ++ cands point near) hk2
      exact ⟨heap3, hf, hk3, le_trans hlen2 hlen3⟩
    · rw [if_neg ht]
      refine ⟨worst :: tl, rfl, ?_, hlen2⟩
      exact skip_kbest k worst tl (seen1 ++ cands point near) (cands point far) hk2 c
        (List.mem_append_left _ hc) g hgc hgfar (htest worst.distance (by simpa using ht))

/-- The recursive `nearest` keeps the heap the `k` best of the candidates seen,
returns (it reads `heap[0]` only of a non-empty heap), and never shrinks the heap. -/
theorem nearestAux_kbest {lib : StdAlgo} (hheap : HeapSpec lib) (point : Point) (k : Nat)
    (hk : 1 ≤ k) :
    ∀ t : Node, t.Partitioned → ∀ heap seen : List Distance, KBest k heap seen →
      ∃ heap', nearestAux lib point k t heap = some heap' ∧
        KBest k heap' (seen ++ cands point t) ∧ heap.length ≤ heap'.length := by
  intro t
  induction t with
  | null =>
    intro _ heap seen hinv
    exact ⟨heap, rfl, by simpa [cands, preorder_traversal] using hinv, le_refl _⟩
  | mk np rect l r ax ihl ihr =>
    intro hpart heap seen hinv
    obtain ⟨hleft, hright, hpl, hpr⟩ := hpart
    obtain ⟨b, hb, hk1, hlen1, hpos1⟩ := offer_kbest hheap k hk heap seen hinv
      (point.distance np) (Node.mk np rect l r ax)
    generalize hh1 : (if b = true then
        (if (lib.push_heap (heap ++ [Distance.mk (point.distance np)
            (Node.mk np rect l r ax)])).length > k then
          (lib.pop_heap (lib.push_heap (heap ++ [Distance.mk (point.distance np)
            (Node.mk np rect l r ax)]))).dropLast
        else lib.push_heap (heap ++ [Distance.mk (point.distance np)
          (Node.mk np rect l r ax)]))
      else heap) = heap1 at hk1 hlen1 hpos1
    unfold nearestAux
    simp only [hb, hh1]
    have hcm : Distance.mk (point.distance np) (Node.mk np rect l r ax) ∈
        seen ++ [Distance.mk (point.distance np) (Node.mk np rect l r ax)] := by simp
    by_cases hside : point.coord ax < np.coord ax
    · rw [if_pos hside]
      obtain ⟨heap', h1, h2, h3⟩ := visit_children_kbest k point l r heap1 _ _ hcm hk1 hpos1
        (ihl hpl) (ihr hpr) (fun d => Surd.add_ge (point.coord ax) d (np.coord ax))
        ((np.coord ax - point.coord ax) * (np.coord ax - point.coord ax))
        (by
          intro d hd
          simp only [Surd.add_ge, Bool.or_eq_false_iff, decide_eq_false_iff_not, not_le] at hd
          exact hd.2)
        (by
          apply sq_gap_le_distance point np ax
          have : (np.coord ax - point.coord ax) * (np.coord ax - point.coord ax) =
            (point.coord ax - np.coord ax) * (point.coord ax - np.coord ax) := by ring
          exact le_of_eq this)
        (by
          intro x hx
          obtain ⟨q, hq, hd, _⟩ := cands_spec point r x hx
          rw [hd]
          apply sq_gap_le_distance point q ax
          have hqc := hright q hq
          have h0 : 0 ≤ np.coord ax - point.coord ax := by omega
          have h1 : np.coord ax - point.coord ax ≤ q.coord ax - point.coord ax := by omega
          have := mul_self_le_mul_self h0 h1
          have e : (q.coord ax - point.coord ax) * (q.coord ax - point.coord ax) =
            (point.coord ax - q.coord ax) * (point.coord ax - q.coord ax) := by ring
          rw [e] at this
          exact this)
      refine ⟨heap', h1, ?_, le_trans hlen1 h3⟩
      rw [cands_mk]
      simpa only [List.append_assoc, List.singleton_append] using h2
    · rw [if_neg hside]
      obtain ⟨heap', h1, h2, h3⟩ := visit_children_kbest k point r l heap1 _ _ hcm hk1 hpos1
        (ihr hpr) (ihl hpl) (fun d => Surd.sub_le (point.coord ax) d (np.coord ax))
        ((point.coord ax - np.coord ax) * (point.coord ax - np.coord ax))
        (by
          intro d hd
          simp only [Surd.sub_le, Bool.or_eq_false_iff, decide_eq_false_iff_not, not_le] at hd
          exact hd.2)
        (sq_gap_le_distance point np ax _ (le_refl _))
        (by
          intro x hx
          obtain ⟨q, hq, hd, _⟩ := cands_spec point l x hx
          rw [hd]
          apply sq_gap_le_distance point q ax
          have hqc := hleft q hq
          have h0 : 0 ≤ point.coord ax - np.coord ax := by omega
          have h1 : point.coord ax - np.coord ax ≤ point.coord ax - q.coord ax := by omega
          exact mul_self_le_mul_self h0 h1)
      refine ⟨heap', h1, ?_, le_trans hlen1 h3⟩
      refine h2.perm ?_
      rw [cands_mk]
      simp only [List.append_assoc, List.singleton_append]
      exact List.Perm.append_left _ (List.Perm.cons _ List.perm_append_comm)

theorem cands_map_node (point : Point) (t : Node) :
    (cands point t).map Distance.node = preorder_traversal t := by
  have h : ∀ n : Node, (cand point n).node = n := by
    intro n; cases n <;> rfl
  simp only [cands, List.map_map]
  conv_rhs => rw [← List.map_id (preorder_traversal t)]
  exact List.map_congr_left (fun n _ => h n)

theorem points_of_map_node (l : List Distance) :
    points_of (l.map Distance.node) = l.filterMap fun x => x.node.point? := by
  simp only [points_of, List.filterMap_map]
  rfl

theorem length_filterMap_some {α β : Type} (f : α → Option β) (l : List α)
    (h : ∀ x ∈ l, ∃ q, f x = some q) : (l.filterMap f).length = l.length := by
  induction l with
  | nil => rfl
  | cons a as ih =>
    obtain ⟨q, hq⟩ := h a (List.mem_cons_self _ _)
    rw [List.filterMap_cons_some hq, List.length_cons, List.length_cons,
      ih (fun x hx => h x (List.mem_cons_of_mem _ hx))]

theorem distance_sq_cast (p q : Point) :
    (((p.distance q).sq : Int) : ℝ) = ((p.x : ℝ) - q.x) ^ 2 + ((p.y : ℝ) - q.y) ^ 2 := by
  simp only [Point.distance]
  push_cast
  ring

theorem nearest_of_traversal (lib : StdAlgo) (s : PointSet) (p : Point) (k : Nat)
    (h1 : ((PointSet.build_if_need lib s).points.isEmpty || k == 0) = false)
    (h2 : ¬ k ≥ (PointSet.build_if_need lib s).points.length) (heap : List Distance)
    (hrun : nearestAux lib p k (PointSet.build_if_need lib s).root [] = some heap) :
    (PointSet.nearest lib s p k).1 = some (points_of (heap.map Distance.node)) := by
  simp only [PointSet.nearest, h1, Bool.false_eq_true, if_false, h2, hrun]

/-- After a first build of distinct points, `nearest(p, k)` with `1 <= k < size()`
returns exactly `k` distinct stored points, and the squared distance of each is at
most that of every stored point left out. -/
theorem nearest_k_core (lib : StdAlgo) (hnth : NthElementSpec lib) (hheap : HeapSpec lib)
    (ps : List Point) (hnd : ps.Nodup) (p : Point) (k : Nat) (hk1 : 1 ≤ k)
    (hk2 : k < ps.length) :
    ∃ out, (PointSet.nearest lib (PointSet.new.put_all ps) p k).1 = some out ∧
      out.length = k ∧ out.Nodup ∧ (∀ q ∈ out, q ∈ ps) ∧
      ∀ q ∈ out, ∀ r ∈ ps, r ∉ out → (p.distance q).sq ≤ (p.distance r).sq := by
  have hperm := first_build_points hnth ps hnd
  have hpart := first_build_partitioned hnth ps
  have hlen : (PointSet.build_if_need lib (PointSet.new.put_all ps)).points.length
      = ps.length := by
    rw [build_if_need_points]; exact (put_all_new_points ps hnd).length_eq
  generalize hs1 : PointSet.build_if_need lib (PointSet.new.put_all ps) = s1
    at hperm hpart hlen
  obtain ⟨heap, hrun, hbest, _⟩ :=
    nearestAux_kbest hheap p k hk1 s1.root hpart [] [] (kbest_nil k)
  obtain ⟨_, hheaplen, rest, hsplit, hdom, hfull⟩ := hbest
  rw [List.nil_append] at hsplit
  -- the guards of `nearest` do not fire
  have h1 : (s1.points.isEmpty || k == 0) = false := by
    have ha : s1.points.isEmpty = false := by
      cases hp : s1.points with
      | nil => rw [hp] at hlen; simp only [List.length_nil] at hlen; omega
      | cons _ _ => rfl
    have hb : (k == 0) = false := by
      simp only [beq_eq_false_iff_ne, ne_eq]; omega
    rw [ha, hb]; rfl
  have h2 : ¬ k ≥ s1.points.length := by omega
  have hres : (PointSet.nearest lib (PointSet.new.put_all ps) p k).1 =
      some (points_of (heap.map Distance.node)) :=
    nearest_of_traversal lib (PointSet.new.put_all ps) p k (by rw [hs1]; exact h1)
      (by rw [hs1]; exact h2) heap (by rw [hs1]; exact hrun)
  -- the points of the candidates
  have hall : (cands p s1.root).filterMap (fun x => x.node.point?) = s1.root.points := by
    rw [← points_of_map_node, cands_map_node, points_of_preorder]
  have hsome : ∀ x ∈ heap ++ rest, ∃ q ∈ s1.root.points,
      x.distance = p.distance q ∧ x.node.point? = some q :=
    fun x hx => cands_spec p s1.root x (hsplit.symm.subset hx)
  have hpts : (heap.filterMap (fun x => x.node.point?) ++
      rest.filterMap (fun x => x.node.point?)).Perm ps := by
    rw [← List.filterMap_append]
    exact ((hsplit.filterMap _).symm.trans (List.Perm.of_eq hall)).trans hperm
  have hcount : heap.length + rest.length = ps.length := by
    have e1 := hsplit.length_eq
    have e2 : (cands p s1.root).length = s1.root.points.length := by
      rw [← hall]
      exact (length_filterMap_some _ _ (cands_spec p s1.root |> fun h x hx =>
        (h x hx).imp fun q hq => hq.2.2)).symm
    rw [List.length_append] at e1
    rw [← hperm.length_eq]; omega
  have hk : heap.length = k := by
    by_contra hne
    have hlt : heap.length < k := by omega
    have := hfull hlt
    subst this
    simp only [List.length_nil] at hcount
    omega
  refine ⟨points_of (heap.map Distance.node), hres, ?_, ?_, ?_, ?_⟩
  · rw [points_of_map_node, length_filterMap_some _ _ (fun x hx =>
      (hsome x (List.mem_append_left _ hx)).imp fun q hq => hq.2.2), hk]
  · rw [points_of_map_node]
    exact (List.nodup_append.mp (hpts.nodup_iff.mpr hnd)).1
  · intro q hq
    rw [points_of_map_node] at hq
    exact hpts.subset (List.mem_append_left _ hq)
  · intro q hq r hr hrout
    rw [points_of_map_node] at hq hrout
    obtain ⟨h, hh, hhq⟩ := List.mem_filterMap.mp hq
    have hr' : r ∈ heap.filterMap (fun x => x.node.point?) ++
        rest.filterMap (fun x => x.node.point?) := hpts.symm.subset hr
    rcases List.mem_append.mp hr' with e | e
    · exact absurd e hrout
    · obtain ⟨x, hx, hxr⟩ := List.mem_filterMap.mp e
      obtain ⟨q', _, hdq, hq'⟩ := hsome h (List.mem_append_left _ hh)
      obtain ⟨r', _, hdr, hr''⟩ := hsome x (List.mem_append_right _ hx)
      have eq1 : q' = q := Option.some.inj (hq'.symm.trans hhq)
      have er1 : r' = r := Option.some.inj (hr''.symm.trans hxr)
      subst eq1 er1
      have hle := hdom h hh x hx
      rw [hdq, hdr] at hle
      exact hle

/-- C5: after putting distinct points into an empty set (the tree is built by the
query), `nearest(p, k)` with `1 <= k < size()` returns, without reading out of
bounds, exactly `k` distinct points of the set, and each of them is at least as
close to `p` (Euclidean distance over the reals) as every point of the set that is
not returned. -/
theorem nearest_k_closest (lib : StdAlgo) (hnth : NthElementSpec lib) (hheap : HeapSpec lib)
    (ps : List Point) (hnd : ps.Nodup) (p : Point) (k : Nat) (hk1 : 1 ≤ k)
    (hk2 : k < ps.length) :
    ∃ out, (PointSet.nearest lib (PointSet.new.put_all ps) p k).1 = some out ∧
      out.length = k ∧ out.Nodup ∧ (∀ q ∈ out, q ∈ ps) ∧
      ∀ q ∈ out, ∀ r ∈ ps, r ∉ out →
        Real.sqrt (((p.x : ℝ) - q.x) ^ 2 + ((p.y : ℝ) - q.y) ^ 2) ≤
          Real.sqrt (((p.x : ℝ) - r.x) ^ 2 + ((p.y : ℝ) - r.y) ^ 2) := by
  obtain ⟨out, hres, hlen, hnodup, hsub, hdom⟩ :=
    nearest_k_core lib hnth hheap ps hnd p k hk1 hk2
  refine ⟨out, hres, hlen, hnodup, hsub, ?_⟩
  intro q hq r hr hrout
  rw [← distance_sq_cast, ← distance_sq_cast]
  exact Real.sqrt_le_sqrt (by exact_mod_cast hdom q hq r hr hrout)

theorem nearest_k_closest_witness :
    NthElementSpec sorting_lib ∧ HeapSpec sorting_lib ∧
    [pt 2 3, pt 5 4, pt 9 6, pt 4 7, pt 8 1, pt 7 2].Nodup ∧ 1 ≤ 2 ∧
    2 < [pt 2 3, pt 5 4, pt 9 6, pt 4 7, pt 8 1, pt 7 2].length ∧
    ∃ out, (PointSet.nearest sorting_lib
        (PointSet.new.put_all [pt 2 3, pt 5 4, pt 9 6, pt 4 7, pt 8 1, pt 7 2])
        (pt 3 3) 2).1 = some out ∧
      out.length = 2 ∧ out.Nodup ∧
      (∀ q ∈ out, q ∈ [pt 2 3, pt 5 4, pt 9 6, pt 4 7, pt 8 1, pt 7 2]) ∧
      ∀ q ∈ out, ∀ r ∈ [pt 2 3, pt 5 4, pt 9 6, pt 4 7, pt 8 1, pt 7 2], r ∉ out →
        Real.sqrt ((((pt 3 3).x : ℝ) - q.x) ^ 2 + (((pt 3 3).y : ℝ) - q.y) ^ 2) ≤
          Real.sqrt ((((pt 3 3).x : ℝ) - r.x) ^ 2 + (((pt 3 3).y : ℝ) - r.y) ^ 2) :=
  ⟨sorting_lib_nth, sorting_lib_heap, by decide, by decide, by decide,
    nearest_k_closest sorting_lib sorting_lib_nth sorting_lib_heap
      [pt 2 3, pt 5 4, pt 9 6, pt 4 7, pt 8 1, pt 7 2] (by decide) (pt 3 3) 2 (by decide)
      (by decide)⟩

end kdtree

/-! ## The store is a strictly ascending sequence -/

theorem Point.lt_irrefl (a : Point) : a.lt a = false := by
  simp [Point.lt]

theorem Point.lt_asymm {a b : Point} (h : a.lt b = true) : b.lt a = false := by
  simp only [Point.lt, Bool.or_eq_true, Bool.and_eq_true, decide_eq_true_eq] at h
  simp only [Point.lt, Bool.or_eq_false_iff, Bool.and_eq_false_iff, decide_eq_false_iff_not]
  omega

theorem Point.lt_trans {a b c : Point} (h1 : a.lt b = true) (h2 : b.lt c = true) :
    a.lt c = true := by
  simp only [Point.lt, Bool.or_eq_true, Bool.and_eq_true, decide_eq_true_eq] at h1 h2 ⊢
  omega

theorem mem_set_insert (p q : Point) (l : List Point) :
    q ∈ set_insert p l ↔ q = p ∨ q ∈ l := by
  induction l with
  | nil => simp [set_insert]
  | cons a as ih =>
    unfold set_insert
    split
    · simp
    · split
      · simp only [List.mem_cons, ih]
        constructor
        · rintro (h | h | h)
          · exact Or.inr (Or.inl h)
          · exact Or.inl h
          · exact Or.inr (Or.inr h)
        · rintro (h | h | h)
          · exact Or.inr (Or.inl h)
          · exact Or.inl h
          · exact Or.inr (Or.inr h)
      · rename_i h1 h2
        have hpa : p = a := Point.eq_of_not_lt (by simpa using h1) (by simpa using h2)
        constructor
        · intro h; exact Or.inr h
        · rintro (h | h)
          · rw [h, hpa]; exact List.mem_cons_self _ _
          · exact h

theorem set_insert_sorted (p : Point) (l : List Point)
    (hs : l.Pairwise fun a b => a.lt b = true) :
    (set_insert p l).Pairwise fun a b => a.lt b = true := by
  induction l with
  | nil => simp [set_insert]
  | cons a as ih =>
    obtain ⟨ha, has⟩ := List.pairwise_cons.mp hs
    unfold set_insert
    split
    · rename_i hpa
      refine List.pairwise_cons.mpr ⟨?_, hs⟩
      intro b hb
      rcases List.mem_cons.mp hb with e | e
      · rw [e]; exact hpa
      · exact Point.lt_trans hpa (ha b e)
    · split
      · rename_i _ hap
        refine List.pairwise_cons.mpr ⟨?_, ih has⟩
        intro b hb
        rcases (mem_set_insert p b as).mp hb with e | e
        · rw [e]; exact hap
        · exact ha b e
      · exact hs

theorem set_insert_of_mem (p : Point) (l : List Point)
    (hs : l.Pairwise fun a b => a.lt b = true) (hp : p ∈ l) : set_insert p l = l := by
  induction l with
  | nil => simp at hp
  | cons a as ih =>
    obtain ⟨ha, has⟩ := List.pairwise_cons.mp hs
    unfold set_insert
    rcases List.mem_cons.mp hp with e | e
    · subst e
      simp [Point.lt_irrefl]
    · have hap : a.lt p = true := ha p e
      have hpa : p.lt a = false := Point.lt_asymm hap
      simp only [hpa, Bool.false_eq_true, if_false, hap, if_true]
      rw [ih has e]

theorem sorted_nodup (l : List Point) (hs : l.Pairwise fun a b => a.lt b = true) :
    l.Nodup := by
  refine List.Pairwise.imp ?_ hs
  intro a b hab e
  rw [e, Point.lt_irrefl] at hab
  exact Bool.false_ne_true hab

theorem sorted_ext (l1 l2 : List Point) (h1 : l1.Pairwise fun a b => a.lt b = true)
    (h2 : l2.Pairwise fun a b => a.lt b = true) (hmem : ∀ a, a ∈ l1 ↔ a ∈ l2) : l1 = l2 := by
  have hperm : l1.Perm l2 :=
    (List.perm_ext_iff_of_nodup (sorted_nodup l1 h1) (sorted_nodup l2 h2)).mpr hmem
  exact @List.eq_of_perm_of_sorted Point (fun a b => a.lt b = true)
    ⟨fun a b hab hba => by rw [Point.lt_asymm hab] at hba; exact absurd hba Bool.false_ne_true⟩
    l1 l2 hperm h1 h2

namespace kdtree

/-! ## Reads leave the state that `build_if_need` leaves -/

theorem build_if_need_clean (lib : StdAlgo) (s : PointSet) (h : s.need_build = false) :
    PointSet.build_if_need lib s = s := by
  simp [PointSet.build_if_need, h]

theorem build_if_need_idem (lib : StdAlgo) (s : PointSet) :
    PointSet.build_if_need lib (PointSet.build_if_need lib s) = PointSet.build_if_need lib s :=
  build_if_need_clean lib _ (build_if_need_need_build lib s)

theorem nearest_state (lib : StdAlgo) (s : PointSet) (p : Point) (k : Nat) :
    (PointSet.nearest lib s p k).2 = PointSet.build_if_need lib s := by
  unfold PointSet.nearest
  simp only
  split
  · rfl
  · split
    · rfl
    · split <;> rfl

theorem nearest1_state (lib : StdAlgo) (s : PointSet) (p : Point) :
    (PointSet.nearest1 lib s p).2 = PointSet.build_if_need lib s := by
  have h := nearest_state lib s p 1
  unfold PointSet.nearest1
  split <;> rename_i heq <;> rw [heq] at h <;> exact h

theorem step_read (lib : StdAlgo) (s : PointSet) (op : Op) :
    PointSet.step lib s op = PointSet.build_if_need lib s ∨ ∃ p, op = Op.put p := by
  cases op with
  | put p => exact Or.inr ⟨p, rfl⟩
  | contains p => exact Or.inl rfl
  | empty => exact Or.inl rfl
  | size => exact Or.inl rfl
  | iterate => exact Or.inl rfl
  | range r => exact Or.inl rfl
  | nearest p k => exact Or.inl (nearest_state lib s p k)
  | nearest1 p => exact Or.inl (nearest1_state lib s p)

theorem reachable_sorted {lib : StdAlgo} {s : PointSet} (hr : Reachable lib s) :
    s.points.Pairwise fun a b => a.lt b = true := by
  induction hr with
  | new => exact List.Pairwise.nil
  | step s op _ ih =>
    rcases step_read lib s op with h | ⟨p, h⟩
    · rw [h, build_if_need_points]; exact ih
    · subst h
      exact set_insert_sorted p s.points ih

/-- C16: in every reachable state, putting a point that is already stored leaves
`size()` as it was, and the stored collection holds no point twice. -/
theorem put_stored_keeps_size (lib : StdAlgo) (s : PointSet) (hr : Reachable lib s) :
    (∀ p ∈ s.points, (PointSet.size lib (s.put p)).1 = (PointSet.size lib s).1) ∧
    s.points.Nodup := by
  have hs := reachable_sorted hr
  refine ⟨?_, sorted_nodup _ hs⟩
  intro p hp
  simp only [PointSet.size, build_if_need_points, PointSet.put, set_insert_of_mem p _ hs hp]

theorem put_stored_keeps_size_witness :
    Reachable sorting_lib (PointSet.new.put (pt 1 1)) ∧
    (∀ p ∈ (PointSet.new.put (pt 1 1)).points,
      (PointSet.size sorting_lib ((PointSet.new.put (pt 1 1)).put p)).1 =
        (PointSet.size sorting_lib (PointSet.new.put (pt 1 1))).1) ∧
    (PointSet.new.put (pt 1 1)).points.Nodup :=
  ⟨Reachable.step PointSet.new (Op.put (pt 1 1)) Reachable.new,
    put_stored_keeps_size sorting_lib (PointSet.new.put (pt 1 1))
      (Reachable.step PointSet.new (Op.put (pt 1 1)) Reachable.new)⟩

/-- C17 (counterexample): after `put((1,1))` and `size()`, the point `(1,1)` is
stored and the dirty flag is false; a second `put((1,1))` sets the flag. -/
theorem put_stored_sets_dirty_flag :
    pt 1 1 ∈ (PointSet.size sorting_lib (PointSet.new.put (pt 1 1))).2.points ∧
    (PointSet.size sorting_lib (PointSet.new.put (pt 1 1))).2.need_build = false ∧
    ((PointSet.size sorting_lib (PointSet.new.put (pt 1 1))).2.put (pt 1 1)).need_build
      = true := by
  decide

/-- C17 (amended): in every reachable state, putting a point that is already
stored leaves the stored collection, the cached tree and the cached preorder list
as they were, and sets the dirty flag. -/
theorem put_stored_only_sets_flag (lib : StdAlgo) (s : PointSet) (hr : Reachable lib s)
    (p : Point) (hp : p ∈ s.points) :
    (s.put p).points = s.points ∧ (s.put p).root = s.root ∧ (s.put p).dfs = s.dfs ∧
    (s.put p).need_build = true := by
  refine ⟨?_, rfl, rfl, rfl⟩
  simp only [PointSet.put, set_insert_of_mem p _ (reachable_sorted hr) hp]

theorem put_stored_only_sets_flag_witness :
    Reachable sorting_lib (PointSet.size sorting_lib (PointSet.new.put (pt 1 1))).2 ∧
    pt 1 1 ∈ (PointSet.size sorting_lib (PointSet.new.put (pt 1 1))).2.points ∧
    (((PointSet.size sorting_lib (PointSet.new.put (pt 1 1))).2.put (pt 1 1)).points =
        (PointSet.size sorting_lib (PointSet.new.put (pt 1 1))).2.points ∧
      ((PointSet.size sorting_lib (PointSet.new.put (pt 1 1))).2.put (pt 1 1)).root =
        (PointSet.size sorting_lib (PointSet.new.put (pt 1 1))).2.root ∧
      ((PointSet.size sorting_lib (PointSet.new.put (pt 1 1))).2.put (pt 1 1)).dfs =
        (PointSet.size sorting_lib (PointSet.new.put (pt 1 1))).2.dfs ∧
      ((PointSet.size sorting_lib (PointSet.new.put (pt 1 1))).2.put (pt 1 1)).need_build
        = true) :=
  ⟨Reachable.step _ Op.size (Reachable.step PointSet.new (Op.put (pt 1 1)) Reachable.new),
    by decide,
    put_stored_only_sets_flag sorting_lib _
      (Reachable.step _ Op.size (Reachable.step PointSet.new (Op.put (pt 1 1)) Reachable.new))
      (pt 1 1) (by decide)⟩

/-! ## The order of the puts does not matter -/

theorem put_all_mem (l : List Point) :
    ∀ (s : PointSet) (q : Point), q ∈ (s.put_all l).points ↔ q ∈ l ∨ q ∈ s.points := by
  induction l with
  | nil => intro s q; simp [PointSet.put_all]
  | cons a as ih =>
    intro s q
    have h := ih (s.put a) q
    simp only [PointSet.put_all, List.foldl_cons] at h ⊢
    rw [h]
    simp only [PointSet.put, mem_set_insert, List.mem_cons]
    constructor
    · rintro (h | h | h)
      · exact Or.inl (Or.inr h)
      · exact Or.inl (Or.inl h)
      · exact Or.inr h
    · rintro ((h | h) | h)
      · exact Or.inr (Or.inl h)
      · exact Or.inl h
      · exact Or.inr (Or.inr h)

theorem put_all_sorted (l : List Point) :
    ∀ s : PointSet, (s.points.Pairwise fun a b => a.lt b = true) →
      (s.put_all l).points.Pairwise fun a b => a.lt b = true := by
  induction l with
  | nil => intro s h; exact h
  | cons a as ih =>
    intro s h
    exact ih (s.put a) (set_insert_sorted a s.points h)

theorem put_all_dfs (ps : List Point) :
    ∀ s : PointSet, (s.put_all ps).dfs = s.dfs := by
  induction ps with
  | nil => intro s; rfl
  | cons a as ih => intro s; exact ih (s.put a)

theorem pointSet_eq (a b : PointSet) (h1 : a.root = b.root) (h2 : a.need_build = b.need_build)
    (h3 : a.points = b.points) (h4 : a.dfs = b.dfs) : a = b := by
  cases a
  cases b
  simp only at h1 h2 h3 h4
  simp [h1, h2, h3, h4]

theorem put_all_perm_state (l1 l2 : List Point) (h : l1.Perm l2) :
    PointSet.new.put_all l1 = PointSet.new.put_all l2 := by
  apply pointSet_eq
  · rw [put_all_root, put_all_root]
  · rw [put_all_need_build l1 _ rfl, put_all_need_build l2 _ rfl]
  · apply sorted_ext
    · exact put_all_sorted l1 _ List.Pairwise.nil
    · exact put_all_sorted l2 _ List.Pairwise.nil
    · intro a
      rw [put_all_mem, put_all_mem]
      simp only [PointSet.new, List.not_mem_nil, or_false]
      exact h.mem_iff
  · rw [put_all_dfs, put_all_dfs]

/-- C18: two lists of puts that are permutations of each other, applied to two
empty sets with no read in between, leave the same state; so the two sets build the
same tree, and `contains`, iteration, `range` and both `nearest` return the same
results for every query, whatever the library algorithms are. -/
theorem put_order_irrelevant (l1 l2 : List Point) (h : l1.Perm l2) :
    PointSet.new.put_all l1 = PointSet.new.put_all l2 ∧
    ∀ lib : StdAlgo,
      (PointSet.build_if_need lib (PointSet.new.put_all l1)).root =
        (PointSet.build_if_need lib (PointSet.new.put_all l2)).root ∧
      (∀ p, PointSet.contains lib (PointSet.new.put_all l1) p =
        PointSet.contains lib (PointSet.new.put_all l2) p) ∧
      PointSet.iterate lib (PointSet.new.put_all l1) =
        PointSet.iterate lib (PointSet.new.put_all l2) ∧
      (∀ r, PointSet.range lib (PointSet.new.put_all l1) r =
        PointSet.range lib (PointSet.new.put_all l2) r) ∧
      (∀ p k, PointSet.nearest lib (PointSet.new.put_all l1) p k =
        PointSet.nearest lib (PointSet.new.put_all l2) p k) ∧
      (∀ p, PointSet.nearest1 lib (PointSet.new.put_all l1) p =
        PointSet.nearest1 lib (PointSet.new.put_all l2) p) := by
  have hst := put_all_perm_state l1 l2 h
  refine ⟨hst, fun lib => ?_⟩
  rw [hst]
  exact ⟨rfl, fun _ => rfl, rfl, fun _ => rfl, fun _ _ => rfl, fun _ => rfl⟩

theorem put_order_irrelevant_witness :
    [pt 1 1, pt 2 2, pt 0 3].Perm [pt 2 2, pt 0 3, pt 1 1] ∧
    (PointSet.new.put_all [pt 1 1, pt 2 2, pt 0 3] =
      PointSet.new.put_all [pt 2 2, pt 0 3, pt 1 1]) ∧
    PointSet.iterate sorting_lib (PointSet.new.put_all [pt 1 1, pt 2 2, pt 0 3]) =
      PointSet.iterate sorting_lib (PointSet.new.put_all [pt 2 2, pt 0 3, pt 1 1]) :=
  ⟨by decide,
    (put_order_irrelevant [pt 1 1, pt 2 2, pt 0 3] [pt 2 2, pt 0 3, pt 1 1] (by decide)).1,
    ((put_order_irrelevant [pt 1 1, pt 2 2, pt 0 3] [pt 2 2, pt 0 3, pt 1 1]
      (by decide)).2 sorting_lib).2.2.1⟩

/-! ## Repeated reads -/

/-- C19: in every state, the same read made twice in a row returns the same result
both times and leaves after the second read the state the first read left (the
cached tree and preorder list included): the second read finds the dirty flag
false and builds nothing. -/
theorem repeated_read_same (lib : StdAlgo) (s : PointSet) (p : Point) (r : Rect) (k : Nat) :
    PointSet.contains lib (PointSet.contains lib s p).2 p = PointSet.contains lib s p ∧
    PointSet.size lib (PointSet.size lib s).2 = PointSet.size lib s ∧
    PointSet.empty lib (PointSet.empty lib s).2 = PointSet.empty lib s ∧
    PointSet.iterate lib (PointSet.iterate lib s).2 = PointSet.iterate lib s ∧
    PointSet.range lib (PointSet.range lib s r).2 r = PointSet.range lib s r ∧
    PointSet.nearest lib (PointSet.nearest lib s p k).2 p k = PointSet.nearest lib s p k ∧
    PointSet.nearest1 lib (PointSet.nearest1 lib s p).2 p = PointSet.nearest1 lib s p := by
  refine ⟨?_, ?_, ?_, ?_, ?_, ?_, ?_⟩
  · simp only [PointSet.contains, build_if_need_idem]
  · simp only [PointSet.size, build_if_need_idem]
  · simp only [PointSet.empty, build_if_need_idem]
  · simp only [PointSet.iterate, build_if_need_idem]
  · simp only [PointSet.range, build_if_need_idem]
  · rw [nearest_state]
    simp only [PointSet.nearest, build_if_need_idem]
  · rw [nearest1_state]
    simp only [PointSet.nearest1, PointSet.nearest, build_if_need_idem]

/-! ## The fresh set, and iteration -/

/-- C15: on a freshly constructed set, whatever the library, `size()` is 0,
`empty()` is true, `contains(p)` is false, `nearest(p)` is absent and `range(R)` is
empty. -/
theorem fresh_set_queries (lib : StdAlgo) (p : Point) (r : Rect) :
    (PointSet.size lib PointSet.new).1 = 0 ∧
    (PointSet.empty lib PointSet.new).1 = true ∧
    (PointSet.contains lib PointSet.new p).1 = false ∧
    (PointSet.nearest1 lib PointSet.new p).1 = some none ∧
    (PointSet.range lib PointSet.new r).1 = [] :=
  ⟨rfl, rfl, rfl, rfl, rfl⟩

/-- C20: after putting distinct points into an empty set (the tree is built by the
first `begin()`), iteration from `begin()` to `end()` yields the points of the built
tree in preorder (a node's point, then its left subtree, then its right subtree),
and that sequence holds every point put exactly once. -/
theorem iteration_is_preorder (lib : StdAlgo) (hspec : NthElementSpec lib) (ps : List Point)
    (hnd : ps.Nodup) :
    (PointSet.iterate lib (PointSet.new.put_all ps)).1 =
      (PointSet.iterate lib (PointSet.new.put_all ps)).2.root.points ∧
    (PointSet.iterate lib (PointSet.new.put_all ps)).1.Perm ps ∧
    (PointSet.iterate lib (PointSet.new.put_all ps)).1.Nodup := by
  have hperm := first_build_points hspec ps hnd
  have heq : (PointSet.iterate lib (PointSet.new.put_all ps)).1 =
      (PointSet.build_if_need lib (PointSet.new.put_all ps)).root.points := by
    simp only [PointSet.iterate]
    rw [build_if_need_put_all_dfs, points_of_preorder]
  refine ⟨heq, ?_, ?_⟩
  · rw [heq]; exact hperm
  · rw [heq]; exact hperm.nodup_iff.mpr hnd

theorem iteration_is_preorder_witness :
    NthElementSpec sorting_lib ∧ [pt 2 3, pt 5 4, pt 9 6].Nodup ∧
    ((PointSet.iterate sorting_lib (PointSet.new.put_all [pt 2 3, pt 5 4, pt 9 6])).1 =
      (PointSet.iterate sorting_lib
        (PointSet.new.put_all [pt 2 3, pt 5 4, pt 9 6])).2.root.points ∧
    (PointSet.iterate sorting_lib (PointSet.new.put_all [pt 2 3, pt 5 4, pt 9 6])).1.Perm
      [pt 2 3, pt 5 4, pt 9 6] ∧
    (PointSet.iterate sorting_lib (PointSet.new.put_all [pt 2 3, pt 5 4, pt 9 6])).1.Nodup) :=
  ⟨sorting_lib_nth, by decide,
    iteration_is_preorder sorting_lib sorting_lib_nth [pt 2 3, pt 5 4, pt 9 6] (by decide)⟩

/-! ## Range search is complete where the rects cover the points -/

theorem contains_left_box (mn mx p : Point) (axis : Axis) (v : Int)
    (h : (Rect.mk mn mx).contains p = true) (hv : p.coord axis ≤ v) :
    (Rect.mk mn (create_point mx axis v)).contains p = true := by
  cases axis <;>
    simp only [Rect.contains, Rect.xmin, Rect.xmax, Rect.ymin, Rect.ymax, create_point,
      Point.coord, if_true, reduceCtorEq, if_false, Bool.and_eq_true, decide_eq_true_eq,
      ge_iff_le] at h hv ⊢ <;>
    omega

theorem contains_right_box (mn mx p : Point) (axis : Axis) (v : Int)
    (h : (Rect.mk mn mx).contains p = true) (hv : v ≤ p.coord axis) :
    (Rect.mk (create_point mn axis v) mx).contains p = true := by
  cases axis <;>
    simp only [Rect.contains, Rect.xmin, Rect.xmax, Rect.ymin, Rect.ymax, create_point,
      Point.coord, if_true, reduceCtorEq, if_false, Bool.and_eq_true, decide_eq_true_eq,
      ge_iff_le] at h hv ⊢ <;>
    omega

theorem contains_coord (r : Rect) (q : Point) (axis : Axis) (h : r.contains q = true) :
    r.min_coord axis ≤ q.coord axis ∧ q.coord axis ≤ r.max_coord axis := by
  cases axis <;>
    simp only [Rect.contains, Rect.xmin, Rect.xmax, Rect.ymin, Rect.ymax, Rect.min_coord,
      Rect.max_coord, Point.coord, if_true, reduceCtorEq, if_false, Bool.and_eq_true,
      decide_eq_true_eq, ge_iff_le] at h ⊢ <;>
    omega

theorem intersects_of_common_point (a b : Rect) (q : Point) (ha : a.contains q = true)
    (hb : b.contains q = true) : a.intersects b = true := by
  simp only [Rect.contains, Rect.intersects, Bool.and_eq_true, decide_eq_true_eq,
    ge_iff_le] at ha hb ⊢
  omega

theorem build_rects_cover {lib : StdAlgo} (hspec : NthElementSpec lib) :
    ∀ (fuel : Nat) (c : List Point) (mn mx : Point) (depth : Nat), c.length ≤ fuel →
      (buildAux lib fuel Node.null c mn mx depth).points.Perm c ∧
      ((∀ p ∈ c, (Rect.mk mn mx).contains p = true) →
        (buildAux lib fuel Node.null c mn mx depth).RectsCover) := by
  apply build_induction hspec (fun c mn mx _ t => t.points.Perm c ∧
    ((∀ p ∈ c, (Rect.mk mn mx).contains p = true) → t.RectsCover))
  · intro _ _ _; exact ⟨List.Perm.refl _, fun _ => trivial⟩
  · intro p mn mx _
    refine ⟨List.Perm.refl _, fun h => ⟨?_, trivial, trivial⟩⟩
    intro q hq
    exact h q (by simpa [Node.points] using hq)
  · intro c mn mx depth middle after l r hc hs hl hr
    obtain ⟨hperm, hle, hge⟩ := nth_element_parts hspec c (get_axis depth) hc middle after hs
    have hall : (Node.mk middle (Rect.mk mn mx) l r (get_axis depth)).points.Perm c := by
      simp only [Node.points]
      exact ((hl.1.append hr.1).cons middle).trans hperm
    refine ⟨hall, fun hbox => ⟨?_, ?_, ?_⟩⟩
    · intro q hq
      exact hbox q (hall.subset (by simpa [Node.points] using hq))
    · apply hl.2
      intro p hp
      have hpc : p ∈ c :=
        hperm.subset (List.mem_cons_of_mem _ (List.mem_append_left _ hp))
      exact contains_left_box mn mx p _ _ (hbox p hpc) (hle p hp)
    · apply hr.2
      intro p hp
      have hpc : p ∈ c :=
        hperm.subset (List.mem_cons_of_mem _ (List.mem_append_right _ hp))
      exact contains_right_box mn mx p _ _ (hbox p hpc) (hge p hp)

theorem points_of_append (a b : List Node) :
    points_of (a ++ b) = points_of a ++ points_of b := by
  simp [points_of]

theorem rangeAux_complete (r : Rect) (t : Node) (hp : t.Partitioned) (hc : t.RectsCover) :
    ∀ q ∈ t.points, r.contains q = true → q ∈ points_of (rangeAux t r) := by
  induction t with
  | null => intro q hq; simp [Node.points] at hq
  | mk point nrect left right axis ihl ihr =>
    intro q hq hrq
    obtain ⟨hleft, hright, hpl, hpr⟩ := hp
    obtain ⟨hcov, hcl, hcr⟩ := hc
    have hint : r.intersects nrect = true :=
      intersects_of_common_point r nrect q hrq (hcov q hq)
    have hqc := contains_coord r q axis hrq
    unfold rangeAux
    rw [if_pos hint]
    simp only [Node.points, List.mem_cons, List.mem_append] at hq
    simp only
    have hhere : q = point → q ∈ points_of (if r.contains point = true then
        [Node.mk point nrect left right axis] else []) := by
      intro e
      rw [← e, if_pos hrq]
      simp [points_of, Node.point?]
    generalize (if r.contains point = true then
      [Node.mk point nrect left right axis] else []) = here at hhere ⊢
    rcases hq with e | e | e
    · -- the node's own point
      have hh := hhere e
      split
      · rw [points_of_append, points_of_append]
        exact List.mem_append_left _ (List.mem_append_left _ hh)
      · split
        · rw [points_of_append]; exact List.mem_append_left _ hh
        · split
          · rw [points_of_append]; exact List.mem_append_left _ hh
          · exact hh
    · -- a point of the left subtree
      have hin := ihl hpl hcl q e hrq
      have hqp := hleft q e
      split
      · rw [points_of_append, points_of_append]
        exact List.mem_append_left _ (List.mem_append_right _ hin)
      · rename_i h1
        split
        · rw [points_of_append]; exact List.mem_append_right _ hin
        · rename_i h2
          exfalso
          simp only [ge_iff_le, not_and, not_le] at h1 h2
          omega
    · -- a point of the right subtree
      have hin := ihr hpr hcr q e hrq
      have hqp := hright q e
      split
      · rw [points_of_append]
        exact List.mem_append_right _ hin
      · rename_i h1
        split
        · rename_i h2
          exfalso
          simp only [ge_iff_le, not_and, not_le] at h1
          omega
        · rename_i h2
          split
          · rw [points_of_append]; exact List.mem_append_right _ hin
          · rename_i h3
            exfalso
            simp only [ge_iff_le, not_and, not_le] at h1 h3
            omega

theorem first_build_rects_cover {lib : StdAlgo} (hspec : NthElementSpec lib) (ps : List Point)
    (hbox : ∀ p ∈ ps, (Rect.mk (Point.mk dbl_min dbl_min)
      (Point.mk dbl_max dbl_max)).contains p = true) :
    (PointSet.build_if_need lib (PointSet.new.put_all ps)).root.RectsCover := by
  rw [build_if_need_put_all_root]
  apply (build_rects_cover hspec _ _ _ _ 0 (le_refl _)).2
  intro p hp
  have := (put_all_mem ps PointSet.new p).mp hp
  simp only [PointSet.new, List.not_mem_nil, or_false] at this
  exact hbox p this

/-- After a first build of distinct points that all lie in the root rect, `range`
returns exactly the stored points the query rectangle contains, each once. -/
theorem first_build_range_exact {lib : StdAlgo} (hspec : NthElementSpec lib) (ps : List Point)
    (hnd : ps.Nodup)
    (hbox : ∀ p ∈ ps, (Rect.mk (Point.mk dbl_min dbl_min)
      (Point.mk dbl_max dbl_max)).contains p = true) (R : Rect) :
    (PointSet.range lib (PointSet.new.put_all ps) R).1.Nodup ∧
    ∀ q, q ∈ (PointSet.range lib (PointSet.new.put_all ps) R).1 ↔
      q ∈ ps ∧ R.contains q = true := by
  have hperm := first_build_points hspec ps hnd
  have hpart := first_build_partitioned hspec ps
  have hcov := first_build_rects_cover hspec ps hbox
  have hsound := rangeAux_sound R (PointSet.build_if_need lib (PointSet.new.put_all ps)).root
  simp only [PointSet.range]
  refine ⟨List.Nodup.sublist hsound.1 (hperm.nodup_iff.mpr hnd), fun q => ⟨?_, ?_⟩⟩
  · intro hq
    exact ⟨hperm.subset (hsound.1.subset hq), hsound.2 q hq⟩
  · rintro ⟨hq, hrq⟩
    exact rangeAux_complete R _ hpart hcov q (hperm.symm.subset hq) hrq

/-- C13 (counterexample): the rectangle `Rect((0,0),(6,6))` does not contain `(4,7)`,
and with a conforming library `range` does not return it. -/
theorem scenario_range_omits_4_7 :
    (Rect.mk (pt 0 0) (pt 6 6)).contains (pt 4 7) = false ∧
    NthElementSpec sorting_lib ∧
    pt 4 7 ∉ (PointSet.range sorting_lib
      (PointSet.new.put_all [pt 2 3, pt 5 4, pt 9 6, pt 4 7, pt 8 1, pt 7 2])
      (Rect.mk (pt 0 0) (pt 6 6))).1 :=
  ⟨by decide, sorting_lib_nth, by decide⟩

/-- C13 (amended): after putting `(2,3)`, `(5,4)`, `(9,6)`, `(4,7)`, `(8,1)`, `(7,2)`
into an empty set, `range(Rect((0,0),(6,6)))` returns exactly the set
`{(2,3), (5,4)}`, each point once, with every conforming `nth_element`. -/
theorem scenario_range (lib : StdAlgo) (hspec : NthElementSpec lib) :
    (PointSet.range lib
      (PointSet.new.put_all [pt 2 3, pt 5 4, pt 9 6, pt 4 7, pt 8 1, pt 7 2])
      (Rect.mk (pt 0 0) (pt 6 6))).1.Nodup ∧
    ∀ q, q ∈ (PointSet.range lib
      (PointSet.new.put_all [pt 2 3, pt 5 4, pt 9 6, pt 4 7, pt 8 1, pt 7 2])
      (Rect.mk (pt 0 0) (pt 6 6))).1 ↔ (q = pt 2 3 ∨ q = pt 5 4) := by
  have h := first_build_range_exact hspec [pt 2 3, pt 5 4, pt 9 6, pt 4 7, pt 8 1, pt 7 2]
    (by decide) (by decide) (Rect.mk (pt 0 0) (pt 6 6))
  refine ⟨h.1, fun q => ?_⟩
  rw [h.2 q]
  have hfilter : ∀ a ∈ [pt 2 3, pt 5 4, pt 9 6, pt 4 7, pt 8 1, pt 7 2],
      ((Rect.mk (pt 0 0) (pt 6 6)).contains a = true ↔ (a = pt 2 3 ∨ a = pt 5 4)) := by
    decide
  constructor
  · rintro ⟨hq, hc⟩
    exact (hfilter q hq).mp hc
  · intro hq
    have hmem : q ∈ [pt 2 3, pt 5 4, pt 9 6, pt 4 7, pt 8 1, pt 7 2] := by
      rcases hq with e | e <;> rw [e] <;> decide
    exact ⟨hmem, (hfilter q hmem).mpr hq⟩

theorem scenario_range_witness :
    NthElementSpec sorting_lib ∧
    ((PointSet.range sorting_lib
      (PointSet.new.put_all [pt 2 3, pt 5 4, pt 9 6, pt 4 7, pt 8 1, pt 7 2])
      (Rect.mk (pt 0 0) (pt 6 6))).1.Nodup ∧
    ∀ q, q ∈ (PointSet.range sorting_lib
      (PointSet.new.put_all [pt 2 3, pt 5 4, pt 9 6, pt 4 7, pt 8 1, pt 7 2])
      (Rect.mk (pt 0 0) (pt 6 6))).1 ↔ (q = pt 2 3 ∨ q = pt 5 4)) :=
  ⟨sorting_lib_nth, scenario_range sorting_lib sorting_lib_nth⟩

/-! ## The scenario of the k-nearest search -/

/-- C14: after putting `(2,3)`, `(5,4)`, `(9,6)`, `(4,7)`, `(8,1)`, `(7,2)` into an
empty set, `nearest((3,3), 2)` returns exactly the two points `(2,3)` and `(5,4)`
(in some order), with every conforming library. -/
theorem scenario_nearest (lib : StdAlgo) (hnth : NthElementSpec lib) (hheap : HeapSpec lib) :
    ∃ out, (PointSet.nearest lib
        (PointSet.new.put_all [pt 2 3, pt 5 4, pt 9 6, pt 4 7, pt 8 1, pt 7 2])
        (pt 3 3) 2).1 = some out ∧ out.Perm [pt 2 3, pt 5 4] := by
  obtain ⟨out, hres, hlen, hnodup, hsub, hdom⟩ :=
    nearest_k_core lib hnth hheap [pt 2 3, pt 5 4, pt 9 6, pt 4 7, pt 8 1, pt 7 2]
      (by decide) (pt 3 3) 2 (by decide) (by decide)
  refine ⟨out, hres, ?_⟩
  have hclosest : ∀ a ∈ [pt 2 3, pt 5 4, pt 9 6, pt 4 7, pt 8 1, pt 7 2],
      ((pt 3 3).distance a).sq ≤ ((pt 3 3).distance (pt 2 3)).sq → a = pt 2 3 := by
    decide
  have hsecond : ∀ a ∈ [pt 2 3, pt 5 4, pt 9 6, pt 4 7, pt 8 1, pt 7 2],
      ((pt 3 3).distance a).sq ≤ ((pt 3 3).distance (pt 5 4)).sq →
        a = pt 2 3 ∨ a = pt 5 4 := by
    decide
  match out, hlen, hnodup, hsub, hdom with
  | [u, v], _, hnodup, hsub, hdom =>
    have huv : u ≠ v := by
      intro e; rw [e] at hnodup; simp at hnodup
    have h1 : pt 2 3 ∈ [u, v] := by
      by_contra hno
      have hu := hclosest u (hsub u (by simp))
        (hdom u (by simp) (pt 2 3) (by decide) hno)
      exact hno (by rw [← hu]; simp)
    have h2 : pt 5 4 ∈ [u, v] := by
      by_contra hno
      have hu := hsecond u (hsub u (by simp))
        (hdom u (by simp) (pt 5 4) (by decide) hno)
      have hv := hsecond v (hsub v (by simp))
        (hdom v (by simp) (pt 5 4) (by decide) hno)
      have hu' : u = pt 2 3 := by
        rcases hu with e | e
        · exact e
        · exact absurd (by rw [← e]; simp) hno
      have hv' : v = pt 2 3 := by
        rcases hv with e | e
        · exact e
        · exact absurd (by rw [← e]; simp) hno
      exact huv (hu'.trans hv'.symm)
    have hsubset : [pt 2 3, pt 5 4] ⊆ [u, v] := by
      intro a ha
      rcases List.mem_cons.mp ha with e | e
      · rw [e]; exact h1
      · rw [List.mem_singleton.mp e]; exact h2
    exact ((List.subperm_of_subset (by decide) hsubset).perm_of_length_le (by simp)).symm

theorem scenario_nearest_witness :
    NthElementSpec sorting_lib ∧ HeapSpec sorting_lib ∧
    ∃ out, (PointSet.nearest sorting_lib
        (PointSet.new.put_all [pt 2 3, pt 5 4, pt 9 6, pt 4 7, pt 8 1, pt 7 2])
        (pt 3 3) 2).1 = some out ∧ out.Perm [pt 2 3, pt 5 4] :=
  ⟨sorting_lib_nth, sorting_lib_heap, scenario_nearest sorting_lib sorting_lib_nth sorting_lib_heap⟩

/-! ## The single nearest point -/

theorem nearest1_of_nearest (lib : StdAlgo) (s : PointSet) (p : Point) (out : List Point)
    (h : (PointSet.nearest lib s p 1).1 = some out) :
    (PointSet.nearest1 lib s p).1 = some out.head? := by
  unfold PointSet.nearest1
  cases hn : PointSet.nearest lib s p 1 with
  | mk a b =>
    rw [hn] at h
    simp only at h
    subst h
    cases out <;> rfl

theorem nearest_of_size_le (lib : StdAlgo) (s : PointSet) (p : Point) (k : Nat)
    (hne : (PointSet.build_if_need lib s).points ≠ [])
    (hk : (PointSet.build_if_need lib s).points.length ≤ k) :
    (PointSet.nearest lib s p k).1 = some (points_of (PointSet.build_if_need lib s).dfs) := by
  have hpos : 0 < (PointSet.build_if_need lib s).points.length := List.length_pos.mpr hne
  have h1 : ((PointSet.build_if_need lib s).points.isEmpty || k == 0) = false := by
    have ha : (PointSet.build_if_need lib s).points.isEmpty = false := by
      cases hp : (PointSet.build_if_need lib s).points with
      | nil => exact absurd hp hne
      | cons _ _ => rfl
    have hb : (k == 0) = false := by
      simp only [beq_eq_false_iff_ne, ne_eq]; omega
    rw [ha, hb]; rfl
  have h2 : k ≥ (PointSet.build_if_need lib s).points.length := hk
  simp only [PointSet.nearest, h1, Bool.false_eq_true, if_false, h2, if_true]

/-- After a first build of distinct points, `nearest(p)` is absent when nothing was
put, and otherwise is the only point of `nearest(p, 1)`, a stored point at least as
close to `p` as every stored point. -/
theorem nearest1_after_puts (lib : StdAlgo) (hnth : NthElementSpec lib) (hheap : HeapSpec lib)
    (ps : List Point) (hnd : ps.Nodup) (p : Point) :
    (ps = [] → (PointSet.nearest1 lib (PointSet.new.put_all ps) p).1 = some none) ∧
    (ps ≠ [] → ∃ q, (PointSet.nearest1 lib (PointSet.new.put_all ps) p).1 = some (some q) ∧
      (PointSet.nearest lib (PointSet.new.put_all ps) p 1).1 = some [q] ∧ q ∈ ps ∧
      ∀ r ∈ ps, (p.distance q).sq ≤ (p.distance r).sq) := by
  constructor
  · intro h; subst h; rfl
  · intro hne
    have hpos : 0 < ps.length := List.length_pos.mpr hne
    have hlen : (PointSet.build_if_need lib (PointSet.new.put_all ps)).points.length
        = ps.length := by
      rw [build_if_need_points]; exact (put_all_new_points ps hnd).length_eq
    by_cases hone : ps.length = 1
    · -- a single stored point: `k >= size()` returns the whole preorder listing
      have hres := nearest_of_size_le lib (PointSet.new.put_all ps) p 1
        (by intro h; rw [h] at hlen; simp only [List.length_nil] at hlen; omega)
        (by omega)
      rw [build_if_need_put_all_dfs, points_of_preorder] at hres
      have hperm := first_build_points hnth ps hnd
      match ps, hone, hperm with
      | [a], _, hperm =>
        have hroot : (PointSet.build_if_need lib (PointSet.new.put_all [a])).root.points
            = [a] := List.perm_singleton.mp hperm
        rw [hroot] at hres
        refine ⟨a, nearest1_of_nearest lib _ p [a] hres, hres, by simp, ?_⟩
        intro r hr
        rw [List.mem_singleton.mp hr]
    · obtain ⟨out, hres, hl, _, hsub, hdom⟩ :=
        nearest_k_core lib hnth hheap ps hnd p 1 (le_refl 1) (by omega)
      match out, hl, hres, hsub, hdom with
      | [q], _, hres, hsub, hdom =>
        refine ⟨q, nearest1_of_nearest lib _ p [q] hres, hres, hsub q (by simp), ?_⟩
        intro r hr
        by_cases hrq : r ∈ [q]
        · rw [List.mem_singleton.mp hrq]
        · exact hdom q (by simp) r hr hrq

/-- C11 (code at the failing input): with every conforming library, after
`put((1,1))`, `size()` and `put((2,2))`, the point `(2,2)` is stored, yet
`nearest((2,2))` returns `(1,1)`, which is farther from `(2,2)` than `(2,2)` itself.
The rebuilt tree holds `(1,1)` twice and `(2,2)` nowhere. -/
theorem nearest_misses_point_put_after_read (lib : StdAlgo) (hnth : NthElementSpec lib)
    (hheap : HeapSpec lib) :
    pt 2 2 ∈ ((PointSet.size lib (PointSet.new.put (pt 1 1))).2.put (pt 2 2)).points ∧
    (PointSet.nearest1 lib ((PointSet.size lib (PointSet.new.put (pt 1 1))).2.put (pt 2 2))
      (pt 2 2)).1 = some (some (pt 1 1)) ∧
    ((pt 2 2).distance (pt 2 2)).sq < ((pt 2 2).distance (pt 1 1)).sq := by
  have hstored : ((PointSet.size lib (PointSet.new.put (pt 1 1))).2.put (pt 2 2)).points
      = [pt 1 1, pt 2 2] := rfl
  refine ⟨by rw [hstored]; decide, ?_, by decide⟩
  have hroot := rebuild_after_read_root lib hnth
  have hpts : (PointSet.build_if_need lib
      ((PointSet.build_if_need lib (PointSet.new.put (pt 1 1))).put (pt 2 2))).points
      = [pt 1 1, pt 2 2] := by
    rw [build_if_need_points]; rfl
  have hpart : (PointSet.build_if_need lib
      ((PointSet.build_if_need lib (PointSet.new.put (pt 1 1))).put (pt 2 2))).root.Partitioned := by
    rw [hroot]
    simp [Node.Partitioned, Node.points]
  obtain ⟨heap, hrun, hbest, _⟩ :=
    nearestAux_kbest hheap (pt 2 2) 1 (le_refl 1) _ hpart [] [] (kbest_nil 1)
  obtain ⟨_, hlen, rest, hsplit, _, hfull⟩ := hbest
  rw [List.nil_append, hroot] at hsplit
  have hcount : heap.length + rest.length = 2 := by
    have := hsplit.length_eq
    rw [List.length_append] at this
    rw [← this]
    rfl
  have hone : heap.length = 1 := by
    by_contra hne
    have := hfull (by omega)
    subst this
    simp only [List.length_nil] at hcount
    omega
  have hres := nearest_of_traversal lib
    ((PointSet.build_if_need lib (PointSet.new.put (pt 1 1))).put (pt 2 2)) (pt 2 2) 1
    (by rw [hpts]; rfl) (by rw [hpts]; decide) heap hrun
  match heap, hone, hsplit, hres with
  | [h], _, hsplit, hres =>
    have hmem : h ∈ cands (pt 2 2) _ := hsplit.symm.subset (List.mem_append_left _ (by simp))
    obtain ⟨q, hq, _, hnode⟩ := cands_spec (pt 2 2) _ h hmem
    have hq1 : q = pt 1 1 := by
      simp only [Node.points, List.nil_append, List.append_nil, List.mem_cons,
        List.mem_singleton, List.not_mem_nil, or_false, or_self] at hq
      exact hq
    have hout : points_of ([h].map Distance.node) = [pt 1 1] := by
      rw [points_of_map_node]
      simp only [List.filterMap_cons, hnode, List.filterMap_nil, hq1]
    rw [hout] at hres
    exact nearest1_of_nearest lib _ (pt 2 2) [pt 1 1] hres

theorem nearest_misses_point_put_after_read_witness :
    NthElementSpec sorting_lib ∧ HeapSpec sorting_lib ∧
    (PointSet.nearest1 sorting_lib
      ((PointSet.size sorting_lib (PointSet.new.put (pt 1 1))).2.put (pt 2 2))
      (pt 2 2)).1 = some (some (pt 1 1)) :=
  ⟨sorting_lib_nth, sorting_lib_heap,
    (nearest_misses_point_put_after_read sorting_lib sorting_lib_nth sorting_lib_heap).2.1⟩

/-- C12 (code at the failing inputs): the tree and the brute-force set disagree.
Whatever the library, after `put((-1,-1))` the tree's `range(Rect((-2,-2),(0,0)))`
is empty while the brute-force one returns `(-1,-1)`; and with a conforming
`nth_element`, after putting `(0,0)`, `(0,1)`, `(0,2)`, `(0,3)` the tree's
`contains((0,2))` is false while the brute-force one is true. -/
theorem tree_differs_from_brute_force :
    (∀ lib : StdAlgo,
      (PointSet.range lib (PointSet.new.put_all [pt (-1) (-1)])
        (Rect.mk (pt (-2) (-2)) (pt 0 0))).1 = [] ∧
      rbtree.PointSet.range (rbtree.PointSet.new.put_all [pt (-1) (-1)])
        (Rect.mk (pt (-2) (-2)) (pt 0 0)) = [pt (-1) (-1)]) ∧
    NthElementSpec reversing_lib ∧
    (PointSet.contains reversing_lib
      (PointSet.new.put_all [pt 0 0, pt 0 1, pt 0 2, pt 0 3]) (pt 0 2)).1 = false ∧
    rbtree.PointSet.contains
      (rbtree.PointSet.new.put_all [pt 0 0, pt 0 1, pt 0 2, pt 0 3]) (pt 0 2) = true :=
  ⟨fun _ => ⟨rfl, by decide⟩, reversing_lib_nth, by decide, by decide⟩

/-! ## The dirty flag -/

/-- C21: in every state, `put(p)` sets the dirty flag and changes only the stored
collection (the cached tree and the cached preorder list stay as they are), and
every read (`contains`, `empty`, `size`, iteration through `begin`/`end`, `range`,
both `nearest`) leaves the dirty flag false. -/
theorem dirty_flag_machine (lib : StdAlgo) (s : PointSet) (p : Point) (r : Rect) (k : Nat) :
    ((s.put p).need_build = true ∧ (s.put p).points = set_insert p s.points ∧
      (s.put p).root = s.root ∧ (s.put p).dfs = s.dfs) ∧
    (PointSet.contains lib s p).2.need_build = false ∧
    (PointSet.empty lib s).2.need_build = false ∧
    (PointSet.size lib s).2.need_build = false ∧
    (PointSet.iterate lib s).2.need_build = false ∧
    (PointSet.range lib s r).2.need_build = false ∧
    (PointSet.nearest lib s p k).2.need_build = false ∧
    (PointSet.nearest1 lib s p).2.need_build = false := by
  refine ⟨⟨rfl, rfl, rfl, rfl⟩, ?_, ?_, ?_, ?_, ?_, ?_, ?_⟩
  · exact build_if_need_need_build lib s
  · exact build_if_need_need_build lib s
  · exact build_if_need_need_build lib s
  · exact build_if_need_need_build lib s
  · exact build_if_need_need_build lib s
  · rw [nearest_state]; exact build_if_need_need_build lib s
  · rw [nearest1_state]; exact build_if_need_need_build lib s

end kdtree

/-! ## The order of points, and rectangles -/

/-- C22: `Point::operator<` (by `y`, then by `x`) is irreflexive and transitive, and
for any two points exactly one of `a < b`, `a == b`, `b < a` holds, where `==` is
equality of both coordinates; `>`, `<=`, `>=` and `!=` are derived from them. -/
theorem Point.lt_strict_total_order (a b c : Point) :
    (a.lt b = true ↔ a.y < b.y ∨ (a.y = b.y ∧ a.x < b.x)) ∧
    (a.eq b = true ↔ a.x = b.x ∧ a.y = b.y) ∧
    a.lt a = false ∧
    (a.lt b = true → b.lt c = true → a.lt c = true) ∧
    ((a.lt b = true ∧ a.eq b = false ∧ b.lt a = false) ∨
      (a.lt b = false ∧ a.eq b = true ∧ b.lt a = false) ∨
      (a.lt b = false ∧ a.eq b = false ∧ b.lt a = true)) ∧
    (a.gt b = b.lt a ∧ (a.le b = true ↔ a.lt b = true ∨ a.eq b = true) ∧
      (a.ge b = true ↔ a.lt b = false) ∧ (a.ne b = true ↔ a.eq b = false)) := by
  refine ⟨?_, ?_, Point.lt_irrefl a, fun h1 h2 => Point.lt_trans h1 h2, ?_, ?_⟩
  · simp [Point.lt]
  · simp [Point.eq]
  · have hlt : ∀ u v : Point, u.lt v = true ↔ u.y < v.y ∨ (u.y = v.y ∧ u.x < v.x) := by
      intro u v; simp [Point.lt]
    have heq : a.eq b = true ↔ a.x = b.x ∧ a.y = b.y := by simp [Point.eq]
    rcases Bool.eq_false_or_eq_true (a.lt b) with h1 | h1 <;>
      rcases Bool.eq_false_or_eq_true (b.lt a) with h2 | h2 <;>
      rcases Bool.eq_false_or_eq_true (a.eq b) with h3 | h3
    all_goals
      first
      | (have e1 := (hlt a b).mp h1
         have e2 := (hlt b a).mp h2
         omega)
      | (have e1 := (hlt a b).mp h1
         have e3 := heq.mp h3
         omega)
      | (have e2 := (hlt b a).mp h2
         have e3 := heq.mp h3
         omega)
      | (have e1 : ¬ (a.y < b.y ∨ (a.y = b.y ∧ a.x < b.x)) := by
           rw [← hlt a b, h1]; exact Bool.false_ne_true
         have e2 : ¬ (b.y < a.y ∨ (b.y = a.y ∧ b.x < a.x)) := by
           rw [← hlt b a, h2]; exact Bool.false_ne_true
         have e3 : ¬ (a.x = b.x ∧ a.y = b.y) := by
           rw [← heq, h3]; exact Bool.false_ne_true
         omega)
      | simp [h1, h2, h3]
  · simp [Point.gt, Point.le, Point.ge, Point.ne]

/-- C23: for rectangles with `min <= max` on both axes, `intersects` holds exactly
when some point is contained (bounds included) in both rectangles, and it is
symmetric. -/
theorem Rect.intersects_iff_common_point (A B : Rect)
    (hA : A.xmin ≤ A.xmax ∧ A.ymin ≤ A.ymax) (hB : B.xmin ≤ B.xmax ∧ B.ymin ≤ B.ymax) :
    (∀ q : Point, A.contains q = true ↔
      (A.xmin ≤ q.x ∧ q.x ≤ A.xmax ∧ A.ymin ≤ q.y ∧ q.y ≤ A.ymax)) ∧
    (A.intersects B = true ↔ ∃ q : Point, A.contains q = true ∧ B.contains q = true) ∧
    A.intersects B = B.intersects A := by
  refine ⟨?_, ⟨?_, ?_⟩, ?_⟩
  · intro q
    simp only [Rect.contains, Bool.and_eq_true, decide_eq_true_eq, ge_iff_le]
    constructor
    · rintro ⟨⟨⟨h1, h2⟩, h3⟩, h4⟩; exact ⟨h1, h2, h3, h4⟩
    · rintro ⟨h1, h2, h3, h4⟩; exact ⟨⟨⟨h1, h2⟩, h3⟩, h4⟩
  · intro h
    simp only [Rect.intersects, Bool.and_eq_true, decide_eq_true_eq, ge_iff_le] at h
    refine ⟨Point.mk (max A.xmin B.xmin) (max A.ymin B.ymin), ?_, ?_⟩ <;>
      simp only [Rect.contains, Bool.and_eq_true, decide_eq_true_eq, ge_iff_le] <;>
      omega
  · rintro ⟨q, h1, h2⟩
    exact kdtree.intersects_of_common_point A B q h1 h2
  · simp only [Rect.intersects]
    rw [Bool.eq_iff_iff]
    simp only [Bool.and_eq_true, decide_eq_true_eq, ge_iff_le]
    constructor <;> rintro ⟨⟨⟨h1, h2⟩, h3⟩, h4⟩ <;> exact ⟨⟨⟨h3, h4⟩, h1⟩, h2⟩

theorem Rect.intersects_iff_common_point_witness :
    ((Rect.mk (pt 0 0) (pt 1 1)).xmin ≤ (Rect.mk (pt 0 0) (pt 1 1)).xmax ∧
      (Rect.mk (pt 0 0) (pt 1 1)).ymin ≤ (Rect.mk (pt 0 0) (pt 1 1)).ymax) ∧
    ((Rect.mk (pt 1 1) (pt 2 2)).xmin ≤ (Rect.mk (pt 1 1) (pt 2 2)).xmax ∧
      (Rect.mk (pt 1 1) (pt 2 2)).ymin ≤ (Rect.mk (pt 1 1) (pt 2 2)).ymax) ∧
    (Rect.mk (pt 0 0) (pt 1 1)).intersects (Rect.mk (pt 1 1) (pt 2 2)) = true ∧
    ((Rect.mk (pt 0 0) (pt 1 1)).intersects (Rect.mk (pt 1 1) (pt 2 2)) = true ↔
      ∃ q : Point, (Rect.mk (pt 0 0) (pt 1 1)).contains q = true ∧
        (Rect.mk (pt 1 1) (pt 2 2)).contains q = true) :=
  ⟨by decide, by decide, by decide,
    (Rect.intersects_iff_common_point (Rect.mk (pt 0 0) (pt 1 1)) (Rect.mk (pt 1 1) (pt 2 2))
      (by decide) (by decide)).2.1⟩

/-! ## The distance from a point to a box -/

theorem axis_gap_sq_le (lo hi a b : Int) (h1 : lo ≤ b) (h2 : b ≤ hi) :
    (if a < lo then a - lo else if a > hi then a - hi else 0) *
      (if a < lo then a - lo else if a > hi then a - hi else 0) ≤ (a - b) * (a - b) := by
  by_cases hlo : a < lo
  · rw [if_pos hlo]
    have h := mul_self_le_mul_self (show (0 : Int) ≤ lo - a by omega)
      (show lo - a ≤ b - a by omega)
    have e1 : (a - lo) * (a - lo) = (lo - a) * (lo - a) := by ring
    have e2 : (a - b) * (a - b) = (b - a) * (b - a) := by ring
    rw [e1, e2]; exact h
  · rw [if_neg hlo]
    by_cases hhi : a > hi
    · rw [if_pos hhi]
      exact mul_self_le_mul_self (show (0 : Int) ≤ a - hi by omega)
        (show a - hi ≤ a - b by omega)
    · rw [if_neg hhi]
      simpa using mul_self_nonneg (a - b)

theorem axis_gap_eq_clamp (lo hi a : Int) :
    (if a < lo then a - lo else if a > hi then a - hi else 0) =
      a - (if a < lo then lo else if a > hi then hi else a) := by
  by_cases hlo : a < lo
  · simp [hlo]
  · by_cases hhi : a > hi
    · simp [hlo, hhi]
    · simp [hlo, hhi]

theorem axis_gap_eq_zero_iff (lo hi a : Int) :
    (if a < lo then a - lo else if a > hi then a - hi else 0) = 0 ↔ lo ≤ a ∧ a ≤ hi := by
  by_cases hlo : a < lo
  · rw [if_pos hlo]; omega
  · rw [if_neg hlo]
    by_cases hhi : a > hi
    · rw [if_pos hhi]; omega
    · rw [if_neg hhi]; omega

theorem Rect.box_distance_sq_nonneg (r : Rect) (p : Point) : 0 ≤ (r.distance p).sq := by
  simp only [Rect.distance]
  exact add_nonneg (mul_self_nonneg _) (mul_self_nonneg _)

theorem Rect.distance_sq_le (r : Rect) (p q : Point) (h : r.contains q = true) :
    (r.distance p).sq ≤ (p.distance q).sq := by
  simp only [Rect.contains, Bool.and_eq_true, decide_eq_true_eq, ge_iff_le] at h
  simp only [Rect.distance, Point.distance]
  exact add_le_add (axis_gap_sq_le r.xmin r.xmax p.x q.x h.1.1.1 h.1.1.2)
    (axis_gap_sq_le r.ymin r.ymax p.y q.y h.1.2 h.2)

theorem Rect.distance_eq_clamp (r : Rect) (p : Point) :
    r.distance p = p.distance (r.clamp p) := by
  simp only [Rect.distance, Point.distance, Rect.clamp, axis_gap_eq_clamp]

theorem Rect.contains_clamp (r : Rect) (p : Point)
    (hr : r.xmin ≤ r.xmax ∧ r.ymin ≤ r.ymax) : r.contains (r.clamp p) = true := by
  simp only [Rect.contains, Rect.clamp, Bool.and_eq_true, decide_eq_true_eq, ge_iff_le]
  refine ⟨⟨⟨?_, ?_⟩, ?_⟩, ?_⟩ <;> split <;> try split
  all_goals omega

theorem Rect.distance_sq_eq_zero_iff (r : Rect) (p : Point) :
    (r.distance p).sq = 0 ↔ r.contains p = true := by
  simp only [Rect.distance, Rect.contains, Bool.and_eq_true, decide_eq_true_eq, ge_iff_le]
  have hx := axis_gap_eq_zero_iff r.xmin r.xmax p.x
  have hy := axis_gap_eq_zero_iff r.ymin r.ymax p.y
  generalize (if p.x < r.xmin then p.x - r.xmin else if p.x > r.xmax then p.x - r.xmax
    else 0) = dx at hx ⊢
  generalize (if p.y < r.ymin then p.y - r.ymin else if p.y > r.ymax then p.y - r.ymax
    else 0) = dy at hy ⊢
  constructor
  · intro h
    have h1 := mul_self_nonneg dx
    have h2 := mul_self_nonneg dy
    have hdx : dx = 0 := mul_self_eq_zero.mp (by omega)
    have hdy : dy = 0 := mul_self_eq_zero.mp (by omega)
    exact ⟨⟨hx.mp hdx, (hy.mp hdy).1⟩, (hy.mp hdy).2⟩
  · rintro ⟨⟨⟨h1, h2⟩, h3⟩, h4⟩
    rw [hx.mpr ⟨h1, h2⟩, hy.mpr ⟨h3, h4⟩]
    rfl

/-- C24: for a rectangle with `min <= max` on both axes, `Rect::distance(p)` (over
the reals) is at most the distance from `p` to every point the rectangle contains,
equals the distance from `p` to the point obtained by clamping `p` into the
rectangle, which the rectangle contains, and is 0 exactly when the rectangle
contains `p`. -/
theorem Rect.distance_is_minimum (R : Rect) (p : Point)
    (hR : R.xmin ≤ R.xmax ∧ R.ymin ≤ R.ymax) :
    (∀ q : Point, R.contains q = true →
      Real.sqrt ((R.distance p).sq : ℝ) ≤ Real.sqrt ((p.distance q).sq : ℝ)) ∧
    (R.contains (R.clamp p) = true ∧
      Real.sqrt ((R.distance p).sq : ℝ) = Real.sqrt ((p.distance (R.clamp p)).sq : ℝ)) ∧
    (Real.sqrt ((R.distance p).sq : ℝ) = 0 ↔ R.contains p = true) := by
  refine ⟨?_, ⟨Rect.contains_clamp R p hR, by rw [Rect.distance_eq_clamp]⟩, ?_⟩
  · intro q hq
    exact Real.sqrt_le_sqrt (by exact_mod_cast Rect.distance_sq_le R p q hq)
  · have hnn : (0 : ℝ) ≤ ((R.distance p).sq : ℝ) := by
      exact_mod_cast Rect.box_distance_sq_nonneg R p
    rw [Real.sqrt_eq_zero hnn, ← Rect.distance_sq_eq_zero_iff]
    exact_mod_cast Iff.rfl

theorem Rect.distance_is_minimum_witness :
    ((Rect.mk (pt 0 0) (pt 2 2)).xmin ≤ (Rect.mk (pt 0 0) (pt 2 2)).xmax ∧
      (Rect.mk (pt 0 0) (pt 2 2)).ymin ≤ (Rect.mk (pt 0 0) (pt 2 2)).ymax) ∧
    (Rect.mk (pt 0 0) (pt 2 2)).clamp (pt 3 1) = pt 2 1 ∧
    ((Rect.mk (pt 0 0) (pt 2 2)).contains ((Rect.mk (pt 0 0) (pt 2 2)).clamp (pt 3 1)) = true ∧
      Real.sqrt (((Rect.mk (pt 0 0) (pt 2 2)).distance (pt 3 1)).sq : ℝ) =
        Real.sqrt (((pt 3 1).distance ((Rect.mk (pt 0 0) (pt 2 2)).clamp (pt 3 1))).sq : ℝ)) :=
  ⟨by decide, by decide,
    (Rect.distance_is_minimum (Rect.mk (pt 0 0) (pt 2 2)) (pt 3 1) (by decide)).2.1⟩

/-! ## The bulk load -/

theorem pairs_before_failure_example :
    pairs_before_failure [some 1, some 2, some 3, none, some 5, some 6] = [Point.mk 1 2] ∧
    pairs_before_failure [some 1, some 2, some 3] = [Point.mk 1 2] ∧
    pairs_before_failure [none, some 2, some 3] = [] := by
  decide

theorem set_contains_iff (p : Point) (l : List Point) : set_contains p l = true ↔ p ∈ l := by
  simp only [set_contains, List.any_eq_true, Bool.and_eq_true, Bool.not_eq_true']
  constructor
  · rintro ⟨q, hq, h1, h2⟩
    rw [Point.eq_of_not_lt h1 h2]; exact hq
  · intro h
    exact ⟨p, h, Point.lt_irrefl p, Point.lt_irrefl p⟩

theorem kdtree.load_loop_mem : ∀ (tokens : List (Option Int)) (pts : List Point) (q : Point),
    q ∈ kdtree.load_loop tokens pts ↔ q ∈ pairs_before_failure tokens ∨ q ∈ pts
  | some x :: some y :: rest, pts, q => by
    rw [kdtree.load_loop, pairs_before_failure, kdtree.load_loop_mem rest, mem_set_insert,
      List.mem_cons]
    constructor
    · rintro (h | h | h)
      · exact Or.inl (Or.inr h)
      · exact Or.inl (Or.inl h)
      · exact Or.inr h
    · rintro ((h | h) | h)
      · exact Or.inr (Or.inl h)
      · exact Or.inl h
      · exact Or.inr (Or.inr h)
  | [], pts, q => by simp [kdtree.load_loop, pairs_before_failure]
  | none :: _, pts, q => by simp [kdtree.load_loop, pairs_before_failure]
  | [some _], pts, q => by simp [kdtree.load_loop, pairs_before_failure]
  | some _ :: none :: _, pts, q => by simp [kdtree.load_loop, pairs_before_failure]

theorem kdtree.load_loop_sorted : ∀ (tokens : List (Option Int)) (pts : List Point),
    (pts.Pairwise fun a b => a.lt b = true) →
      (kdtree.load_loop tokens pts).Pairwise fun a b => a.lt b = true
  | some x :: some y :: rest, pts, h => by
    rw [kdtree.load_loop]
    exact kdtree.load_loop_sorted rest _ (set_insert_sorted _ pts h)
  | [], pts, h => by simpa [kdtree.load_loop] using h
  | none :: _, pts, h => by simpa [kdtree.load_loop] using h
  | [some _], pts, h => by simpa [kdtree.load_loop] using h
  | some _ :: none :: _, pts, h => by simpa [kdtree.load_loop] using h

theorem rbtree.put_spec (s : rbtree.PointSet) (p : Point)
    (hinv : s.points.Nodup ∧ ∀ a, a ∈ s.points ↔ a ∈ s.set_points) :
    ((s.put p).points.Nodup ∧ ∀ a, a ∈ (s.put p).points ↔ a ∈ (s.put p).set_points) ∧
    ∀ q, q ∈ (s.put p).points ↔ q = p ∨ q ∈ s.points := by
  by_cases hc : s.contains p = true
  · have hp : p ∈ s.points :=
      (hinv.2 p).mpr ((set_contains_iff p s.set_points).mp hc)
    simp only [rbtree.PointSet.put, hc, Bool.not_true, Bool.false_eq_true, if_false]
    refine ⟨hinv, fun q => ⟨fun h => Or.inr h, ?_⟩⟩
    rintro (h | h)
    · rw [h]; exact hp
    · exact h
  · have hp : p ∉ s.points := fun h =>
      hc ((set_contains_iff p s.set_points).mpr ((hinv.2 p).mp h))
    have hc' : s.contains p = false := by simpa using hc
    simp only [rbtree.PointSet.put, hc', Bool.not_false, if_true]
    refine ⟨⟨?_, ?_⟩, ?_⟩
    · exact List.Nodup.append hinv.1 (List.nodup_singleton p) (by
        intro a ha hb
        rw [List.mem_singleton.mp hb] at ha
        exact hp ha)
    · intro a
      rw [List.mem_append, List.mem_singleton, mem_set_insert, hinv.2 a]
      exact Or.comm
    · intro q
      rw [List.mem_append, List.mem_singleton]
      exact Or.comm

theorem rbtree.load_loop_spec : ∀ (tokens : List (Option Int)) (s : rbtree.PointSet),
    (s.points.Nodup ∧ ∀ a, a ∈ s.points ↔ a ∈ s.set_points) →
    ((rbtree.load_loop tokens s).points.Nodup ∧
      ∀ a, a ∈ (rbtree.load_loop tokens s).points ↔ a ∈ (rbtree.load_loop tokens s).set_points) ∧
    ∀ q, q ∈ (rbtree.load_loop tokens s).points ↔ q ∈ pairs_before_failure tokens ∨ q ∈ s.points
  | some x :: some y :: rest, s, h => by
    have hput := rbtree.put_spec s (Point.mk x y) h
    have hrec := rbtree.load_loop_spec rest (s.put (Point.mk x y)) hput.1
    rw [rbtree.load_loop, pairs_before_failure]
    refine ⟨hrec.1, fun q => ?_⟩
    rw [hrec.2 q, hput.2 q, List.mem_cons]
    constructor
    · rintro (h | h | h)
      · exact Or.inl (Or.inr h)
      · exact Or.inl (Or.inl h)
      · exact Or.inr h
    · rintro ((h | h) | h)
      · exact Or.inr (Or.inl h)
      · exact Or.inl h
      · exact Or.inr (Or.inr h)
  | [], s, h => by simpa [rbtree.load_loop, pairs_before_failure] using h
  | none :: _, s, h => by simpa [rbtree.load_loop, pairs_before_failure] using h
  | [some _], s, h => by simpa [rbtree.load_loop, pairs_before_failure] using h
  | some _ :: none :: _, s, h => by simpa [rbtree.load_loop, pairs_before_failure] using h

/-- C25: the set constructed from a stream of tokens holds exactly the pairs read
before the first pair in which a token is missing or does not parse, each once;
this holds for the tree (which is built, the dirty flag false) and for the
brute-force set, whatever the tokens are: the constructors are total. -/
theorem bulk_load_pairs (lib : kdtree.StdAlgo) (tokens : List (Option Int)) :
    ((∀ q, q ∈ (kdtree.PointSet.of_file lib tokens).points ↔ q ∈ pairs_before_failure tokens) ∧
      (kdtree.PointSet.of_file lib tokens).points.Nodup ∧
      (kdtree.PointSet.of_file lib tokens).need_build = false) ∧
    ((∀ q, q ∈ (rbtree.PointSet.of_file tokens).points ↔ q ∈ pairs_before_failure tokens) ∧
      (rbtree.PointSet.of_file tokens).points.Nodup ∧
      ∀ q, (rbtree.PointSet.of_file tokens).contains q = true ↔
        q ∈ pairs_before_failure tokens) := by
  have hrb := rbtree.load_loop_spec tokens rbtree.PointSet.new
    ⟨List.nodup_nil, fun a => Iff.rfl⟩
  have hrbmem : ∀ q, q ∈ (rbtree.PointSet.of_file tokens).points ↔
      q ∈ pairs_before_failure tokens := by
    intro q
    have := hrb.2 q
    simpa [rbtree.PointSet.of_file, rbtree.PointSet.new] using this
  refine ⟨⟨?_, ?_, ?_⟩, hrbmem, hrb.1.1, ?_⟩
  · intro q
    rw [kdtree.PointSet.of_file, kdtree.build_if_need_points]
    simpa using kdtree.load_loop_mem tokens [] q
  · rw [kdtree.PointSet.of_file, kdtree.build_if_need_points]
    exact sorted_nodup _ (kdtree.load_loop_sorted tokens [] List.Pairwise.nil)
  · exact kdtree.build_if_need_need_build lib _
  · intro q
    rw [rbtree.PointSet.contains, set_contains_iff]
    exact ((hrb.1.2 q).symm).trans (hrbmem q)

namespace kdtree

/-! ## Invariants of the built tree -/

theorem partitioned_nodes (t : Node) (h : t.Partitioned) :
    ∀ n ∈ preorder_traversal t, n.Partitioned := by
  induction t with
  | null => intro n hn; simp [preorder_traversal] at hn
  | mk point rect left right axis ihl ihr =>
    intro n hn
    simp only [preorder_traversal, List.mem_cons, List.mem_append] at hn
    rcases hn with e | e | e
    · rw [e]; exact h
    · exact ihl h.2.2.1 n e
    · exact ihr h.2.2.2 n e

/-- C27: in the tree built from distinct points with no prior tree, at every node
(with its point, axis and two subtrees) every point of the left subtree has a
coordinate on the node's axis at most the node's, and every point of the right
subtree one at least the node's. -/
theorem first_build_weak_partition (lib : StdAlgo) (hspec : NthElementSpec lib)
    (ps : List Point) (hnd : ps.Nodup) :
    (PointSet.build_if_need lib (PointSet.new.put_all ps)).root.points.Perm ps ∧
    ∀ (point : Point) (rect : Rect) (left right : Node) (axis : Axis),
      Node.mk point rect left right axis ∈
        preorder_traversal (PointSet.build_if_need lib (PointSet.new.put_all ps)).root →
      (∀ q ∈ left.points, q.coord axis ≤ point.coord axis) ∧
      (∀ q ∈ right.points, point.coord axis ≤ q.coord axis) := by
  refine ⟨first_build_points hspec ps hnd, ?_⟩
  intro point rect left right axis hn
  have h := partitioned_nodes _ (first_build_partitioned hspec ps) _ hn
  exact ⟨h.1, h.2.1⟩

theorem first_build_weak_partition_witness :
    NthElementSpec sorting_lib ∧ [pt 2 3, pt 5 4, pt 9 6].Nodup ∧
    ((PointSet.build_if_need sorting_lib
      (PointSet.new.put_all [pt 2 3, pt 5 4, pt 9 6])).root.points.Perm [pt 2 3, pt 5 4, pt 9 6] ∧
    ∀ (point : Point) (rect : Rect) (left right : Node) (axis : Axis),
      Node.mk point rect left right axis ∈
        preorder_traversal (PointSet.build_if_need sorting_lib
          (PointSet.new.put_all [pt 2 3, pt 5 4, pt 9 6])).root →
      (∀ q ∈ left.points, q.coord axis ≤ point.coord axis) ∧
      (∀ q ∈ right.points, point.coord axis ≤ q.coord axis)) :=
  ⟨sorting_lib_nth, by decide,
    first_build_weak_partition sorting_lib sorting_lib_nth [pt 2 3, pt 5 4, pt 9 6]
      (by decide)⟩

theorem buildAux_axis_alternates (lib : StdAlgo) :
    ∀ (fuel : Nat) (old : Node) (c : List Point) (mn mx : Point) (depth : Nat),
      old.AxisAlternates depth → (buildAux lib fuel old c mn mx depth).AxisAlternates depth := by
  intro fuel
  induction fuel with
  | zero => intro old c mn mx depth _; simp [buildAux, Node.AxisAlternates]
  | succ fuel ih =>
    intro old c mn mx depth hold
    rcases c with _ | ⟨a, _ | ⟨b, rest⟩⟩
    · simp [buildAux, Node.AxisAlternates]
    · simp [buildAux, Node.AxisAlternates]
    · simp only [buildAux]
      split
      · trivial
      · cases old with
        | null =>
          exact ⟨rfl, ih _ _ _ _ _ trivial, ih _ _ _ _ _ trivial⟩
        | mk point rect left right ax =>
          exact ⟨hold.1, ih _ _ _ _ _ hold.2.1, ih _ _ _ _ _ hold.2.2⟩

theorem build_if_need_axis_alternates (lib : StdAlgo) (s : PointSet)
    (h : s.root.AxisAlternates 0) : (PointSet.build_if_need lib s).root.AxisAlternates 0 := by
  unfold PointSet.build_if_need
  split
  · exact buildAux_axis_alternates lib _ _ _ _ _ 0 h
  · exact h

theorem reachable_axis_alternates {lib : StdAlgo} {s : PointSet} (hr : Reachable lib s) :
    s.root.AxisAlternates 0 := by
  induction hr with
  | new => trivial
  | step s op _ ih =>
    rcases step_read lib s op with h | ⟨p, h⟩
    · rw [h]; exact build_if_need_axis_alternates lib s ih
    · subst h; exact ih

theorem axes_by_depth_of_alternates (t : Node) :
    ∀ d : Nat, t.AxisAlternates d → ∀ da ∈ Node.axes_by_depth d t, da.2 = get_axis da.1 := by
  induction t with
  | null => intro d _ da hda; simp [Node.axes_by_depth] at hda
  | mk point rect left right axis ihl ihr =>
    intro d h da hda
    simp only [Node.axes_by_depth, List.mem_cons, List.mem_append] at hda
    rcases hda with e | e | e
    · rw [e]; exact h.1
    · exact ihl (d + 1) h.2.1 da e
    · exact ihr (d + 1) h.2.2 da e

/-- C30: in every reachable state, with every library, every node at depth `d` of
the cached tree (the root at depth 0) has axis `X` when `d` is even and `Y` when `d`
is odd: new nodes take `get_axis(depth)`, and a node kept by a rebuild stays at the
depth it was created at. -/
theorem axis_alternates_by_depth (lib : StdAlgo) (s : PointSet) (hr : Reachable lib s) :
    ∀ da ∈ Node.axes_by_depth 0 s.root,
      (da.1 % 2 = 0 → da.2 = Axis.X) ∧ (da.1 % 2 = 1 → da.2 = Axis.Y) := by
  intro da hda
  have h := axes_by_depth_of_alternates s.root 0 (reachable_axis_alternates hr) da hda
  rw [h]
  constructor
  · intro he; simp [get_axis, he]
  · intro ho; simp [get_axis, ho]

theorem axis_alternates_by_depth_witness :
    Reachable sorting_lib (PointSet.size sorting_lib
      ((PointSet.size sorting_lib (PointSet.new.put (pt 1 1))).2.put (pt 2 2))).2 ∧
    Node.axes_by_depth 0 (PointSet.size sorting_lib
      ((PointSet.size sorting_lib (PointSet.new.put (pt 1 1))).2.put (pt 2 2))).2.root
      = [(0, Axis.X), (1, Axis.Y)] ∧
    ∀ da ∈ Node.axes_by_depth 0 (PointSet.size sorting_lib
        ((PointSet.size sorting_lib (PointSet.new.put (pt 1 1))).2.put (pt 2 2))).2.root,
      (da.1 % 2 = 0 → da.2 = Axis.X) ∧ (da.1 % 2 = 1 → da.2 = Axis.Y) :=
  ⟨Reachable.step _ Op.size (Reachable.step _ (Op.put (pt 2 2))
      (Reachable.step _ Op.size (Reachable.step PointSet.new (Op.put (pt 1 1)) Reachable.new))),
    by decide,
    axis_alternates_by_depth sorting_lib _
      (Reachable.step _ Op.size (Reachable.step _ (Op.put (pt 2 2))
        (Reachable.step _ Op.size
          (Reachable.step PointSet.new (Op.put (pt 1 1)) Reachable.new))))⟩

/-! ## Where the built tree departs from its invariants -/

/-- C26 (code at the failing input): with every conforming `nth_element`, for the
old tree `T` that a read caches after `put((1,1))` and the collection
`S = {(1,1), (2,2)}`, the rebuild with `T` keeps `(1,1)` at the root, while the build
with no old tree puts the pivot `(2,2)` there. -/
theorem rebuild_differs_from_fresh_build (lib : StdAlgo) (hspec : NthElementSpec lib) :
    (PointSet.build_if_need lib (PointSet.new.put (pt 1 1))).root =
      Node.mk (pt 1 1) (Rect.mk (Point.mk dbl_min dbl_min) (Point.mk dbl_max dbl_max))
        Node.null Node.null Axis.X ∧
    buildAux lib 2
      (Node.mk (pt 1 1) (Rect.mk (Point.mk dbl_min dbl_min) (Point.mk dbl_max dbl_max))
        Node.null Node.null Axis.X)
      [pt 1 1, pt 2 2] (Point.mk dbl_min dbl_min) (Point.mk dbl_max dbl_max) 0 =
      Node.mk (pt 1 1) (Rect.mk (Point.mk dbl_min dbl_min) (Point.mk dbl_max dbl_max))
        (Node.mk (pt 1 1) (Rect.mk (Point.mk dbl_min dbl_min) (Point.mk (dbl 2) dbl_max))
          Node.null Node.null Axis.Y)
        Node.null Axis.X ∧
    buildAux lib 2 Node.null
      [pt 1 1, pt 2 2] (Point.mk dbl_min dbl_min) (Point.mk dbl_max dbl_max) 0 =
      Node.mk (pt 2 2) (Rect.mk (Point.mk dbl_min dbl_min) (Point.mk dbl_max dbl_max))
        (Node.mk (pt 1 1) (Rect.mk (Point.mk dbl_min dbl_min) (Point.mk (dbl 2) dbl_max))
          Node.null Node.null Axis.Y)
        Node.null Axis.X := by
  have hs : lib.nth_element [pt 1 1, pt 2 2] ([pt 1 1, pt 2 2].length / 2) (get_axis 0)
      = [pt 1 1, pt 2 2] :=
    nth_element_pair hspec (pt 1 1) (pt 2 2) Axis.X (by decide)
  refine ⟨rfl, ?_, ?_⟩
  · rw [buildAux_reuse_step lib 1 _ _ _ _ _ [pt 1 1, pt 2 2] _ _ 0 (by simp) (pt 2 2) []
      (by rw [hs]; rfl), hs]
    rfl
  · rw [buildAux_null_step lib 1 [pt 1 1, pt 2 2] _ _ 0 (by simp) (pt 2 2) []
      (by rw [hs]; rfl), hs]
    rfl

theorem rebuild_differs_from_fresh_build_witness :
    NthElementSpec sorting_lib ∧
    buildAux sorting_lib 2 Node.null
      [pt 1 1, pt 2 2] (Point.mk dbl_min dbl_min) (Point.mk dbl_max dbl_max) 0 =
      Node.mk (pt 2 2) (Rect.mk (Point.mk dbl_min dbl_min) (Point.mk dbl_max dbl_max))
        (Node.mk (pt 1 1) (Rect.mk (Point.mk dbl_min dbl_min) (Point.mk (dbl 2) dbl_max))
          Node.null Node.null Axis.Y)
        Node.null Axis.X :=
  ⟨sorting_lib_nth, (rebuild_differs_from_fresh_build sorting_lib sorting_lib_nth).2.2⟩

/-- C28 (code at the failing input): with a conforming `nth_element`, in the tree
built from `(0,0)`, `(0,1)`, `(0,2)`, `(0,3)` the left subtree of the root holds a
point `q` for which `root > q` is false and `root < q` is true under the node
comparator. -/
theorem tie_placed_against_search_order :
    NthElementSpec reversing_lib ∧
    ∃ point rect left right axis,
      (PointSet.build_if_need reversing_lib
        (PointSet.new.put_all [pt 0 0, pt 0 1, pt 0 2, pt 0 3])).root =
        Node.mk point rect left right axis ∧
      point = pt 0 1 ∧ axis = Axis.X ∧
      ∃ q ∈ left.points, q = pt 0 2 ∧ Node.gt point axis q = false ∧
        Node.lt point axis q = true :=
  ⟨reversing_lib_nth, _, _, _, _, _, rfl, by decide, by decide, pt 0 2, by decide, rfl,
    by decide, by decide⟩

/-- C29 (code at the failing input): with a conforming `nth_element`, in the tree
built from `(-3,1)`, `(-2,1)`, `(-1,1)` the root `(-2,1)` has the rect that starts at
`std::numeric_limits<double>::min()`, and its right child `(-1,1)` has a rect that
starts at `x = -2`: the child's rect contains the child's point, the root's rect
does not, so the child's rect is not inside it. -/
theorem child_rect_not_inside_parent :
    NthElementSpec sorting_lib ∧
    ∃ point rect left rpoint rrect rl rr raxis axis,
      (PointSet.build_if_need sorting_lib
        (PointSet.new.put_all [pt (-3) 1, pt (-2) 1, pt (-1) 1])).root =
        Node.mk point rect left (Node.mk rpoint rrect rl rr raxis) axis ∧
      point = pt (-2) 1 ∧ rpoint = pt (-1) 1 ∧
      rect = Rect.mk (Point.mk dbl_min dbl_min) (Point.mk dbl_max dbl_max) ∧
      rrect = Rect.mk (Point.mk (dbl (-2)) dbl_min) (Point.mk dbl_max dbl_max) ∧
      rrect.contains rpoint = true ∧ rect.contains rpoint = false :=
  ⟨sorting_lib_nth, _, _, _, _, _, _, _, _, _, rfl, by decide, by decide, by decide,
    by decide, by decide, by decide⟩

/-! ## What holds of the first build all the same -/

theorem build_rects_split {lib : StdAlgo} (hspec : NthElementSpec lib) :
    ∀ (fuel : Nat) (c : List Point) (mn mx : Point) (depth : Nat), c.length ≤ fuel →
      (∀ rc ∈ (buildAux lib fuel Node.null c mn mx depth).rect?, rc = Rect.mk mn mx) ∧
      (buildAux lib fuel Node.null c mn mx depth).RectsSplit := by
  apply build_induction hspec (fun _ mn mx _ t =>
    (∀ rc ∈ t.rect?, rc = Rect.mk mn mx) ∧ t.RectsSplit)
  · intro _ _ _
    exact ⟨by intro rc h; simp [Node.rect?] at h, trivial⟩
  · intro p mn mx _
    refine ⟨by intro rc h; simpa [Node.rect?, eq_comm] using h, ?_, ?_, trivial, trivial⟩ <;>
      intro rc h <;> simp [Node.rect?] at h
  · intro c mn mx depth middle after l r _ _ hl hr
    exact ⟨by intro rc h; simpa [Node.rect?, eq_comm] using h, hl.1, hr.1, hl.2, hr.2⟩

/-- In the tree of a first build, every present child's rect is the parent's rect
split at the parent's point coordinate along the parent's axis, whatever the
coordinates are. -/
theorem first_build_rects_split {lib : StdAlgo} (hspec : NthElementSpec lib)
    (ps : List Point) :
    (PointSet.build_if_need lib (PointSet.new.put_all ps)).root.RectsSplit := by
  rw [build_if_need_put_all_root]
  exact (build_rects_split hspec _ _ _ _ 0 (le_refl _)).2

theorem node_gt_of_coord_lt (point q : Point) (axis : Axis)
    (h : q.coord axis < point.coord axis) : Node.gt point axis q = true := by
  cases axis <;>
    simp only [Point.coord, if_true, reduceCtorEq, if_false] at h <;>
    simp only [Node.gt, if_true, reduceCtorEq, if_false]
  · rw [if_neg (by omega)]; simpa using h
  · rw [if_neg (by omega)]; simpa using h

theorem node_lt_of_coord_gt (point q : Point) (axis : Axis)
    (h : point.coord axis < q.coord axis) : Node.lt point axis q = true := by
  have hne : point ≠ q := by
    intro e; rw [e] at h; exact lt_irrefl _ h
  have hne' : point.eq q = false := by
    cases hq : point.eq q with
    | false => rfl
    | true => exact absurd ((Point.eq_iff point q).mp hq) hne
  cases axis <;>
    simp only [Point.coord, if_true, reduceCtorEq, if_false] at h <;>
    simp only [Node.lt, Node.ne, Node.gt, if_true, reduceCtorEq, if_false, hne',
      Bool.not_false, Bool.and_true, Bool.not_eq_true', decide_eq_false_iff_not]
  · rw [if_neg (by omega)]; simp only [decide_eq_false_iff_not]; omega
  · rw [if_neg (by omega)]; simp only [decide_eq_false_iff_not]; omega

theorem coord_ne_of_distinct {c : List Point} (hd : DistinctCoords c) (a b : Point)
    (ha : a ∈ c) (hb : b ∈ c) (hab : a ≠ b) (axis : Axis) : a.coord axis ≠ b.coord axis := by
  have h := hd a ha b hb hab
  cases axis
  · simpa [Point.coord] using h.1
  · simpa [Point.coord] using h.2

theorem build_search_ordered {lib : StdAlgo} (hspec : NthElementSpec lib) :
    ∀ (fuel : Nat) (c : List Point) (mn mx : Point) (depth : Nat), c.length ≤ fuel →
      (buildAux lib fuel Node.null c mn mx depth).points.Perm c ∧
      (c.Nodup → DistinctCoords c →
        (buildAux lib fuel Node.null c mn mx depth).SearchOrdered) := by
  apply build_induction hspec (fun c _ _ _ t => t.points.Perm c ∧
    (c.Nodup → DistinctCoords c → t.SearchOrdered))
  · intro _ _ _; exact ⟨List.Perm.refl _, fun _ _ => trivial⟩
  · intro p _ _ _
    exact ⟨List.Perm.refl _, fun _ _ => by simp [Node.SearchOrdered, Node.points]⟩
  · intro c mn mx depth middle after l r hc hs hl hr
    obtain ⟨hperm, hle, hge⟩ := nth_element_parts hspec c (get_axis depth) hc middle after hs
    refine ⟨?_, ?_⟩
    · simp only [Node.points]
      exact ((hl.1.append hr.1).cons middle).trans hperm
    · intro hnd hdist
      have hnd2 : (middle :: ((lib.nth_element c (c.length / 2) (get_axis depth)).take
          (c.length / 2) ++ after)).Nodup := hperm.nodup_iff.mpr hnd
      obtain ⟨hmid, hrest⟩ := List.nodup_cons.mp hnd2
      have hsub : ∀ a ∈ (lib.nth_element c (c.length / 2) (get_axis depth)).take
          (c.length / 2) ++ after, a ∈ c :=
        fun a ha => hperm.subset (List.mem_cons_of_mem _ ha)
      have hmc : middle ∈ c := hperm.subset (List.mem_cons_self _ _)
      refine ⟨?_, ?_, ?_, ?_⟩
      · intro q hq
        have hqt := hl.1.subset hq
        have hqm : q ≠ middle := fun e => hmid (e ▸ List.mem_append_left _ hqt)
        have hne := coord_ne_of_distinct hdist q middle
          (hsub q (List.mem_append_left _ hqt)) hmc hqm (get_axis depth)
        exact node_gt_of_coord_lt middle q _ (lt_of_le_of_ne (hle q hqt) hne)
      · intro q hq
        have hqa := hr.1.subset hq
        have hqm : q ≠ middle := fun e => hmid (e ▸ List.mem_append_right _ hqa)
        have hne := coord_ne_of_distinct hdist q middle
          (hsub q (List.mem_append_right _ hqa)) hmc hqm (get_axis depth)
        exact node_lt_of_coord_gt middle q _ (lt_of_le_of_ne (hge q hqa) (Ne.symm hne))
      · apply hl.2 (List.nodup_append.mp hrest).1
        intro a ha b hb hab
        exact hdist a (hsub a (List.mem_append_left _ ha)) b
          (hsub b (List.mem_append_left _ hb)) hab
      · apply hr.2 (List.nodup_append.mp hrest).2.1
        intro a ha b hb hab
        exact hdist a (hsub a (List.mem_append_right _ ha)) b
          (hsub b (List.mem_append_right _ hb)) hab

theorem search_complete (t : Node) (h : t.SearchOrdered) :
    ∀ q ∈ t.points, search t q ≠ Node.null := by
  induction t with
  | null => intro q hq; simp [Node.points] at hq
  | mk point rect left right axis ihl ihr =>
    intro q hq
    unfold search
    by_cases he : point.eq q = true
    · rw [if_pos he]; exact fun e => by cases e
    · rw [if_neg he]
      simp only [Node.points, List.mem_cons, List.mem_append] at hq
      rcases hq with e | e | e
      · exact absurd ((Point.eq_iff point q).mpr e.symm) he
      · rw [if_pos (h.1 q e)]
        exact ihl h.2.2.1 q e
      · have hlt := h.2.1 q e
        simp only [Node.lt, Bool.and_eq_true, Bool.not_eq_true'] at hlt
        rw [if_neg (by rw [hlt.1]; exact Bool.false_ne_true)]
        exact ihr h.2.2.2 q e

/-- After a first build of distinct points of which no two share an `x` or a `y`
coordinate, the tree is ordered as the search expects and `contains` finds every
point put. -/
theorem contains_after_puts_without_ties {lib : StdAlgo} (hspec : NthElementSpec lib)
    (ps : List Point) (hnd : ps.Nodup) (hdist : DistinctCoords ps) :
    (PointSet.build_if_need lib (PointSet.new.put_all ps)).root.SearchOrdered ∧
    ∀ p ∈ ps, (PointSet.contains lib (PointSet.new.put_all ps) p).1 = true := by
  have hpts := put_all_new_points ps hnd
  have hord : (PointSet.build_if_need lib (PointSet.new.put_all ps)).root.SearchOrdered := by
    rw [build_if_need_put_all_root]
    apply (build_search_ordered hspec _ _ _ _ 0 (le_refl _)).2 (hpts.nodup_iff.mpr hnd)
    intro a ha b hb hab
    exact hdist a (hpts.subset ha) b (hpts.subset hb) hab
  refine ⟨hord, fun p hp => ?_⟩
  simp only [PointSet.contains, decide_eq_true_eq]
  exact search_complete _ hord p ((first_build_points hspec ps hnd).symm.subset hp)

/-! ## The shape of the built tree -/

/-- The height a balanced tree of `m` points has. -/
theorem log_half_step (n : Nat) (hn : 2 ≤ n) : Nat.log 2 n = Nat.log 2 (n / 2) + 1 :=
  Nat.log_of_one_lt_of_le (by decide) hn

/-- Whatever the previous tree, `build` returns a tree with one node per element
of its range, split in halves at every node, and of logarithmic height. -/
theorem buildAux_shape {lib : StdAlgo} (hspec : NthElementSpec lib) :
    ∀ (fuel : Nat) (old : Node) (c : List Point) (mn mx : Point) (depth : Nat),
      c.length ≤ fuel →
      (buildAux lib fuel old c mn mx depth).size = c.length ∧
      (buildAux lib fuel old c mn mx depth).Balanced ∧
      (buildAux lib fuel old c mn mx depth).height =
        if c.length = 0 then 0 else Nat.log 2 c.length + 1 := by
  intro fuel
  induction fuel with
  | zero =>
    intro old c mn mx depth hlen
    have hc : c = [] := List.length_eq_zero.mp (by omega)
    subst hc
    simp [buildAux, Node.size, Node.Balanced, Node.height]
  | succ fuel ih =>
    intro old c mn mx depth hlen
    rcases c with _ | ⟨a, _ | ⟨b, rest⟩⟩
    · simp [buildAux, Node.size, Node.Balanced, Node.height]
    · simp [buildAux, Node.size, Node.Balanced, Node.height]
    · have hc : 2 ≤ (a :: b :: rest).length := by simp
      generalize a :: b :: rest = c at hc hlen ⊢
      obtain ⟨middle, after, hs⟩ := nth_element_split hspec c (get_axis depth) hc
      have hslen := nth_element_length hspec c (get_axis depth) hc
      have htake : ((lib.nth_element c (c.length / 2) (get_axis depth)).take
          (c.length / 2)).length = c.length / 2 := by
        rw [List.length_take, hslen]; omega
      have hafter : after.length = c.length - 1 - c.length / 2 := by
        have h := congrArg List.length hs
        rw [List.length_drop, hslen, List.length_cons] at h
        omega
      have hl : ∀ o : Node, _ := fun o => ih o
        ((lib.nth_element c (c.length / 2) (get_axis depth)).take (c.length / 2)) mn
        (create_point mx (get_axis depth) (middle.coord (get_axis depth))) (depth + 1)
        (by rw [htake]; omega)
      have hr : ∀ o : Node, _ := fun o => ih o after
        (create_point mn (get_axis depth) (middle.coord (get_axis depth))) mx (depth + 1)
        (by rw [hafter]; omega)
      have hlog := log_half_step c.length hc
      have hmono : after.length ≠ 0 → Nat.log 2 after.length ≤ Nat.log 2 (c.length / 2) :=
        fun _ => Nat.log_mono_right (by rw [hafter]; omega)
      cases old with
      | null =>
        rw [buildAux_null_step lib fuel c mn mx depth hc middle after hs]
        obtain ⟨hl1, hl2, hl3⟩ := hl Node.null
        obtain ⟨hr1, hr2, hr3⟩ := hr Node.null
        rw [htake] at hl1 hl3
        rw [if_neg (by omega)] at hl3
        refine ⟨?_, ⟨?_, ?_, hl2, hr2⟩, ?_⟩
        · rw [Node.size, hl1, hr1]; omega
        · rw [Node.size, hl1, hr1]; omega
        · rw [Node.size, hl1, hr1]; omega
        · have hc0 : ¬ c.length = 0 := by omega
          rw [Node.height, hl3, hr3, if_neg hc0]
          by_cases h0 : after.length = 0
          · rw [if_pos h0]; omega
          · rw [if_neg h0]; have := hmono h0; omega
      | mk point rect left right ax =>
        rw [buildAux_reuse_step lib fuel point rect left right ax c mn mx depth hc middle
          after hs]
        obtain ⟨hl1, hl2, hl3⟩ := hl left
        obtain ⟨hr1, hr2, hr3⟩ := hr right
        rw [htake] at hl1 hl3
        rw [if_neg (by omega)] at hl3
        refine ⟨?_, ⟨?_, ?_, hl2, hr2⟩, ?_⟩
        · rw [Node.size, hl1, hr1]; omega
        · rw [Node.size, hl1, hr1]; omega
        · rw [Node.size, hl1, hr1]; omega
        · have hc0 : ¬ c.length = 0 := by omega
          rw [Node.height, hl3, hr3, if_neg hc0]
          by_cases h0 : after.length = 0
          · rw [if_pos h0]; omega
          · rw [if_neg h0]; have := hmono h0; omega

theorem balanced_nodes (t : Node) (h : t.Balanced) :
    ∀ point rect left right axis, Node.mk point rect left right axis ∈ preorder_traversal t →
      left.size = (Node.mk point rect left right axis).size / 2 ∧
      right.size = (Node.mk point rect left right axis).size - 1
        - (Node.mk point rect left right axis).size / 2 := by
  induction t with
  | null => intro point rect left right axis hn; simp [preorder_traversal] at hn
  | mk p r l rt ax ihl ihr =>
    intro point rect left right axis hn
    simp only [preorder_traversal, List.mem_cons, List.mem_append] at hn
    rcases hn with e | e | e
    · cases e; exact ⟨h.1, h.2.1⟩
    · exact ihl h.2.2.1 _ _ _ _ _ e
    · exact ihr h.2.2.2 _ _ _ _ _ e

/-- C31: the tree `build()` makes of `n ≥ 1` points, in whatever order the points
come, whatever their coordinates and whatever the previous tree, has `n` nodes; at
every node whose subtree holds `m` points the left subtree holds `m / 2` of them
(rounded down) and the right subtree `m - 1 - m / 2`; and the height of the tree
is `⌊log2 n⌋ + 1`. -/
theorem build_is_balanced (lib : StdAlgo) (hspec : NthElementSpec lib) (s : PointSet)
    (hn : 1 ≤ s.points.length) :
    (PointSet.build lib s).root.size = s.points.length ∧
    (∀ point rect left right axis,
      Node.mk point rect left right axis ∈ preorder_traversal (PointSet.build lib s).root →
      left.size = (Node.mk point rect left right axis).size / 2 ∧
      right.size = (Node.mk point rect left right axis).size - 1
        - (Node.mk point rect left right axis).size / 2) ∧
    (PointSet.build lib s).root.height = Nat.log 2 s.points.length + 1 := by
  have h := buildAux_shape hspec s.points.length s.root s.points (Point.mk dbl_min dbl_min)
    (Point.mk dbl_max dbl_max) 0 (le_refl _)
  rw [if_neg (by omega)] at h
  exact ⟨h.1, balanced_nodes _ h.2.1, h.2.2⟩

theorem build_is_balanced_witness :
    NthElementSpec sorting_lib ∧
    1 ≤ (PointSet.new.put_all [pt 3 1, pt 1 2, pt 2 3, pt 5 5]).points.length ∧
    ((PointSet.build sorting_lib
      (PointSet.new.put_all [pt 3 1, pt 1 2, pt 2 3, pt 5 5])).root.size =
      (PointSet.new.put_all [pt 3 1, pt 1 2, pt 2 3, pt 5 5]).points.length ∧
    (∀ point rect left right axis,
      Node.mk point rect left right axis ∈ preorder_traversal (PointSet.build sorting_lib
        (PointSet.new.put_all [pt 3 1, pt 1 2, pt 2 3, pt 5 5])).root →
      left.size = (Node.mk point rect left right axis).size / 2 ∧
      right.size = (Node.mk point rect left right axis).size - 1
        - (Node.mk point rect left right axis).size / 2) ∧
    (PointSet.build sorting_lib
      (PointSet.new.put_all [pt 3 1, pt 1 2, pt 2 3, pt 5 5])).root.height =
      Nat.log 2 (PointSet.new.put_all [pt 3 1, pt 1 2, pt 2 3, pt 5 5]).points.length + 1) :=
  ⟨sorting_lib_nth, by decide,
    build_is_balanced sorting_lib sorting_lib_nth
      (PointSet.new.put_all [pt 3 1, pt 1 2, pt 2 3, pt 5 5]) (by decide)⟩

/-! ## The cached tree holds one node per stored point -/

/-- The recursion of `build` needs no more fuel than the length of its range. -/
theorem buildAux_fuel {lib : StdAlgo} (hspec : NthElementSpec lib) :
    ∀ (f1 f2 : Nat) (old : Node) (c : List Point) (mn mx : Point) (depth : Nat),
      c.length ≤ f1 → c.length ≤ f2 →
      buildAux lib f1 old c mn mx depth = buildAux lib f2 old c mn mx depth := by
  intro f1
  induction f1 with
  | zero =>
    intro f2 old c mn mx depth h1 _
    have hc : c = [] := List.length_eq_zero.mp (by omega)
    subst hc
    cases f2 <;> simp [buildAux]
  | succ f1 ih =>
    intro f2 old c mn mx depth h1 h2
    rcases c with _ | ⟨a, _ | ⟨b, rest⟩⟩
    · cases f2 <;> simp [buildAux]
    · cases f2 with
      | zero => simp at h2
      | succ f2 => simp [buildAux]
    · have hc : 2 ≤ (a :: b :: rest).length := by simp
      generalize a :: b :: rest = c at hc h1 h2 ⊢
      obtain ⟨middle, after, hs⟩ := nth_element_split hspec c (get_axis depth) hc
      have hslen := nth_element_length hspec c (get_axis depth) hc
      have htake : ((lib.nth_element c (c.length / 2) (get_axis depth)).take
          (c.length / 2)).length = c.length / 2 := by
        rw [List.length_take, hslen]; omega
      have hafter : after.length = c.length - 1 - c.length / 2 := by
        have h := congrArg List.length hs
        rw [List.length_drop, hslen, List.length_cons] at h
        omega
      cases f2 with
      | zero => omega
      | succ f2 =>
        cases old with
        | null =>
          rw [buildAux_null_step lib f1 c mn mx depth hc middle after hs,
            buildAux_null_step lib f2 c mn mx depth hc middle after hs,
            ih f2 Node.null _ mn _ (depth + 1) (by rw [htake]; omega) (by rw [htake]; omega),
            ih f2 Node.null after _ mx (depth + 1) (by rw [hafter]; omega)
              (by rw [hafter]; omega)]
        | mk point rect left right ax =>
          rw [buildAux_reuse_step lib f1 point rect left right ax c mn mx depth hc middle
              after hs,
            buildAux_reuse_step lib f2 point rect left right ax c mn mx depth hc middle
              after hs,
            ih f2 left _ mn _ (depth + 1) (by rw [htake]; omega) (by rw [htake]; omega),
            ih f2 right after _ mx (depth + 1) (by rw [hafter]; omega)
              (by rw [hafter]; omega)]

theorem preorder_length (t : Node) : (preorder_traversal t).length = t.size := by
  induction t with
  | null => rfl
  | mk p r l rt ax ihl ihr =>
    simp only [preorder_traversal, List.length_cons, List.length_append, ihl, ihr, Node.size]
    omega

theorem points_length (t : Node) : t.points.length = t.size := by
  induction t with
  | null => rfl
  | mk p r l rt ax ihl ihr =>
    simp only [Node.points, List.length_cons, List.length_append, ihl, ihr, Node.size]
    omega

/-- A build leaves a tree of as many nodes as points are stored, and its preorder
list. -/
theorem build_if_need_cached {lib : StdAlgo} (hspec : NthElementSpec lib) (s : PointSet)
    (hinv : s.need_build = false →
      s.root.size = s.points.length ∧ s.dfs = preorder_traversal s.root) :
    (PointSet.build_if_need lib s).need_build = false ∧
    (PointSet.build_if_need lib s).points = s.points ∧
    (PointSet.build_if_need lib s).root.size = s.points.length ∧
    (PointSet.build_if_need lib s).dfs =
      preorder_traversal (PointSet.build_if_need lib s).root := by
  unfold PointSet.build_if_need
  by_cases hb : s.need_build = true
  · rw [if_pos hb]
    refine ⟨rfl, rfl, ?_, rfl⟩
    exact (buildAux_shape hspec s.points.length s.root s.points (Point.mk dbl_min dbl_min)
      (Point.mk dbl_max dbl_max) 0 (le_refl _)).1
  · rw [if_neg hb]
    have hf : s.need_build = false := by simpa using hb
    exact ⟨hf, rfl, (hinv hf).1, (hinv hf).2⟩

/-- In a reachable state whose flag is down, the cached tree has one node per stored
point and the cached list is its preorder. -/
theorem reachable_cached {lib : StdAlgo} (hspec : NthElementSpec lib) {s : PointSet}
    (hr : Reachable lib s) :
    s.need_build = false →
      s.root.size = s.points.length ∧ s.dfs = preorder_traversal s.root := by
  induction hr with
  | new => intro h; simp [PointSet.new] at h
  | step s op _ ih =>
    intro hf
    rcases step_read lib s op with h | ⟨p, hp⟩
    · rw [h]
      have hb := build_if_need_cached hspec s ih
      exact ⟨by rw [hb.2.2.1, hb.2.1], hb.2.2.2⟩
    · subst hp
      simp [PointSet.step, PointSet.put] at hf

/-- C37: in every state reachable by puts and reads, iteration yields as many points
as `size()` returns; and after any read the flag is down, the cached tree has
exactly `size()` nodes and the cached preorder list exactly `size()` entries.  The
build recursion ends: with the length of the range as fuel, or any more, it returns
this same tree. -/
theorem cached_tree_has_size_nodes (lib : StdAlgo) (hspec : NthElementSpec lib)
    (s : PointSet) (hr : Reachable lib s) :
    (PointSet.iterate lib s).1.length = (PointSet.size lib s).1 ∧
    (∀ fuel, s.points.length ≤ fuel →
      buildAux lib fuel s.root s.points (Point.mk dbl_min dbl_min)
        (Point.mk dbl_max dbl_max) 0 = (PointSet.build lib s).root) ∧
    ∀ op : Op, (∀ p, op ≠ Op.put p) →
      (PointSet.step lib s op).need_build = false ∧
      (PointSet.step lib s op).root.size = (PointSet.size lib (PointSet.step lib s op)).1 ∧
      (PointSet.step lib s op).dfs.length = (PointSet.size lib (PointSet.step lib s op)).1 ∧
      (PointSet.iterate lib (PointSet.step lib s op)).1.length =
        (PointSet.size lib (PointSet.step lib s op)).1 := by
  have hb := build_if_need_cached hspec s (reachable_cached hspec hr)
  have hit : ∀ s : PointSet, Reachable lib s →
      (PointSet.iterate lib s).1.length = (PointSet.size lib s).1 := by
    intro s hr
    have hb := build_if_need_cached hspec s (reachable_cached hspec hr)
    simp only [PointSet.iterate, PointSet.size]
    rw [hb.2.2.2, points_of_preorder, points_length, hb.2.2.1, hb.2.1]
  refine ⟨hit s hr, ?_, ?_⟩
  · intro fuel hf
    exact buildAux_fuel hspec fuel s.points.length s.root s.points _ _ 0 hf (le_refl _)
  · intro op hop
    have hr2 : Reachable lib (PointSet.step lib s op) := Reachable.step s op hr
    rcases step_read lib s op with h | ⟨p, hp⟩
    · refine ⟨by rw [h]; exact hb.1, ?_, ?_, hit _ hr2⟩
      · simp only [PointSet.size]
        rw [h, build_if_need_idem, hb.2.2.1, hb.2.1]
      · simp only [PointSet.size]
        rw [h, build_if_need_idem, hb.2.2.2, preorder_length, hb.2.2.1, hb.2.1]
    · exact absurd hp (hop p)

theorem cached_tree_has_size_nodes_witness :
    NthElementSpec sorting_lib ∧
    Reachable sorting_lib
      (PointSet.step sorting_lib (PointSet.step sorting_lib (PointSet.step sorting_lib
        PointSet.new (Op.put (pt 1 1))) Op.size) (Op.put (pt 2 2))) ∧
    (PointSet.step sorting_lib (PointSet.step sorting_lib (PointSet.step sorting_lib
      (PointSet.step sorting_lib PointSet.new (Op.put (pt 1 1))) Op.size)
      (Op.put (pt 2 2))) Op.iterate).root.size = 2 :=
  ⟨sorting_lib_nth,
    Reachable.step _ _ (Reachable.step _ _ (Reachable.step _ _ Reachable.new)),
    ((cached_tree_has_size_nodes sorting_lib sorting_lib_nth _
      (Reachable.step _ _ (Reachable.step _ _ (Reachable.step _ _ Reachable.new)))).2.2
      Op.iterate (fun p h => by cases h)).2.1⟩

/-! ## The pruned range search against the unpruned one -/

theorem range_unpruned_mk (point : Point) (nrect : Rect) (left right : Node) (axis : Axis)
    (R : Rect) :
    range_unpruned (Node.mk point nrect left right axis) R =
      (if R.contains point = true then [Node.mk point nrect left right axis] else [])
        ++ range_unpruned left R ++ range_unpruned right R := by
  simp only [range_unpruned, preorder_traversal, List.filter_cons, List.filter_append]
  split <;> simp

theorem range_unpruned_nil (R : Rect) (t : Node)
    (h : ∀ q ∈ t.points, R.contains q = false) : range_unpruned t R = [] := by
  induction t with
  | null => rfl
  | mk point nrect left right axis ihl ihr =>
    rw [range_unpruned_mk,
      ihl (fun q hq => h q (by simp [Node.points, hq])),
      ihr (fun q hq => h q (by simp [Node.points, hq])),
      if_neg (by rw [h point (by simp [Node.points])]; exact Bool.false_ne_true)]
    rfl

/-- Where every rect covers its subtree and the tree is weakly partitioned, the
pruned traversal visits exactly the nodes the unpruned one keeps, in the same
order. -/
theorem rangeAux_eq_unpruned (R : Rect) (t : Node) (hp : t.Partitioned) (hc : t.RectsCover) :
    rangeAux t R = range_unpruned t R := by
  induction t with
  | null => rfl
  | mk point nrect left right axis ihl ihr =>
    obtain ⟨hleft, hright, hpl, hpr⟩ := hp
    obtain ⟨hcov, hcl, hcr⟩ := hc
    have hl := ihl hpl hcl
    have hr := ihr hpr hcr
    have hcoord : ∀ q, R.contains q = true →
        R.min_coord axis ≤ q.coord axis ∧ q.coord axis ≤ R.max_coord axis :=
      fun q hq => contains_coord R q axis hq
    unfold rangeAux
    by_cases hint : R.intersects nrect = true
    · rw [if_pos hint, range_unpruned_mk]
      simp only
      generalize (if R.contains point = true then
        [Node.mk point nrect left right axis] else []) = here
      split
      · rw [hl, hr]
      · rename_i h1
        simp only [ge_iff_le, not_and, not_le] at h1
        split
        · rename_i h2
          rw [hl, range_unpruned_nil R right, List.append_nil]
          intro q hq
          by_contra hcon
          have hqc := hcoord q (by simpa using hcon)
          have := hright q hq
          omega
        · rename_i h2
          split
          · rename_i h3
            rw [hr, range_unpruned_nil R left, List.append_nil]
            intro q hq
            by_contra hcon
            have hqc := hcoord q (by simpa using hcon)
            have := hleft q hq
            omega
          · rename_i h3
            exfalso
            omega
    · rw [if_neg hint]
      symm
      apply range_unpruned_nil
      intro q hq
      by_contra hcon
      exact hint (intersects_of_common_point R nrect q (by simpa using hcon) (hcov q hq))

/-- C35: on every tree in which each node's rect contains every point of the node's
subtree and, at each node, the points of the left subtree have a coordinate on the
node's axis at most the node's and those of the right subtree at least the node's,
and for every query rectangle `R`, the pruned traversal of `range(R)` returns
exactly the nodes, and so the points, that a visit of all nodes filtered by
`R.contains` returns, in the same order. -/
theorem range_pruning_lossless (t : Node) (R : Rect) (hcover : t.RectsCover)
    (hpart : t.Partitioned) :
    rangeAux t R = range_unpruned t R ∧
    points_of (rangeAux t R) = t.points.filter fun q => R.contains q := by
  have h := rangeAux_eq_unpruned R t hpart hcover
  refine ⟨h, ?_⟩
  rw [h]
  clear h hcover hpart
  induction t with
  | null => rfl
  | mk point nrect left right axis ihl ihr =>
    rw [range_unpruned_mk, points_of_append, points_of_append, ihl, ihr]
    simp only [Node.points, List.filter_cons, List.filter_append]
    split <;> simp [points_of, Node.point?]

theorem range_pruning_lossless_witness :
    (PointSet.build_if_need sorting_lib
      (PointSet.new.put_all [pt 2 3, pt 5 4, pt 9 6])).root.RectsCover ∧
    (PointSet.build_if_need sorting_lib
      (PointSet.new.put_all [pt 2 3, pt 5 4, pt 9 6])).root.Partitioned ∧
    points_of (rangeAux (PointSet.build_if_need sorting_lib
      (PointSet.new.put_all [pt 2 3, pt 5 4, pt 9 6])).root
        (Rect.mk (pt 0 0) (pt 6 6))) = [pt 5 4, pt 2 3] :=
  ⟨first_build_rects_cover sorting_lib_nth _ (by decide),
    first_build_partitioned sorting_lib_nth _,
    (range_pruning_lossless _ (Rect.mk (pt 0 0) (pt 6 6))
      (first_build_rects_cover sorting_lib_nth _ (by decide))
      (first_build_partitioned sorting_lib_nth _)).2⟩

/-! ## The rects of the first build cover their subtrees -/

theorem rects_cover_nodes (t : Node) (h : t.RectsCover) :
    ∀ n ∈ preorder_traversal t, n.RectsCover := by
  induction t with
  | null => intro n hn; simp [preorder_traversal] at hn
  | mk point rect left right axis ihl ihr =>
    intro n hn
    simp only [preorder_traversal, List.mem_cons, List.mem_append] at hn
    rcases hn with e | e | e
    · rw [e]; exact h
    · exact ihl h.2.1 n e
    · exact ihr h.2.2 n e

/-- C36: for distinct points whose coordinates all lie between
`std::numeric_limits<double>::min()` and `std::numeric_limits<double>::max()`, the
tree built with no prior tree holds exactly these points, and the rect of every
node contains the node's own point and every point of the node's subtree. -/
theorem first_build_rects_contain_subtree (lib : StdAlgo) (hspec : NthElementSpec lib)
    (ps : List Point) (hnd : ps.Nodup)
    (hbox : ∀ p ∈ ps, dbl_min ≤ p.x ∧ p.x ≤ dbl_max ∧ dbl_min ≤ p.y ∧ p.y ≤ dbl_max) :
    (PointSet.build_if_need lib (PointSet.new.put_all ps)).root.points.Perm ps ∧
    ∀ (point : Point) (rect : Rect) (left right : Node) (axis : Axis),
      Node.mk point rect left right axis ∈
        preorder_traversal (PointSet.build_if_need lib (PointSet.new.put_all ps)).root →
      rect.contains point = true ∧
      (∀ q ∈ left.points, rect.contains q = true) ∧
      (∀ q ∈ right.points, rect.contains q = true) := by
  refine ⟨first_build_points hspec ps hnd, ?_⟩
  have hcov : (PointSet.build_if_need lib (PointSet.new.put_all ps)).root.RectsCover := by
    apply first_build_rects_cover hspec
    intro p hp
    have := hbox p hp
    simp only [Rect.contains, Rect.xmin, Rect.xmax, Rect.ymin, Rect.ymax, ge_iff_le,
      Bool.and_eq_true, decide_eq_true_eq]
    omega
  intro point rect left right axis hn
  have h := rects_cover_nodes _ hcov _ hn
  exact ⟨h.1 point (List.mem_cons_self _ _),
    fun q hq => h.1 q (List.mem_cons_of_mem _ (List.mem_append_left _ hq)),
    fun q hq => h.1 q (List.mem_cons_of_mem _ (List.mem_append_right _ hq))⟩

theorem first_build_rects_contain_subtree_witness :
    NthElementSpec sorting_lib ∧ [pt 2 3, pt 5 4, pt 9 6, pt 4 7].Nodup ∧
    (∀ p ∈ [pt 2 3, pt 5 4, pt 9 6, pt 4 7],
      dbl_min ≤ p.x ∧ p.x ≤ dbl_max ∧ dbl_min ≤ p.y ∧ p.y ≤ dbl_max) ∧
    ((PointSet.build_if_need sorting_lib
      (PointSet.new.put_all [pt 2 3, pt 5 4, pt 9 6, pt 4 7])).root.points.Perm
        [pt 2 3, pt 5 4, pt 9 6, pt 4 7] ∧
    ∀ (point : Point) (rect : Rect) (left right : Node) (axis : Axis),
      Node.mk point rect left right axis ∈
        preorder_traversal (PointSet.build_if_need sorting_lib
          (PointSet.new.put_all [pt 2 3, pt 5 4, pt 9 6, pt 4 7])).root →
      rect.contains point = true ∧
      (∀ q ∈ left.points, rect.contains q = true) ∧
      (∀ q ∈ right.points, rect.contains q = true)) :=
  ⟨sorting_lib_nth, by decide, by decide,
    first_build_rects_contain_subtree sorting_lib sorting_lib_nth
      [pt 2 3, pt 5 4, pt 9 6, pt 4 7] (by decide) (by decide)⟩

/-! ## The choice of children in the range traversal -/

/-- C32, as a counterexample to its second clause: after the puts of `(1,1)`,
`(2,2)` and `(2,3)` the root splits at `x = 2`; the query rectangle
`[(0,0), (2,4)]` has its upper `x` bound at the split coordinate, and the traversal
still visits the right child, whose point `(2,3)` it returns.  Visiting only the
left child would lose that point. -/
theorem range_visits_right_at_upper_bound :
    ∃ rect left right,
      (PointSet.build_if_need sorting_lib
        (PointSet.new.put_all [pt 1 1, pt 2 2, pt 2 3])).root =
        Node.mk (pt 2 2) rect left right Axis.X ∧
      (Rect.mk (pt 0 0) (pt 2 4)).intersects rect = true ∧
      (Rect.mk (pt 0 0) (pt 2 4)).max_coord Axis.X ≤ (pt 2 2).coord Axis.X ∧
      points_of (rangeAux right (Rect.mk (pt 0 0) (pt 2 4))) = [pt 2 3] ∧
      (PointSet.range sorting_lib (PointSet.new.put_all [pt 1 1, pt 2 2, pt 2 3])
        (Rect.mk (pt 0 0) (pt 2 4))).1 = [pt 2 2, pt 1 1, pt 2 3] :=
  ⟨_, _, _, rfl, by decide, by decide, by decide, by decide⟩

/-- C32, amended: at every node whose rect intersects the query rectangle, with `c`
the node's coordinate on its axis and `lo`, `hi` the rectangle's bounds on that
axis, the traversal emits the node when the rectangle contains its point and then
visits both children when `lo ≤ c ≤ hi`; only the left child when `hi < c`, or
`hi = c < lo`; only the right child when `c < lo` and `c < hi`.  One of the three
cases always applies. -/
theorem range_children_choice (point : Point) (nrect : Rect) (left right : Node)
    (axis : Axis) (R : Rect) (hint : R.intersects nrect = true) :
    (R.min_coord axis ≤ point.coord axis ∧ point.coord axis ≤ R.max_coord axis →
      rangeAux (Node.mk point nrect left right axis) R =
        (if R.contains point = true then [Node.mk point nrect left right axis] else [])
          ++ rangeAux left R ++ rangeAux right R) ∧
    (R.max_coord axis < point.coord axis ∨
      (R.max_coord axis = point.coord axis ∧ point.coord axis < R.min_coord axis) →
      rangeAux (Node.mk point nrect left right axis) R =
        (if R.contains point = true then [Node.mk point nrect left right axis] else [])
          ++ rangeAux left R) ∧
    (point.coord axis < R.min_coord axis ∧ point.coord axis < R.max_coord axis →
      rangeAux (Node.mk point nrect left right axis) R =
        (if R.contains point = true then [Node.mk point nrect left right axis] else [])
          ++ rangeAux right R) ∧
    ((R.min_coord axis ≤ point.coord axis ∧ point.coord axis ≤ R.max_coord axis) ∨
      (R.max_coord axis < point.coord axis ∨
        (R.max_coord axis = point.coord axis ∧ point.coord axis < R.min_coord axis)) ∨
      (point.coord axis < R.min_coord axis ∧ point.coord axis < R.max_coord axis)) := by
  refine ⟨?_, ?_, ?_, by omega⟩
  · intro h
    rw [rangeAux, if_pos hint]
    simp only
    rw [if_pos ⟨h.2, h.1⟩]
  · intro h
    rw [rangeAux, if_pos hint]
    simp only
    rw [if_neg (by omega),
      if_pos (by omega)]
  · intro h
    rw [rangeAux, if_pos hint]
    simp only
    rw [if_neg (by omega),
      if_neg (by omega),
      if_pos (by omega)]

theorem range_children_choice_witness :
    (Rect.mk (pt 0 0) (pt 6 6)).intersects (Rect.mk (pt 0 0) (pt 9 9)) = true ∧
    rangeAux (Node.mk (pt 7 2) (Rect.mk (pt 0 0) (pt 9 9))
        (Node.mk (pt 5 4) (Rect.mk (pt 0 0) (pt 7 9)) Node.null Node.null Axis.Y)
        (Node.mk (pt 9 6) (Rect.mk (pt 7 0) (pt 9 9)) Node.null Node.null Axis.Y) Axis.X)
      (Rect.mk (pt 0 0) (pt 6 6)) =
      [Node.mk (pt 5 4) (Rect.mk (pt 0 0) (pt 7 9)) Node.null Node.null Axis.Y] :=
  ⟨by decide,
    (range_children_choice (pt 7 2) (Rect.mk (pt 0 0) (pt 9 9))
      (Node.mk (pt 5 4) (Rect.mk (pt 0 0) (pt 7 9)) Node.null Node.null Axis.Y)
      (Node.mk (pt 9 6) (Rect.mk (pt 7 0) (pt 9 9)) Node.null Node.null Axis.Y) Axis.X
      (Rect.mk (pt 0 0) (pt 6 6)) (by decide)).2.1 (Or.inl (by decide))⟩

/-! ## The candidate heap during the k-nearest traversal -/

/-- The recursive `nearest` at a node, by the offer and the two recursive calls. -/
theorem nearestAux_mk (lib : StdAlgo) (point : Point) (k : Nat) (npoint : Point)
    (nrect : Rect) (left right : Node) (axis : Axis) (heap : List Distance) :
    nearestAux lib point k (Node.mk npoint nrect left right axis) heap =
      match offer lib k heap
        (Distance.mk (point.distance npoint) (Node.mk npoint nrect left right axis)) with
      | none => none
      | some heap1 =>
        if point.coord axis < npoint.coord axis then
          match nearestAux lib point k left heap1 with
          | none => none
          | some heap2 =>
            match heap2.head? with
            | none => none
            | some worst =>
              if Surd.add_ge (point.coord axis) worst.distance (npoint.coord axis) then
                nearestAux lib point k right heap2
              else some heap2
        else
          match nearestAux lib point k right heap1 with
          | none => none
          | some heap2 =>
            match heap2.head? with
            | none => none
            | some worst =>
              if Surd.sub_le (point.coord axis) worst.distance (npoint.coord axis) then
                nearestAux lib point k left heap2
              else some heap2 := by
  rw [nearestAux]
  simp only [offer]
  split <;> rfl

/-- The logged traversal returns the heap of the traversal itself. -/
theorem nearestLog_fst (lib : StdAlgo) (point : Point) (k : Nat) :
    ∀ (t : Node) (heap : List Distance),
      (nearestLog lib point k t heap).map Prod.fst = nearestAux lib point k t heap := by
  intro t
  induction t with
  | null => intro heap; rfl
  | mk npoint nrect left right axis ihl ihr =>
    intro heap
    rw [nearestAux_mk, nearestLog]
    cases offer lib k heap
      (Distance.mk (point.distance npoint) (Node.mk npoint nrect left right axis)) with
    | none => rfl
    | some heap1 =>
      simp only
      split
      · rw [← ihl heap1]
        cases nearestLog lib point k left heap1 with
        | none => rfl
        | some r2 =>
          obtain ⟨heap2, log2⟩ := r2
          simp only [Option.map_some']
          cases heap2.head? with
          | none => rfl
          | some worst =>
            simp only
            split
            · rw [← ihr heap2]
              cases nearestLog lib point k right heap2 with
              | none => rfl
              | some r3 => rfl
            · rfl
      · rw [← ihr heap1]
        cases nearestLog lib point k right heap1 with
        | none => rfl
        | some r2 =>
          obtain ⟨heap2, log2⟩ := r2
          simp only [Option.map_some']
          cases heap2.head? with
          | none => rfl
          | some worst =>
            simp only
            split
            · rw [← ihl heap2]
              cases nearestLog lib point k left heap2 with
              | none => rfl
              | some r3 => rfl
            · rfl

/-- The offer at a node keeps a heap of at most `k` candidates, leaves it non-empty,
and while fewer than `k` are held the candidate offered is taken. -/
theorem offer_heap {lib : StdAlgo} (hheap : HeapSpec lib) (k : Nat) (hk : 1 ≤ k)
    (heap : List Distance) (hh : IsHeap heap) (hlen : heap.length ≤ k) (d : Distance) :
    ∃ heap1, offer lib k heap d = some heap1 ∧ IsHeap heap1 ∧ heap1.length ≤ k ∧
      heap.length ≤ heap1.length ∧ 1 ≤ heap1.length ∧
      (heap1.length < k → heap1.Perm (heap ++ [d])) := by
  have hK : KBest k heap heap :=
    ⟨hh, hlen, [], by simp, by simp, fun _ => rfl⟩
  obtain ⟨b, hb, hk1, hlen1, hpos1⟩ := offer_kbest hheap k hk heap heap hK d.distance d.node
  refine ⟨_, ?_, hk1.1, hk1.2.1, hlen1, hpos1, ?_⟩
  · unfold offer
    simp only [hb]
  · intro hshort
    obtain ⟨_, _, rest, hperm, _, hfull⟩ := hk1
    have hrest := hfull hshort
    subst hrest
    rw [List.append_nil] at hperm
    exact hperm.symm

/-- The two recursive calls of the logged traversal at a node, for either order of
the children. -/
theorem visit_children_log {lib : StdAlgo} (k : Nat) (point : Point) (near far : Node)
    (heap1 : List Distance) (c : Distance) (hh1 : IsHeap heap1) (hl1 : heap1.length ≤ k)
    (hpos1 : 1 ≤ heap1.length) (hc : heap1.length < k → c ∈ heap1)
    (ihn : ∀ heap : List Distance, IsHeap heap → heap.length ≤ k →
      ∃ out log, nearestLog lib point k near heap = some (out, log) ∧
        LogSpec k point near heap out log)
    (ihf : ∀ heap : List Distance, IsHeap heap → heap.length ≤ k →
      ∃ out log, nearestLog lib point k far heap = some (out, log) ∧
        LogSpec k point far heap out log)
    (test : Surd → Bool)
    (htest : ∀ w : Distance, c.distance.sq ≤ w.distance.sq → test w.distance = true) :
    ∃ out log,
      (match nearestLog lib point k near heap1 with
        | none => none
        | some (heap2, log2) =>
          match heap2.head? with
          | none => none
          | some worst =>
            if test worst.distance = true then
              match nearestLog lib point k far heap2 with
              | none => none
              | some (heap3, log3) => some (heap3, heap1 :: (log2 ++ log3))
            else some (heap2, heap1 :: log2)) = some (out, heap1 :: log) ∧
      IsHeap out ∧ out.length ≤ k ∧ heap1.length ≤ out.length ∧ out ∈ heap1 :: log ∧
      (∀ h ∈ log, IsHeap h ∧ 1 ≤ h.length ∧ h.length ≤ k) ∧
      (out.length < k →
        out.Perm (heap1 ++ cands point near ++ cands point far) ∧
        log.length = near.size + far.size) := by
  obtain ⟨heap2, log2, e2, hH2, hk2, hle2, hin2, _, hall2, hfew2⟩ := ihn heap1 hh1 hl1
  rw [e2]
  rcases heap2 with _ | ⟨w, tl⟩
  · simp only [List.length_nil] at hle2; omega
  · simp only [List.head?_cons]
    by_cases ht : test w.distance = true
    · rw [if_pos ht]
      obtain ⟨heap3, log3, e3, hH3, hk3, hle3, hin3, _, hall3, hfew3⟩ := ihf (w :: tl) hH2 hk2
      rw [e3]
      refine ⟨heap3, log2 ++ log3, rfl, hH3, hk3, le_trans hle2 hle3, ?_, ?_, ?_⟩
      · rcases List.mem_cons.mp hin3 with e | e
        · rw [e]
          rcases List.mem_cons.mp hin2 with e' | e'
          · rw [e']; exact List.mem_cons_self _ _
          · exact List.mem_cons_of_mem _ (List.mem_append_left _ e')
        · exact List.mem_cons_of_mem _ (List.mem_append_right _ e)
      · intro h hh
        rcases List.mem_append.mp hh with e | e
        · exact hall2 h e
        · exact hall3 h e
      · intro hshort
        obtain ⟨hp3, hn3⟩ := hfew3 hshort
        obtain ⟨hp2, hn2⟩ := hfew2 (by omega)
        refine ⟨hp3.trans (hp2.append_right _), ?_⟩
        rw [List.length_append, hn2, hn3]
    · rw [if_neg ht]
      refine ⟨w :: tl, log2, rfl, hH2, hk2, hle2, hin2, hall2, ?_⟩
      intro hshort
      exfalso
      obtain ⟨hp2, _⟩ := hfew2 hshort
      have hcm : c ∈ w :: tl :=
        hp2.symm.subset (List.mem_append_left _ (hc (by omega)))
      exact ht (htest w (isHeap_head_max w tl hH2 c hcm))

/-- From a heap of at most `k` candidates, the logged traversal of any tree runs to
its end without reading `heap[0]` of an empty vector, and leaves what `LogSpec`
says. -/
theorem nearestLog_heap {lib : StdAlgo} (hheap : HeapSpec lib) (point : Point) (k : Nat)
    (hk : 1 ≤ k) :
    ∀ (t : Node) (heap : List Distance), IsHeap heap → heap.length ≤ k →
      ∃ out log, nearestLog lib point k t heap = some (out, log) ∧
        LogSpec k point t heap out log := by
  intro t
  induction t with
  | null =>
    intro heap hh hlen
    refine ⟨heap, [], rfl, hh, hlen, le_refl _, List.mem_cons_self _ _,
      fun h => absurd rfl h, by simp, fun _ => ⟨?_, rfl⟩⟩
    simp [cands, preorder_traversal]
  | mk np rect l r ax ihl ihr =>
    intro heap hh hlen
    obtain ⟨heap1, ho, hH1, hk1, hle1, hpos1, hfew1⟩ := offer_heap hheap k hk heap hh hlen
      (Distance.mk (point.distance np) (Node.mk np rect l r ax))
    have hc : heap1.length < k →
        Distance.mk (point.distance np) (Node.mk np rect l r ax) ∈ heap1 :=
      fun h => (hfew1 h).symm.subset (by simp)
    rw [nearestLog, ho]
    simp only
    by_cases hside : point.coord ax < np.coord ax
    · rw [if_pos hside]
      obtain ⟨out, log, e, hH, hkk, hle, hin, hall, hfew⟩ :=
        visit_children_log k point l r heap1 _ hH1 hk1 hpos1 hc ihl ihr
          (fun d => Surd.add_ge (point.coord ax) d (np.coord ax))
          (by
            intro w hw
            have hg : (np.coord ax - point.coord ax) * (np.coord ax - point.coord ax) ≤
                (point.distance np).sq := by
              apply sq_gap_le_distance point np ax
              have : (np.coord ax - point.coord ax) * (np.coord ax - point.coord ax) =
                (point.coord ax - np.coord ax) * (point.coord ax - np.coord ax) := by ring
              exact le_of_eq this
            simp only [Surd.add_ge, Bool.or_eq_true, decide_eq_true_eq]
            exact Or.inr (le_trans hg hw))
      refine ⟨out, heap1 :: log, e, hH, hkk, le_trans hle1 hle,
        List.mem_cons_of_mem _ hin, fun _ => hin, ?_, ?_⟩
      · intro h hh'
        rcases List.mem_cons.mp hh' with e' | e'
        · rw [e']; exact ⟨hH1, hpos1, hk1⟩
        · exact hall h e'
      · intro hshort
        obtain ⟨hp, hn⟩ := hfew hshort
        refine ⟨?_, by rw [List.length_cons, hn, Node.size]; omega⟩
        refine hp.trans ?_
        rw [cands_mk]
        have h1 := (hfew1 (by omega)).append_right (cands point l ++ cands point r)
        simpa only [List.append_assoc, List.singleton_append] using h1
    · rw [if_neg hside]
      obtain ⟨out, log, e, hH, hkk, hle, hin, hall, hfew⟩ :=
        visit_children_log k point r l heap1 _ hH1 hk1 hpos1 hc ihr ihl
          (fun d => Surd.sub_le (point.coord ax) d (np.coord ax))
          (by
            intro w hw
            have hg := sq_gap_le_distance point np ax _ (le_refl _)
            simp only [Surd.sub_le, Bool.or_eq_true, decide_eq_true_eq]
            exact Or.inr (le_trans hg hw))
      refine ⟨out, heap1 :: log, e, hH, hkk, le_trans hle1 hle,
        List.mem_cons_of_mem _ hin, fun _ => hin, ?_, ?_⟩
      · intro h hh'
        rcases List.mem_cons.mp hh' with e' | e'
        · rw [e']; exact ⟨hH1, hpos1, hk1⟩
        · exact hall h e'
      · intro hshort
        obtain ⟨hp, hn⟩ := hfew hshort
        refine ⟨?_, by rw [List.length_cons, hn, Node.size]; omega⟩
        refine hp.trans ?_
        rw [cands_mk]
        have h1 := (hfew1 (by omega)).append_right (cands point r ++ cands point l)
        refine (List.Perm.trans ?_ h1).trans ?_
        · simp only [List.append_assoc]; exact List.Perm.refl _
        · simp only [List.append_assoc, List.singleton_append]
          exact List.Perm.append_left _ (List.Perm.cons _ List.perm_append_comm)

/-- The traversal itself, from a heap of at most `k` candidates: it runs to its end,
the heap stays a heap of at most `k` candidates and never shrinks, and a heap
returned with fewer than `k` candidates holds the candidate of every node. -/
theorem nearestAux_heap {lib : StdAlgo} (hheap : HeapSpec lib) (point : Point) (k : Nat)
    (hk : 1 ≤ k) (t : Node) (heap : List Distance) (hh : IsHeap heap)
    (hlen : heap.length ≤ k) :
    ∃ out, nearestAux lib point k t heap = some out ∧ IsHeap out ∧ out.length ≤ k ∧
      heap.length ≤ out.length ∧ (out.length < k → out.Perm (heap ++ cands point t)) := by
  obtain ⟨out, log, e, hH, hkk, hle, _, _, _, hfew⟩ :=
    nearestLog_heap hheap point k hk t heap hh hlen
  refine ⟨out, ?_, hH, hkk, hle, fun h => (hfew h).1⟩
  rw [← nearestLog_fst, e]
  rfl

/-- C33: during `nearest(p, k)` with `k ≥ 1` on a non-empty tree, which starts from
the empty heap, the traversal runs to its end without reading `heap[0]` of an empty
vector (the logged traversal and the traversal return the same heap `out`); after
the offer at each visited node the heap holds at least one and at most `k`
candidates, and its entry at index 0 has the largest distance of the candidates
held; the heap returned is one of these. -/
theorem nearest_heap_bounds (lib : StdAlgo) (hheap : HeapSpec lib) (point : Point)
    (k : Nat) (hk : 1 ≤ k) (t : Node) (ht : t ≠ Node.null) :
    ∃ out log, nearestLog lib point k t [] = some (out, log) ∧
      nearestAux lib point k t [] = some out ∧ out ∈ log ∧
      ∀ h ∈ log, 1 ≤ h.length ∧ h.length ≤ k ∧
        ∃ worst, h.head? = some worst ∧
          ∀ x ∈ h, x.distance.sq ≤ worst.distance.sq ∧ worst.lt x = false := by
  obtain ⟨out, log, e, _, _, _, _, hin, hall, _⟩ :=
    nearestLog_heap hheap point k hk t [] isHeap_nil (Nat.zero_le _)
  refine ⟨out, log, e, ?_, hin ht, ?_⟩
  · rw [← nearestLog_fst, e]
    rfl
  · intro h hh
    obtain ⟨hH, hpos, hkk⟩ := hall h hh
    refine ⟨hpos, hkk, ?_⟩
    rcases h with _ | ⟨w, tl⟩
    · simp only [List.length_nil] at hpos; omega
    · refine ⟨w, rfl, fun x hx => ?_⟩
      have hmax := isHeap_head_max w tl hH x hx
      refine ⟨hmax, ?_⟩
      simp only [Distance.lt, Surd.lt, decide_eq_false_iff_not, not_lt]
      exact hmax

theorem nearest_heap_bounds_witness :
    HeapSpec sorting_lib ∧ 1 ≤ 2 ∧
    (PointSet.build_if_need sorting_lib
      (PointSet.new.put_all [pt 2 3, pt 5 4, pt 9 6, pt 4 7])).root ≠ Node.null ∧
    ∃ out log, nearestLog sorting_lib (pt 9 2) 2 (PointSet.build_if_need sorting_lib
        (PointSet.new.put_all [pt 2 3, pt 5 4, pt 9 6, pt 4 7])).root [] = some (out, log) ∧
      nearestAux sorting_lib (pt 9 2) 2 (PointSet.build_if_need sorting_lib
        (PointSet.new.put_all [pt 2 3, pt 5 4, pt 9 6, pt 4 7])).root [] = some out ∧
      out ∈ log ∧
      ∀ h ∈ log, 1 ≤ h.length ∧ h.length ≤ 2 ∧
        ∃ worst, h.head? = some worst ∧
          ∀ x ∈ h, x.distance.sq ≤ worst.distance.sq ∧ worst.lt x = false :=
  ⟨sorting_lib_heap, by decide, by decide,
    nearest_heap_bounds sorting_lib sorting_lib_heap (pt 9 2) 2 (by decide) _ (by decide)⟩

/-- The gap from the query point to the splitting line of a node is at most the
distance to the node's point. -/
theorem abs_gap_le_distance (point q : Point) (ax : Axis) :
    |((point.coord ax : Int) : ℝ) - ((q.coord ax : Int) : ℝ)| ≤
      Real.sqrt (((point.distance q).sq : Int) : ℝ) := by
  apply Real.abs_le_sqrt
  have h := sq_gap_le_distance point q ax (point.coord ax - q.coord ax) (le_refl _)
  have h2 : (((point.coord ax - q.coord ax) * (point.coord ax - q.coord ax) : Int) : ℝ) ≤
      (((point.distance q).sq : Int) : ℝ) := by exact_mod_cast h
  rw [pow_two]
  push_cast at h2
  exact h2

/-- C34: at a node reached with a heap of at most `k ≥ 1` candidates, the offer and
the near-side recursion run through and leave a non-empty heap; whenever that heap
still holds fewer than `k` entries, the node's own candidate is in it, the distance
of the node to the query is at least the gap between the query's coordinate and the
pivot, the far-side test (`coord + worst >= pivot`, respectively
`coord - worst <= pivot`, in exact real arithmetic) is true, and the traversal goes
on into the far child.  So a heap the traversal of the node returns with fewer than
`k` entries holds the candidate of every node of the subtree: nothing was pruned. -/
theorem far_side_visited_below_k (lib : StdAlgo) (hheap : HeapSpec lib) (point : Point)
    (k : Nat) (hk : 1 ≤ k) (npoint : Point) (nrect : Rect) (left right : Node) (axis : Axis)
    (heap : List Distance) (hh : IsHeap heap) (hlen : heap.length ≤ k) :
    (∃ heap1, offer lib k heap
        (Distance.mk (point.distance npoint) (Node.mk npoint nrect left right axis))
        = some heap1 ∧
      (point.coord axis < npoint.coord axis →
        ∃ heap2 worst, nearestAux lib point k left heap1 = some heap2 ∧
          heap2.head? = some worst ∧
          (heap2.length < k →
            Distance.mk (point.distance npoint) (Node.mk npoint nrect left right axis)
              ∈ heap2 ∧
            |((point.coord axis : Int) : ℝ) - ((npoint.coord axis : Int) : ℝ)| ≤
              Real.sqrt (((point.distance npoint).sq : Int) : ℝ) ∧
            Surd.add_ge (point.coord axis) worst.distance (npoint.coord axis) = true ∧
            ((point.coord axis : Int) : ℝ) + Real.sqrt ((worst.distance.sq : Int) : ℝ)
              ≥ ((npoint.coord axis : Int) : ℝ) ∧
            nearestAux lib point k (Node.mk npoint nrect left right axis) heap =
              nearestAux lib point k right heap2)) ∧
      (¬ point.coord axis < npoint.coord axis →
        ∃ heap2 worst, nearestAux lib point k right heap1 = some heap2 ∧
          heap2.head? = some worst ∧
          (heap2.length < k →
            Distance.mk (point.distance npoint) (Node.mk npoint nrect left right axis)
              ∈ heap2 ∧
            |((point.coord axis : Int) : ℝ) - ((npoint.coord axis : Int) : ℝ)| ≤
              Real.sqrt (((point.distance npoint).sq : Int) : ℝ) ∧
            Surd.sub_le (point.coord axis) worst.distance (npoint.coord axis) = true ∧
            ((point.coord axis : Int) : ℝ) - Real.sqrt ((worst.distance.sq : Int) : ℝ)
              ≤ ((npoint.coord axis : Int) : ℝ) ∧
            nearestAux lib point k (Node.mk npoint nrect left right axis) heap =
              nearestAux lib point k left heap2))) ∧
    ∃ out, nearestAux lib point k (Node.mk npoint nrect left right axis) heap = some out ∧
      (out.length < k →
        out.Perm (heap ++ cands point (Node.mk npoint nrect left right axis))) := by
  refine ⟨?_, ?_⟩
  · obtain ⟨heap1, ho, hH1, hk1, hle1, hpos1, hfew1⟩ := offer_heap hheap k hk heap hh hlen
      (Distance.mk (point.distance npoint) (Node.mk npoint nrect left right axis))
    have hc : heap1.length < k →
        Distance.mk (point.distance npoint) (Node.mk npoint nrect left right axis) ∈ heap1 :=
      fun h => (hfew1 h).symm.subset (by simp)
    refine ⟨heap1, ho, ?_, ?_⟩
    · intro hside
      obtain ⟨heap2, e2, hH2, hk2, hle2, hfew2⟩ :=
        nearestAux_heap hheap point k hk left heap1 hH1 hk1
      rcases heap2 with _ | ⟨w, tl⟩
      · simp only [List.length_nil] at hle2; omega
      · refine ⟨w :: tl, w, e2, rfl, fun hshort => ?_⟩
        have hcm : Distance.mk (point.distance npoint)
            (Node.mk npoint nrect left right axis) ∈ w :: tl :=
          (hfew2 hshort).symm.subset (List.mem_append_left _ (hc (by omega)))
        have hmax := isHeap_head_max w tl hH2 _ hcm
        have hg : (npoint.coord axis - point.coord axis)
            * (npoint.coord axis - point.coord axis) ≤ (point.distance npoint).sq := by
          apply sq_gap_le_distance point npoint axis
          have : (npoint.coord axis - point.coord axis)
              * (npoint.coord axis - point.coord axis) =
            (point.coord axis - npoint.coord axis)
              * (point.coord axis - npoint.coord axis) := by ring
          exact le_of_eq this
        have htest : Surd.add_ge (point.coord axis) w.distance (npoint.coord axis) = true := by
          simp only [Surd.add_ge, Bool.or_eq_true, decide_eq_true_eq]
          exact Or.inr (le_trans hg hmax)
        refine ⟨hcm, abs_gap_le_distance point npoint axis, htest,
          (Surd.add_ge_iff_real _ _ _).mp htest, ?_⟩
        rw [nearestAux_mk, ho]
        simp only
        rw [if_pos hside, e2]
        simp only [List.head?_cons]
        rw [if_pos htest]
    · intro hside
      obtain ⟨heap2, e2, hH2, hk2, hle2, hfew2⟩ :=
        nearestAux_heap hheap point k hk right heap1 hH1 hk1
      rcases heap2 with _ | ⟨w, tl⟩
      · simp only [List.length_nil] at hle2; omega
      · refine ⟨w :: tl, w, e2, rfl, fun hshort => ?_⟩
        have hcm : Distance.mk (point.distance npoint)
            (Node.mk npoint nrect left right axis) ∈ w :: tl :=
          (hfew2 hshort).symm.subset (List.mem_append_left _ (hc (by omega)))
        have hmax := isHeap_head_max w tl hH2 _ hcm
        have hg := sq_gap_le_distance point npoint axis _ (le_refl _)
        have htest : Surd.sub_le (point.coord axis) w.distance (npoint.coord axis) = true := by
          simp only [Surd.sub_le, Bool.or_eq_true, decide_eq_true_eq]
          exact Or.inr (le_trans hg hmax)
        refine ⟨hcm, abs_gap_le_distance point npoint axis, htest,
          (Surd.sub_le_iff_real _ _ _).mp htest, ?_⟩
        rw [nearestAux_mk, ho]
        simp only
        rw [if_neg hside, e2]
        simp only [List.head?_cons]
        rw [if_pos htest]
  · obtain ⟨out, e, _, _, _, hfew⟩ := nearestAux_heap hheap point k hk
      (Node.mk npoint nrect left right axis) heap hh hlen
    exact ⟨out, e, hfew⟩

theorem far_side_visited_below_k_witness :
    HeapSpec sorting_lib ∧ 1 ≤ 3 ∧ IsHeap [] ∧ ([] : List Distance).length ≤ 3 ∧
    ∃ out, nearestAux sorting_lib (pt 1 1) 3
        (Node.mk (pt 5 4) (Rect.mk (pt 0 0) (pt 9 9))
          (Node.mk (pt 2 3) (Rect.mk (pt 0 0) (pt 5 9)) Node.null Node.null Axis.Y)
          Node.null Axis.X) [] = some out ∧
      (out.length < 3 →
        out.Perm ([] ++ cands (pt 1 1)
          (Node.mk (pt 5 4) (Rect.mk (pt 0 0) (pt 9 9))
            (Node.mk (pt 2 3) (Rect.mk (pt 0 0) (pt 5 9)) Node.null Node.null Axis.Y)
            Node.null Axis.X))) :=
  ⟨sorting_lib_heap, by decide, isHeap_nil, by decide,
    (far_side_visited_below_k sorting_lib sorting_lib_heap (pt 1 1) 3 (by decide) (pt 5 4)
      (Rect.mk (pt 0 0) (pt 9 9))
      (Node.mk (pt 2 3) (Rect.mk (pt 0 0) (pt 5 9)) Node.null Node.null Axis.Y)
      Node.null Axis.X [] isHeap_nil (by decide)).2⟩

end kdtree

/-! ## The two-tier cache keeps its bounds -/

namespace lfru

theorem dropLast_append_back {Key : Type} (l : List Key) (b : Key)
    (h : l.getLast? = some b) : l.dropLast ++ [b] = l :=
  List.dropLast_append_getLast? b (by rw [h]; exact rfl)

/-- One call of `get` on a cache that meets the invariant, with `cache_size ≥ 1`. -/
theorem get_step {A Key : Type} [DecidableEq Key] (alloc : Allocator A Key)
    (cache_size : Nat) (hsize : 1 ≤ cache_size) (c : Cache A Key)
    (hinv : Cache.Inv cache_size c) (key : Key) :
    (∃ c1, c.get alloc key = GetResult.value key c1 ∧ Cache.Inv cache_size c1 ∧
      ((key ∈ c.lru ∨ key ∈ c.fifo) → c1.lru.head? = some key) ∧
      ((key ∉ c.lru ∧ key ∉ c.fifo) → c1.fifo.head? = some key)) ∨
    (c.get alloc key = GetResult.bad_alloc c ∧ key ∉ c.lru ∧ key ∉ c.fifo) := by
  obtain ⟨htop, hlow, hl, hf, hnd⟩ := hinv
  unfold Cache.get
  by_cases h1 : key ∈ c.lru
  · left
    rw [if_pos h1]
    refine ⟨_, rfl, ⟨htop, hlow, ?_, hf, ?_⟩, fun _ => rfl, fun h => absurd h1 h.1⟩
    · simp only [List.length_cons, List.length_erase_of_mem h1]
      have := List.length_pos_of_mem h1
      omega
    · exact ((List.perm_cons_erase h1).symm.append_right c.fifo).nodup_iff.mpr hnd
  · rw [if_neg h1]
    by_cases h2 : key ∈ c.fifo
    · left
      rw [if_pos h2]
      have hfe : (c.fifo.erase key).length = c.fifo.length - 1 := List.length_erase_of_mem h2
      have hfpos := List.length_pos_of_mem h2
      have hperm2 : (key :: c.fifo.erase key).Perm c.fifo := (List.perm_cons_erase h2).symm
      by_cases h3 : c.m_max_top_size = c.lru.length
      · rw [if_pos h3]
        rcases hb : c.lru.getLast? with _ | back
        · exfalso
          rw [List.getLast?_eq_none_iff] at hb
          rw [hb] at h3
          simp only [List.length_nil] at h3
          omega
        · simp only
          have hdl := dropLast_append_back c.lru back hb
          refine ⟨_, rfl, ⟨htop, hlow, ?_, ?_, ?_⟩, fun _ => rfl, fun h => absurd h2 h.2⟩
          · simp only [List.length_cons, List.length_dropLast]
            omega
          · simp only [List.length_cons, hfe]
            omega
          · have hp : (key :: c.lru.dropLast ++ back :: c.fifo.erase key).Perm
                (c.lru ++ c.fifo) := by
              have e1 : (key :: c.lru.dropLast ++ back :: c.fifo.erase key).Perm
                  ((c.lru.dropLast ++ [back]) ++ (key :: c.fifo.erase key)) := by
                simp only [List.cons_append, List.append_assoc, List.singleton_append]
                exact List.perm_middle.symm.trans
                  (List.Perm.append_left _ (List.Perm.swap _ _ _))
              rw [hdl] at e1
              exact e1.trans (List.Perm.append_left _ hperm2)
            exact hp.nodup_iff.mpr hnd
      · rw [if_neg h3]
        refine ⟨_, rfl, ⟨htop, hlow, ?_, ?_, ?_⟩, fun _ => rfl, fun h => absurd h2 h.2⟩
        · simp only [List.length_cons]
          omega
        · rw [hfe]; omega
        · have hp : (key :: c.lru ++ c.fifo.erase key).Perm (c.lru ++ c.fifo) := by
            simp only [List.cons_append]
            exact List.perm_middle.symm.trans (List.Perm.append_left _ hperm2)
          exact hp.nodup_iff.mpr hnd
    · rw [if_neg h2]
      rcases hcr : alloc.create c.m_alloc key with _ | a1
      · right
        exact ⟨rfl, h1, h2⟩
      · left
        simp only
        have hnew : key ∉ c.lru ++ c.fifo := by
          simp only [List.mem_append, not_or]; exact ⟨h1, h2⟩
        by_cases h3 : c.m_max_low_size = c.fifo.length
        · rw [if_pos h3]
          rcases hb : c.fifo.getLast? with _ | back
          · exfalso
            rw [List.getLast?_eq_none_iff] at hb
            rw [hb] at h3
            simp only [List.length_nil] at h3
            omega
          · simp only
            refine ⟨_, rfl, ⟨htop, hlow, hl, ?_, ?_⟩, fun h => ?_, fun _ => rfl⟩
            · simp only [List.length_cons, List.length_dropLast]
              omega
            · have hsub : (c.lru ++ key :: c.fifo.dropLast).Sublist
                  (c.lru ++ key :: c.fifo) :=
                List.Sublist.append_left
                  (List.Sublist.cons₂ _ (List.dropLast_sublist _)) _
              have hfull : (c.lru ++ key :: c.fifo).Nodup :=
                (List.perm_middle.nodup_iff).mpr (List.nodup_cons.mpr ⟨hnew, hnd⟩)
              exact hsub.nodup hfull
            · rcases h with h | h
              · exact absurd h h1
              · exact absurd h h2
        · rw [if_neg h3]
          refine ⟨_, rfl, ⟨htop, hlow, hl, ?_, ?_⟩, fun h => ?_, fun _ => rfl⟩
          · simp only [List.length_cons]
            omega
          · exact (List.perm_middle.nodup_iff).mpr (List.nodup_cons.mpr ⟨hnew, hnd⟩)
          · rcases h with h | h
            · exact absurd h h1
            · exact absurd h h2

theorem new_inv {A Key : Type} (cache_size : Nat) (a : A) :
    Cache.Inv cache_size (Cache.new cache_size a : Cache A Key) :=
  ⟨rfl, rfl, Nat.zero_le _, Nat.zero_le _, List.nodup_nil⟩

theorem reachable_inv {A Key : Type} [DecidableEq Key] (alloc : Allocator A Key)
    (cache_size : Nat) (hsize : 1 ≤ cache_size) (a0 : A) (c : Cache A Key)
    (hr : Cache.Reachable alloc cache_size a0 c) : Cache.Inv cache_size c := by
  induction hr with
  | new => exact new_inv cache_size a0
  | get c c1 key _ hstep ih =>
    rcases get_step alloc cache_size hsize c ih key with ⟨c2, e, hinv, _⟩ | ⟨e, _⟩
    · rw [e] at hstep
      simp only [GetResult.state?, Option.some.injEq] at hstep
      rw [← hstep]; exact hinv
    · rw [e] at hstep
      simp only [GetResult.state?, Option.some.injEq] at hstep
      rw [← hstep]; exact ih

/-- C38: for a `Cache` constructed with `cache_size ≥ 1`, in every state that calls
of `get` lead to, the priority list `lru` and the regular list `fifo` each hold at
most `cache_size` entries and no key occurs twice across the two lists; and every
further `get(key)` either returns the element of `key`, leaving a state with the same
bounds in which `key` is at the front of `lru` when it was a hit (the key was in one
of the lists) and at the front of `fifo` when it was a miss, or it is a miss on which
`create` throws, and the state is unchanged. -/
theorem cache_lists_bounded {A Key : Type} [DecidableEq Key] (alloc : Allocator A Key)
    (cache_size : Nat) (hsize : 1 ≤ cache_size) (a0 : A) (c : Cache A Key)
    (hr : Cache.Reachable alloc cache_size a0 c) :
    c.lru.length ≤ cache_size ∧ c.fifo.length ≤ cache_size ∧ (c.lru ++ c.fifo).Nodup ∧
    ∀ key : Key,
      (∃ c1, c.get alloc key = GetResult.value key c1 ∧
        c1.lru.length ≤ cache_size ∧ c1.fifo.length ≤ cache_size ∧
        (c1.lru ++ c1.fifo).Nodup ∧
        ((key ∈ c.lru ∨ key ∈ c.fifo) → c1.lru.head? = some key) ∧
        ((key ∉ c.lru ∧ key ∉ c.fifo) → c1.fifo.head? = some key)) ∨
      (c.get alloc key = GetResult.bad_alloc c ∧ key ∉ c.lru ∧ key ∉ c.fifo) := by
  have hinv := reachable_inv alloc cache_size hsize a0 c hr
  refine ⟨hinv.2.2.1, hinv.2.2.2.1, hinv.2.2.2.2, fun key => ?_⟩
  rcases get_step alloc cache_size hsize c hinv key with ⟨c1, e, h1, h2, h3⟩ | h
  · exact Or.inl ⟨c1, e, h1.2.2.1, h1.2.2.2.1, h1.2.2.2.2, h2, h3⟩
  · exact Or.inr h

theorem cache_lists_bounded_witness :
    1 ≤ 2 ∧
    Cache.Reachable unit_allocator 2 ()
      { m_max_top_size := 2, m_max_low_size := 2, lru := [1], fifo := [3, 2],
        m_alloc := () } ∧
    ([1] : List Nat).length ≤ 2 ∧ ([3, 2] : List Nat).length ≤ 2 ∧
    (([1] : List Nat) ++ [3, 2]).Nodup :=
  ⟨by decide,
    Cache.Reachable.get _ _ 3
      (Cache.Reachable.get _ _ 1
        (Cache.Reachable.get _ _ 2
          (Cache.Reachable.get _ _ 1 Cache.Reachable.new rfl) rfl) rfl) rfl,
    (cache_lists_bounded unit_allocator 2 (by decide) ()
      { m_max_top_size := 2, m_max_low_size := 2, lru := [1], fifo := [3, 2],
        m_alloc := () }
      (Cache.Reachable.get _ _ 3
        (Cache.Reachable.get _ _ 1
          (Cache.Reachable.get _ _ 2
            (Cache.Reachable.get _ _ 1 Cache.Reachable.new rfl) rfl) rfl) rfl)).1,
    (cache_lists_bounded unit_allocator 2 (by decide) ()
      { m_max_top_size := 2, m_max_low_size := 2, lru := [1], fifo := [3, 2],
        m_alloc := () }
      (Cache.Reachable.get _ _ 3
        (Cache.Reachable.get _ _ 1
          (Cache.Reachable.get _ _ 2
            (Cache.Reachable.get _ _ 1 Cache.Reachable.new rfl) rfl) rfl) rfl)).2.1,
    (cache_lists_bounded unit_allocator 2 (by decide) ()
      { m_max_top_size := 2, m_max_low_size := 2, lru := [1], fifo := [3, 2],
        m_alloc := () }
      (Cache.Reachable.get _ _ 3
        (Cache.Reachable.get _ _ 1
          (Cache.Reachable.get _ _ 2
            (Cache.Reachable.get _ _ 1 Cache.Reachable.new rfl) rfl) rfl) rfl)).2.2.1⟩

end lfru

/-! ## The buddy allocator tiles its pool -/

namespace pool

/-! ### The sets of indices -/

theorem mem_index_insert (x y : Nat) (l : List Nat) :
    y ∈ index_insert x l ↔ y = x ∨ y ∈ l := by
  induction l with
  | nil => simp [index_insert]
  | cons z zs ih =>
    unfold index_insert
    split
    · simp
    · split
      · rename_i _ h; subst h; simp
      · simp only [List.mem_cons, ih]
        constructor
        · rintro (h | h | h)
          · exact Or.inr (Or.inl h)
          · exact Or.inl h
          · exact Or.inr (Or.inr h)
        · rintro (h | h | h)
          · exact Or.inr (Or.inl h)
          · exact Or.inl h
          · exact Or.inr (Or.inr h)

theorem index_insert_sorted (x : Nat) (l : List Nat) (h : l.Pairwise fun a b => a < b) :
    (index_insert x l).Pairwise fun a b => a < b := by
  induction l with
  | nil => simp [index_insert]
  | cons z zs ih =>
    unfold index_insert
    split
    · rename_i hlt
      refine List.Pairwise.cons ?_ h
      intro b hb
      rcases List.mem_cons.mp hb with e | e
      · rw [e]; exact hlt
      · exact lt_trans hlt (List.rel_of_pairwise_cons h e)
    · split
      · exact h
      · rename_i h1 h2
        refine List.Pairwise.cons ?_ (ih (List.Pairwise.of_cons h))
        intro b hb
        rcases (mem_index_insert x b zs).mp hb with e | e
        · rw [e]; omega
        · exact List.rel_of_pairwise_cons h e

theorem sorted_head_not_mem (a : Nat) (l : List Nat)
    (h : (a :: l).Pairwise fun a b => a < b) : a ∉ l := by
  intro hm
  have := List.rel_of_pairwise_cons h hm
  omega

theorem index_sorted_nodup (l : List Nat) (h : l.Pairwise fun a b => a < b) : l.Nodup :=
  h.imp (fun hab => Nat.ne_of_lt hab)

theorem pool_size_eq (b : Nat) (h : b < 32) : pool_size b = some (2 ^ b) := by
  unfold pool_size
  rw [if_pos h, Nat.one_shiftLeft]

theorem to_free_index_eq (s : PoolAllocator) (o : Nat) (h1 : s.min_block_size ≤ o)
    (h2 : o < 32) : to_free_index s o = o - s.min_block_size := by
  unfold to_free_index
  have : o + 2 ^ 64 - s.min_block_size = (o - s.min_block_size) + 2 ^ 64 := by omega
  rw [this, Nat.add_mod_right]
  exact Nat.mod_eq_of_lt (by omega)


/-! ### Tilings of the pool -/

/-- A block changes hands. -/
theorem tiling_retag {lo hi : Nat} {F G : Tag → Nat → Nat → Prop} (hF : Tiling lo hi F)
    (t0 t1 : Tag) (i0 o0 : Nat) (hb : F t0 i0 o0)
    (h : ∀ t i o, G t i o ↔
      (F t i o ∧ ¬ (t = t0 ∧ i = i0 ∧ o = o0)) ∨ (t = t1 ∧ i = i0 ∧ o = o0)) :
    Tiling lo hi G := by
  obtain ⟨h1, h2, h3⟩ := hF
  refine ⟨?_, ?_, ?_⟩
  · intro t i o hg
    rcases (h t i o).mp hg with ⟨hf, _⟩ | ⟨_, e2, e3⟩
    · exact h1 t i o hf
    · rw [e2, e3]; exact h1 t0 i0 o0 hb
  · intro x hx
    obtain ⟨t, i, o, hf, hc⟩ := h2 x hx
    by_cases e : t = t0 ∧ i = i0 ∧ o = o0
    · refine ⟨t1, i0, o0, (h _ _ _).mpr (Or.inr ⟨rfl, rfl, rfl⟩), ?_⟩
      rw [← e.2.1, ← e.2.2]; exact hc
    · exact ⟨t, i, o, (h _ _ _).mpr (Or.inl ⟨hf, e⟩), hc⟩
  · intro t i o t' i' o' x hg hg' hc hc'
    rcases (h t i o).mp hg with ⟨hf, hne⟩ | ⟨e1, e2, e3⟩
    · rcases (h t' i' o').mp hg' with ⟨hf', _⟩ | ⟨e1', e2', e3'⟩
      · exact h3 t i o t' i' o' x hf hf' hc hc'
      · exfalso
        rw [e2', e3'] at hc'
        exact hne (h3 t i o t0 i0 o0 x hf hb hc hc')
    · rcases (h t' i' o').mp hg' with ⟨hf', hne'⟩ | ⟨e1', e2', e3'⟩
      · exfalso
        rw [e2, e3] at hc
        exact hne' (h3 t' i' o' t0 i0 o0 x hf' hb hc' hc)
      · exact ⟨by rw [e1, e1'], by rw [e2, e2'], by rw [e3, e3']⟩

/-- A block is split into its two halves. -/
theorem tiling_split {lo hi : Nat} {F G : Tag → Nat → Nat → Prop} (hF : Tiling lo hi F)
    (t0 t1 t2 : Tag) (i0 o0 : Nat) (hlo : lo ≤ o0) (hb : F t0 i0 (o0 + 1))
    (h : ∀ t i o, G t i o ↔
      (F t i o ∧ ¬ (t = t0 ∧ i = i0 ∧ o = o0 + 1)) ∨ (t = t1 ∧ i = i0 ∧ o = o0) ∨
        (t = t2 ∧ i = i0 + 2 ^ o0 ∧ o = o0)) :
    Tiling lo hi G := by
  obtain ⟨h1, h2, h3⟩ := hF
  obtain ⟨_, hhi, hdvd, hend⟩ := h1 t0 i0 (o0 + 1) hb
  have hpow : 2 ^ (o0 + 1) = 2 ^ o0 + 2 ^ o0 := by rw [pow_succ]; omega
  have hdvd0 : 2 ^ o0 ∣ i0 := Dvd.dvd.trans (Dvd.intro _ (pow_succ 2 o0).symm) hdvd
  have hin : ∀ x, Covers i0 o0 x ∨ Covers (i0 + 2 ^ o0) o0 x → Covers i0 (o0 + 1) x := by
    intro x hx
    unfold Covers at hx ⊢
    omega
  refine ⟨?_, ?_, ?_⟩
  · intro t i o hg
    rcases (h t i o).mp hg with ⟨hf, _⟩ | ⟨_, e2, e3⟩ | ⟨_, e2, e3⟩
    · exact h1 t i o hf
    · rw [e2, e3]; exact ⟨hlo, by omega, hdvd0, by omega⟩
    · rw [e2, e3]
      exact ⟨hlo, by omega, Dvd.dvd.add hdvd0 (dvd_refl _), by omega⟩
  · intro x hx
    obtain ⟨t, i, o, hf, hc⟩ := h2 x hx
    by_cases e : t = t0 ∧ i = i0 ∧ o = o0 + 1
    · rw [e.2.1, e.2.2] at hc
      by_cases hx2 : x < i0 + 2 ^ o0
      · exact ⟨t1, i0, o0, (h _ _ _).mpr (Or.inr (Or.inl ⟨rfl, rfl, rfl⟩)),
          by unfold Covers at hc ⊢; omega⟩
      · exact ⟨t2, i0 + 2 ^ o0, o0, (h _ _ _).mpr (Or.inr (Or.inr ⟨rfl, rfl, rfl⟩)),
          by unfold Covers at hc ⊢; omega⟩
    · exact ⟨t, i, o, (h _ _ _).mpr (Or.inl ⟨hf, e⟩), hc⟩
  · intro t i o t' i' o' x hg hg' hc hc'
    rcases (h t i o).mp hg with ⟨hf, hne⟩ | ⟨e1, e2, e3⟩ | ⟨e1, e2, e3⟩
    · rcases (h t' i' o').mp hg' with ⟨hf', _⟩ | ⟨e1', e2', e3'⟩ | ⟨e1', e2', e3'⟩
      · exact h3 t i o t' i' o' x hf hf' hc hc'
      · exfalso
        rw [e2', e3'] at hc'
        exact hne (h3 t i o t0 i0 (o0 + 1) x hf hb hc (hin x (Or.inl hc')))
      · exfalso
        rw [e2', e3'] at hc'
        exact hne (h3 t i o t0 i0 (o0 + 1) x hf hb hc (hin x (Or.inr hc')))
    · rw [e2, e3] at hc
      rcases (h t' i' o').mp hg' with ⟨hf', hne'⟩ | ⟨e1', e2', e3'⟩ | ⟨e1', e2', e3'⟩
      · exfalso
        exact hne' (h3 t' i' o' t0 i0 (o0 + 1) x hf' hb hc' (hin x (Or.inl hc)))
      · exact ⟨by rw [e1, e1'], by rw [e2, e2'], by rw [e3, e3']⟩
      · exfalso
        rw [e2', e3'] at hc'
        unfold Covers at hc hc'
        omega
    · rw [e2, e3] at hc
      rcases (h t' i' o').mp hg' with ⟨hf', hne'⟩ | ⟨e1', e2', e3'⟩ | ⟨e1', e2', e3'⟩
      · exfalso
        exact hne' (h3 t' i' o' t0 i0 (o0 + 1) x hf' hb hc' (hin x (Or.inr hc)))
      · exfalso
        rw [e2', e3'] at hc'
        unfold Covers at hc hc'
        omega
      · exact ⟨by rw [e1, e1'], by rw [e2, e2'], by rw [e3, e3']⟩

/-- Two buddies are merged into the block they are the halves of. -/
theorem tiling_merge {lo hi : Nat} {F G : Tag → Nat → Nat → Prop} (hF : Tiling lo hi F)
    (t0 t1 t2 : Tag) (i0 o0 : Nat) (hhi : o0 + 1 ≤ hi) (hdvd : 2 ^ (o0 + 1) ∣ i0)
    (hb1 : F t1 i0 o0) (hb2 : F t2 (i0 + 2 ^ o0) o0)
    (h : ∀ t i o, G t i o ↔
      (F t i o ∧ ¬ (t = t1 ∧ i = i0 ∧ o = o0) ∧ ¬ (t = t2 ∧ i = i0 + 2 ^ o0 ∧ o = o0)) ∨
        (t = t0 ∧ i = i0 ∧ o = o0 + 1)) :
    Tiling lo hi G := by
  obtain ⟨h1, h2, h3⟩ := hF
  obtain ⟨hlo1, _, _, _⟩ := h1 t1 i0 o0 hb1
  obtain ⟨_, _, _, hend2⟩ := h1 t2 (i0 + 2 ^ o0) o0 hb2
  have hpow : 2 ^ (o0 + 1) = 2 ^ o0 + 2 ^ o0 := by rw [pow_succ]; omega
  have hin : ∀ x, Covers i0 (o0 + 1) x → Covers i0 o0 x ∨ Covers (i0 + 2 ^ o0) o0 x := by
    intro x hx
    unfold Covers at hx ⊢
    omega
  have hout : ∀ x, Covers i0 o0 x ∨ Covers (i0 + 2 ^ o0) o0 x → Covers i0 (o0 + 1) x := by
    intro x hx
    unfold Covers at hx ⊢
    omega
  refine ⟨?_, ?_, ?_⟩
  · intro t i o hg
    rcases (h t i o).mp hg with ⟨hf, _⟩ | ⟨_, e2, e3⟩
    · exact h1 t i o hf
    · rw [e2, e3]; exact ⟨by omega, hhi, hdvd, by omega⟩
  · intro x hx
    obtain ⟨t, i, o, hf, hc⟩ := h2 x hx
    by_cases e1 : t = t1 ∧ i = i0 ∧ o = o0
    · rw [e1.2.1, e1.2.2] at hc
      exact ⟨t0, i0, o0 + 1, (h _ _ _).mpr (Or.inr ⟨rfl, rfl, rfl⟩), hout x (Or.inl hc)⟩
    · by_cases e2 : t = t2 ∧ i = i0 + 2 ^ o0 ∧ o = o0
      · rw [e2.2.1, e2.2.2] at hc
        exact ⟨t0, i0, o0 + 1, (h _ _ _).mpr (Or.inr ⟨rfl, rfl, rfl⟩), hout x (Or.inr hc)⟩
      · exact ⟨t, i, o, (h _ _ _).mpr (Or.inl ⟨hf, e1, e2⟩), hc⟩
  · intro t i o t' i' o' x hg hg' hc hc'
    have hclash : ∀ t i o, F t i o → ¬ (t = t1 ∧ i = i0 ∧ o = o0) →
        ¬ (t = t2 ∧ i = i0 + 2 ^ o0 ∧ o = o0) → Covers i o x → Covers i0 (o0 + 1) x →
        False := by
      intro t i o hf n1 n2 hc hp
      rcases hin x hp with hh | hh
      · exact n1 (h3 t i o t1 i0 o0 x hf hb1 hc hh)
      · exact n2 (h3 t i o t2 (i0 + 2 ^ o0) o0 x hf hb2 hc hh)
    rcases (h t i o).mp hg with ⟨hf, n1, n2⟩ | ⟨e1, e2, e3⟩
    · rcases (h t' i' o').mp hg' with ⟨hf', _⟩ | ⟨e1', e2', e3'⟩
      · exact h3 t i o t' i' o' x hf hf' hc hc'
      · exfalso
        rw [e2', e3'] at hc'
        exact hclash t i o hf n1 n2 hc hc'
    · rcases (h t' i' o').mp hg' with ⟨hf', n1', n2'⟩ | ⟨e1', e2', e3'⟩
      · exfalso
        rw [e2, e3] at hc
        exact hclash t' i' o' hf' n1' n2' hc' hc
      · exact ⟨by rw [e1, e1'], by rw [e2, e2'], by rw [e3, e3']⟩


/-! ### The free sets of a state -/

theorem isFree_of_set (s s1 : PoolAllocator) (c : Nat) (l1 : List Nat)
    (hmin1 : s1.min_block_size = s.min_block_size)
    (hfree : s1.m_free = s.m_free.set (c - s.min_block_size) l1)
    (hmin : s.min_block_size ≤ c) (hlen : c - s.min_block_size < s.m_free.length)
    (i o : Nat) :
    IsFree s1 i o ↔ (o = c ∧ i ∈ l1) ∨ (o ≠ c ∧ IsFree s i o) := by
  unfold IsFree
  rw [hmin1, hfree, List.getElem?_set]
  by_cases hoc : o = c
  · subst hoc
    simp only [if_true, hlen, true_and, ne_eq, not_true_eq_false, false_and, or_false]
    constructor
    · rintro ⟨_, l, hl, hi⟩
      simp only [Option.some.injEq] at hl
      rw [hl]; exact hi
    · intro hi
      exact ⟨hmin, l1, rfl, hi⟩
  · simp only [hoc, false_and, ne_eq, not_false_eq_true, true_and, false_or]
    by_cases hmo : s.min_block_size ≤ o
    · have hne : ¬ c - s.min_block_size = o - s.min_block_size := by omega
      rw [if_neg hne]
    · simp [hmo]

theorem wellFormed_of_set (s s1 : PoolAllocator) (k : Nat) (l1 : List Nat)
    (hmin1 : s1.min_block_size = s.min_block_size)
    (hmax1 : s1.max_block_size = s.max_block_size)
    (hst1 : s1.m_storage = s.m_storage)
    (hfree : s1.m_free = s.m_free.set k l1) (hs : WellFormed s)
    (hl : l1.Pairwise fun a b => a < b) : WellFormed s1 := by
  obtain ⟨h1, h2, h3, h4, h5⟩ := hs
  refine ⟨by rw [hmin1, hmax1]; exact h1, by rw [hmax1]; exact h2,
    by rw [hst1, hmax1]; exact h3, by rw [hfree, List.length_set, hmin1, hmax1]; exact h4, ?_⟩
  intro l hmem
  rw [hfree] at hmem
  rcases List.mem_or_eq_of_mem_set hmem with e | e
  · exact h5 l e
  · rw [e]; exact hl

theorem free_list_exists (s : PoolAllocator) (hs : WellFormed s) (o : Nat)
    (h1 : s.min_block_size ≤ o) (h2 : o ≤ s.max_block_size) :
    ∃ l, s.m_free[o - s.min_block_size]? = some l ∧ l.Pairwise fun a b => a < b := by
  obtain ⟨_, _, _, h4, h5⟩ := hs
  have hlt : o - s.min_block_size < s.m_free.length := by omega
  refine ⟨s.m_free[o - s.min_block_size], List.getElem?_eq_getElem hlt, ?_⟩
  exact h5 _ (List.getElem_mem _)

theorem free_insert_eq (s : PoolAllocator) (c x : Nat) (l : List Nat)
    (hmin : s.min_block_size ≤ c) (hc : c < 32)
    (hl : s.m_free[c - s.min_block_size]? = some l) :
    free_insert s c x =
      some { s with m_free := s.m_free.set (c - s.min_block_size) (index_insert x l) } := by
  unfold free_insert
  rw [to_free_index_eq s c hmin hc, hl]

theorem delete_index_eq (s : PoolAllocator) (c index : Nat) (rest : List Nat)
    (hmin : s.min_block_size ≤ c) (hc : c < 32)
    (hl : s.m_free[c - s.min_block_size]? = some (index :: rest)) :
    delete_index s c =
      some (index, { s with m_free := s.m_free.set (c - s.min_block_size) rest }) := by
  unfold delete_index
  rw [to_free_index_eq s c hmin hc, hl]

/-- One iteration of the inner loop of `allocate` on an empty free set: the upper
half of the block held goes to the free set, the lower half is held on. -/
theorem split_step (min_size r index : Nat) (s : PoolAllocator)
    (hmin : s.min_block_size ≤ min_size + r) (hc : min_size + r < 32)
    (hl : s.m_free[min_size + r - s.min_block_size]? = some []) :
    split min_size (r + 1) index s =
      split min_size r index
        { s with m_free :=
            (s.m_free.set (min_size + r - s.min_block_size) [index + 2 ^ (min_size + r)]) } := by
  have hlen : min_size + r - s.min_block_size < s.m_free.length := by
    by_contra hcon
    rw [List.getElem?_eq_none (by omega)] at hl
    exact absurd hl (by simp)
  rw [split, pool_size_eq _ hc]
  simp only
  rw [free_insert_eq s _ index [] hmin hc hl]
  simp only
  have hpos : 0 < 2 ^ (min_size + r) := Nat.pow_pos (by decide)
  have hins : index_insert (index + 2 ^ (min_size + r)) (index_insert index []) =
      [index, index + 2 ^ (min_size + r)] := by
    simp only [index_insert]
    rw [if_neg (by omega), if_neg (by omega)]
  rw [free_insert_eq
    { s with m_free := s.m_free.set (min_size + r - s.min_block_size) (index_insert index []) }
    _ (index + 2 ^ (min_size + r)) (index_insert index []) hmin hc
    (by simp only [List.getElem?_set_self hlen])]
  simp only [List.set_set, hins]
  rw [delete_index_eq
    { s with m_free :=
        (s.m_free.set (min_size + r - s.min_block_size) [index, index + 2 ^ (min_size + r)]) }
    _ index [index + 2 ^ (min_size + r)] hmin hc
    (by simp only [List.length_set, List.getElem?_set_self hlen])]
  simp only [List.set_set]


/-! ### The inner loop of `allocate` -/

theorem isFree_empty (s : PoolAllocator) (c : Nat)
    (hl : s.m_free[c - s.min_block_size]? = some []) (i : Nat) : ¬ IsFree s i c := by
  rintro ⟨_, l, h, hi⟩
  rw [hl] at h
  simp only [Option.some.injEq] at h
  rw [← h] at hi
  exact absurd hi (List.not_mem_nil _)

/-- The inner loop of `allocate`, run on a block the call holds whose order is `r`
above `min_size`, with the free sets of the orders in between empty: it ends holding
the block of order `min_size` at the same offset, the upper halves all free. -/
theorem split_inv (min_size : Nat) :
    ∀ (r index : Nat) (s : PoolAllocator), WellFormed s → s.min_block_size ≤ min_size →
      min_size + r ≤ s.max_block_size →
      (∀ o, min_size ≤ o → o < min_size + r →
        s.m_free[o - s.min_block_size]? = some []) →
      Tiling s.min_block_size s.max_block_size (blocks s (some (index, min_size + r))) →
      ∃ s1, split min_size r index s = some (index, s1) ∧ WellFormed s1 ∧
        s1.m_sizes = s.m_sizes ∧ s1.min_block_size = s.min_block_size ∧
        s1.max_block_size = s.max_block_size ∧
        Tiling s.min_block_size s.max_block_size (blocks s1 (some (index, min_size))) := by
  intro r
  induction r with
  | zero =>
    intro index s hs _ _ _ ht
    exact ⟨s, rfl, hs, rfl, rfl, rfl, ht⟩
  | succ r ih =>
    intro index s hs hmin hmax hempty ht
    have hc32 : min_size + r < 32 := by have := hs.2.1; omega
    have hcmin : s.min_block_size ≤ min_size + r := by omega
    have hl := hempty (min_size + r) (by omega) (by omega)
    have hlen : min_size + r - s.min_block_size < s.m_free.length := by
      rw [hs.2.2.2.1]; omega
    rw [split_step min_size r index s hcmin hc32 hl]
    have hfree1 := isFree_of_set s
      { s with m_free :=
          (s.m_free.set (min_size + r - s.min_block_size) [index + 2 ^ (min_size + r)]) }
      (min_size + r) [index + 2 ^ (min_size + r)] rfl rfl hcmin hlen
    obtain ⟨s1, e, hw, hm, h1, h2, htile⟩ := ih index
      { s with m_free :=
          (s.m_free.set (min_size + r - s.min_block_size) [index + 2 ^ (min_size + r)]) }
      (wellFormed_of_set s _ _ _ rfl rfl rfl rfl hs (List.pairwise_singleton _ _))
      hmin (by show min_size + r ≤ s.max_block_size; omega)
      (by
        intro o ho1 ho2
        show (s.m_free.set (min_size + r - s.min_block_size) _)[o - s.min_block_size]?
          = some []
        rw [List.getElem?_set_ne (by omega)]
        exact hempty o ho1 (by omega))
      (by
        show Tiling s.min_block_size s.max_block_size _
        refine tiling_split ht Tag.held Tag.held Tag.free index (min_size + r) hcmin rfl ?_
        intro t i o
        cases t with
        | free =>
          simp only [blocks, reduceCtorEq, false_and, not_false_eq_true, and_true, true_and,
            false_or]
          rw [hfree1 i o]
          simp only [List.mem_singleton]
          constructor
          · rintro (⟨e1, e2⟩ | ⟨_, hf⟩)
            · exact Or.inr ⟨e2, e1⟩
            · exact Or.inl hf
          · rintro (hf | ⟨e1, e2⟩)
            · refine Or.inr ⟨?_, hf⟩
              intro e
              rw [e] at hf
              exact isFree_empty s _ hl i hf
            · exact Or.inl ⟨e2, e1⟩
        | used =>
          simp only [blocks, reduceCtorEq, false_and, not_false_eq_true, and_true, or_false]
          exact Iff.rfl
        | held =>
          simp only [blocks, Option.some.injEq, Prod.mk.injEq, true_and, reduceCtorEq,
            false_and, or_false]
          constructor
          · rintro ⟨e1, e2⟩
            exact Or.inr ⟨e1.symm, e2.symm⟩
          · rintro (⟨⟨e1, e2⟩, hne⟩ | ⟨e1, e2⟩)
            · exact absurd ⟨e1.symm, e2.symm⟩ hne
            · exact ⟨e1.symm, e2.symm⟩)
    exact ⟨s1, e, hw, hm, h1, h2, htile⟩


/-! ### The order of a request -/

theorem shift_one_pow (b : Nat) (hb : b < 63) : (2 ^ b <<< 1) % 2 ^ 64 = 2 ^ (b + 1) := by
  rw [Nat.shiftLeft_eq, pow_one, ← pow_succ]
  exact Nat.mod_eq_of_lt (Nat.pow_lt_pow_right (by decide) (by omega))

theorem block_size_loop_spec (n : Nat) (hn : n ≤ 2 ^ 63) :
    ∀ (fuel b : Nat), b ≤ 63 → 65 ≤ fuel + b → (∀ j, j < b → 2 ^ j < n) →
      block_size_loop n fuel (2 ^ b) b = some (Nat.clog 2 n) := by
  intro fuel
  induction fuel with
  | zero => intro b h1 h2 _; omega
  | succ fuel ih =>
    intro b hb hfuel hlow
    unfold block_size_loop
    by_cases h : 2 ^ b < n
    · rw [if_pos h]
      have hb63 : b < 63 := by
        by_contra hcon
        have : b = 63 := by omega
        rw [this] at h
        omega
      rw [shift_one_pow b hb63, Nat.mod_eq_of_lt (by omega : b + 1 < 2 ^ 64)]
      apply ih (b + 1) (by omega) (by omega)
      intro j hj
      rcases Nat.lt_succ_iff_lt_or_eq.mp hj with e | e
      · exact hlow j e
      · rw [e]; exact h
    · rw [if_neg h]
      congr 1
      apply le_antisymm
      · by_contra hcon
        have h1 := hlow (Nat.clog 2 n) (by omega)
        have h2 := Nat.le_pow_clog (by decide : 1 < 2) n
        omega
      · exact (Nat.le_pow_iff_clog_le (by decide)).mp (by omega)

/-- For a request of at most `2 ^ 63` bytes `block_size` returns the least order
whose blocks hold the request. -/
theorem block_size_eq (n : Nat) (hn : n ≤ 2 ^ 63) : block_size n = some (Nat.clog 2 n) :=
  block_size_loop_spec n hn 65 0 (by omega) (by omega) (fun j hj => by omega)

theorem block_size_loop_zero (n : Nat) (hn : 0 < n) :
    ∀ fuel b : Nat, block_size_loop n fuel 0 b = none := by
  intro fuel
  induction fuel with
  | zero => intro b; rfl
  | succ fuel ih =>
    intro b
    unfold block_size_loop
    rw [if_pos hn]
    exact ih _

/-- For a request of more than `2 ^ 63` bytes the loop of `block_size` does not end,
however many iterations it is given: `value` wraps to zero. -/
theorem block_size_loop_never (n : Nat) (hn : 2 ^ 63 < n) :
    ∀ (fuel k b : Nat), k ≤ 63 → block_size_loop n fuel (2 ^ k) b = none := by
  intro fuel
  induction fuel with
  | zero => intro k b _; rfl
  | succ fuel ih =>
    intro k b hk
    unfold block_size_loop
    have hlt : 2 ^ k < n :=
      lt_of_le_of_lt (Nat.pow_le_pow_right (by decide) hk) hn
    rw [if_pos hlt]
    by_cases h63 : k = 63
    · subst h63
      have : (2 ^ 63 <<< 1) % 2 ^ 64 = 0 := by decide
      rw [this]
      exact block_size_loop_zero n (by omega) fuel _
    · rw [shift_one_pow k (by omega)]
      exact ih (k + 1) _ (by omega)


/-! ### The method `allocate` -/

theorem covers_self (i o : Nat) : Covers i o i :=
  ⟨le_refl _, Nat.lt_add_of_pos_right (Nat.pow_pos (by decide))⟩

theorem mem_sizes_assign (index size : Nat) (m : List (Nat × Nat)) (i o : Nat) :
    (i, o) ∈ sizes_assign index size m ↔
      (i = index ∧ o = size) ∨ ((i, o) ∈ m ∧ i ≠ index) := by
  simp [sizes_assign]

theorem mem_sizes_erase (index : Nat) (m : List (Nat × Nat)) (i o : Nat) :
    (i, o) ∈ sizes_erase index m ↔ (i, o) ∈ m ∧ i ≠ index := by
  simp [sizes_erase]

/-- A free block is taken out of its set and held. -/
theorem take_block_tiling (s : PoolAllocator) (hinv : Inv s) (size index : Nat)
    (rest : List Nat) (hmin : s.min_block_size ≤ size) (hmax : size ≤ s.max_block_size)
    (hl : s.m_free[size - s.min_block_size]? = some (index :: rest)) :
    WellFormed { s with m_free := s.m_free.set (size - s.min_block_size) rest } ∧
    Tiling s.min_block_size s.max_block_size
      (blocks { s with m_free := s.m_free.set (size - s.min_block_size) rest }
        (some (index, size))) := by
  obtain ⟨hs, ht⟩ := hinv
  have hlen : size - s.min_block_size < s.m_free.length := by rw [hs.2.2.2.1]; omega
  have hsorted : (index :: rest).Pairwise fun a b => a < b := by
    obtain ⟨l, h1, h2⟩ := free_list_exists s hs size hmin hmax
    rw [hl] at h1
    simp only [Option.some.injEq] at h1
    rw [h1]; exact h2
  have hfree1 := isFree_of_set s
    { s with m_free := s.m_free.set (size - s.min_block_size) rest } size rest rfl rfl hmin hlen
  have hfree0 : ∀ i, IsFree s i size ↔ i ∈ index :: rest := by
    intro i
    constructor
    · rintro ⟨_, l, h1, h2⟩
      rw [hl] at h1
      simp only [Option.some.injEq] at h1
      rw [h1]; exact h2
    · intro h; exact ⟨hmin, _, hl, h⟩
  refine ⟨wellFormed_of_set s _ _ _ rfl rfl rfl rfl hs (List.Pairwise.of_cons hsorted), ?_⟩
  refine tiling_retag ht Tag.free Tag.held index size
    ((hfree0 index).mpr (List.mem_cons_self _ _)) ?_
  intro t i o
  cases t with
  | free =>
    simp only [blocks, true_and, reduceCtorEq, false_and, or_false]
    rw [hfree1 i o]
    constructor
    · rintro (⟨e1, e2⟩ | ⟨hne, hf⟩)
      · refine ⟨by rw [e1]; exact (hfree0 i).mpr (List.mem_cons_of_mem _ e2), ?_⟩
        rintro ⟨e3, _⟩
        rw [e3] at e2
        exact sorted_head_not_mem index rest hsorted e2
      · exact ⟨hf, fun h => hne h.2⟩
    · rintro ⟨hf, hne⟩
      by_cases hoc : o = size
      · left
        rw [hoc] at hf
        refine ⟨hoc, ?_⟩
        rcases List.mem_cons.mp ((hfree0 i).mp hf) with e | e
        · exact absurd ⟨e, hoc⟩ hne
        · exact e
      · exact Or.inr ⟨hoc, hf⟩
  | used =>
    simp only [blocks, reduceCtorEq, false_and, not_false_eq_true, and_true, or_false]
    exact Iff.rfl
  | held =>
    simp only [blocks, reduceCtorEq, false_and, true_and, false_or, Option.some.injEq,
      Prod.mk.injEq]
    constructor
    · rintro ⟨e1, e2⟩; exact ⟨e1.symm, e2.symm⟩
    · rintro ⟨e1, e2⟩; exact ⟨e1.symm, e2.symm⟩

/-- The block a call holds is entered in `m_sizes`. -/
theorem enter_block_tiling (s : PoolAllocator) (hs : WellFormed s) (index size : Nat)
    (ht : Tiling s.min_block_size s.max_block_size (blocks s (some (index, size)))) :
    Inv { s with m_sizes := sizes_assign index size s.m_sizes } := by
  refine ⟨hs, ?_⟩
  show Tiling s.min_block_size s.max_block_size _
  refine tiling_retag ht Tag.held Tag.used index size rfl ?_
  intro t i o
  cases t with
  | free =>
    simp only [blocks, reduceCtorEq, false_and, not_false_eq_true, and_true, or_false]
    exact Iff.rfl
  | used =>
    simp only [blocks, IsAlloc, reduceCtorEq, false_and, not_false_eq_true, and_true,
      true_and]
    rw [mem_sizes_assign]
    constructor
    · rintro (h | ⟨h, _⟩)
      · exact Or.inr h
      · exact Or.inl h
    · rintro (h | h)
      · refine Or.inr ⟨h, ?_⟩
        intro e
        rw [e] at h
        have := ht.2.2 Tag.used index o Tag.held index size index h rfl
          (covers_self _ _) (covers_self _ _)
        exact absurd this.1 (by decide)
      · exact Or.inl h
  | held =>
    simp only [blocks, reduceCtorEq, false_and, or_false, Option.some.injEq, Prod.mk.injEq,
      true_and]
    constructor
    · intro h; exact absurd h (by simp)
    · rintro ⟨⟨e1, e2⟩, hne⟩
      exact absurd ⟨e1.symm, e2.symm⟩ hne

/-- The outer loop of `allocate`, from an order up to which the free sets are empty:
it throws, the state being as it was, or returns a block of order `min_size` and
leaves a state that meets the invariant. -/
theorem find_block_inv (min_size : Nat) (s : PoolAllocator) (hinv : Inv s)
    (hmin : s.min_block_size ≤ min_size) :
    ∀ (r size : Nat), min_size ≤ size → size + r = s.max_block_size + 1 →
      (∀ o, min_size ≤ o → o < size → s.m_free[o - s.min_block_size]? = some []) →
      find_block min_size r size s = AllocResult.bad_alloc ∨
      ∃ index s1, find_block min_size r size s = AllocResult.block index s1 ∧ Inv s1 ∧
        IsAlloc s1 index min_size ∧ s1.min_block_size = s.min_block_size ∧
        s1.max_block_size = s.max_block_size ∧
        ∀ i o, IsAlloc s1 i o ↔ IsAlloc s i o ∨ (i = index ∧ o = min_size) := by
  intro r
  induction r with
  | zero => intro size _ _ _; exact Or.inl rfl
  | succ r ih =>
    intro size hsize hr hempty
    have hs := hinv.1
    have hmax : size ≤ s.max_block_size := by omega
    have h32 : size < 32 := by have := hs.2.1; omega
    obtain ⟨l, hl, _⟩ := free_list_exists s hs size (by omega) hmax
    rw [find_block, to_free_index_eq s size (by omega) h32, hl]
    rcases l with _ | ⟨index, rest⟩
    · simp only
      apply ih (size + 1) (by omega) (by omega)
      intro o ho1 ho2
      rcases Nat.lt_succ_iff_lt_or_eq.mp ho2 with e | e
      · exact hempty o ho1 e
      · rw [e]; exact hl
    · right
      simp only
      rw [delete_index_eq s size index rest (by omega) h32 hl]
      simp only
      obtain ⟨hw1, ht1⟩ := take_block_tiling s hinv size index rest (by omega) hmax hl
      have e : min_size + (size - min_size) = size := by omega
      obtain ⟨s2, e2, hw2, hm2, hmin2, hmax2, ht2⟩ := split_inv min_size (size - min_size) index
        { s with m_free := s.m_free.set (size - s.min_block_size) rest } hw1 hmin
        (by rw [e]; exact hmax)
        (by
          intro o ho1 ho2
          show (s.m_free.set (size - s.min_block_size) rest)[o - s.min_block_size]? = some []
          rw [List.getElem?_set_ne (by omega)]
          exact hempty o ho1 (by omega))
        (by rw [e]; exact ht1)
      rw [e2]
      simp only
      have hinv2 : Inv { s2 with m_sizes := sizes_assign index min_size s2.m_sizes } := by
        apply enter_block_tiling s2 hw2 index min_size
        rw [hmin2, hmax2]
        exact ht2
      refine ⟨index, _, rfl, hinv2, ?_, hmin2, hmax2, ?_⟩
      · show (index, min_size) ∈ sizes_assign index min_size s2.m_sizes
        rw [mem_sizes_assign]; exact Or.inl ⟨rfl, rfl⟩
      · intro i o
        show (i, o) ∈ sizes_assign index min_size s2.m_sizes ↔ _
        rw [mem_sizes_assign, hm2]
        constructor
        · rintro (h | ⟨h, _⟩)
          · exact Or.inr h
          · exact Or.inl h
        · rintro (h | h)
          · by_cases hi : i = index
            · left
              have hu : blocks { s2 with m_sizes := sizes_assign index min_size s2.m_sizes }
                  none Tag.used i o := by
                show (i, o) ∈ sizes_assign index min_size s2.m_sizes
                rw [mem_sizes_assign, hm2]
                by_cases ho : o = min_size
                · exact Or.inl ⟨hi, ho⟩
                · exfalso
                  have hh : (i, o) ∈ s2.m_sizes := by rw [hm2]; exact h
                  have := ht2.2.2 Tag.used i o Tag.held index min_size index hh rfl
                    (by rw [hi]; exact covers_self _ _) (covers_self _ _)
                  exact absurd this.1 (by decide)
              have hu2 : blocks { s2 with m_sizes := sizes_assign index min_size s2.m_sizes }
                  none Tag.used index min_size := by
                show (index, min_size) ∈ sizes_assign index min_size s2.m_sizes
                rw [mem_sizes_assign]; exact Or.inl ⟨rfl, rfl⟩
              have := hinv2.2.2.2 Tag.used i o Tag.used index min_size index hu hu2
                (by rw [hi]; exact covers_self _ _) (covers_self _ _)
              exact ⟨this.2.1, this.2.2⟩
            · exact Or.inr ⟨h, hi⟩
          · exact Or.inl h

/-- A call `allocate(n)` with `n ≤ 2 ^ 63` on a state that meets the invariant: it
throws `std::bad_alloc`, the state being as it was, or it returns a block of order
`max(min_block_size, ⌈log2 n⌉)` and leaves a state that meets the invariant, in which
this block is allocated besides those that were. -/
theorem allocate_inv (s : PoolAllocator) (hinv : Inv s) (n : Nat) (hn : n ≤ 2 ^ 63) :
    allocate s n = AllocResult.bad_alloc ∨
    ∃ index s1, allocate s n = AllocResult.block index s1 ∧ Inv s1 ∧
      IsAlloc s1 index (max s.min_block_size (Nat.clog 2 n)) ∧
      s1.min_block_size = s.min_block_size ∧ s1.max_block_size = s.max_block_size ∧
      ∀ i o, IsAlloc s1 i o ↔
        IsAlloc s i o ∨ (i = index ∧ o = max s.min_block_size (Nat.clog 2 n)) := by
  unfold allocate
  rw [block_size_eq n hn]
  simp only
  by_cases hbig : max s.min_block_size (Nat.clog 2 n) ≤ s.max_block_size
  · exact find_block_inv _ s hinv (le_max_left _ _) _ _ (le_refl _) (by omega)
      (fun o h1 h2 => by omega)
  · left
    have : s.max_block_size + 1 - max s.min_block_size (Nat.clog 2 n) = 0 := by omega
    rw [this]
    rfl


/-! ### The constructor -/

/-- A `PoolAllocator(min_p, max_p)` with `min_p ≤ max_p ≤ 31` is constructed, and
its one free block of order `max_p` tiles the pool. -/
theorem pool_new_inv (min_p max_p : Nat) (h1 : min_p ≤ max_p) (h2 : max_p < 32) :
    ∃ s, PoolAllocator.new min_p max_p = some s ∧ Inv s ∧ s.min_block_size = min_p ∧
      s.max_block_size = max_p ∧ s.m_sizes = [] := by
  have hn : (max_p + 2 ^ 32 - min_p + 1) % 2 ^ 32 = max_p - min_p + 1 := by
    have : max_p + 2 ^ 32 - min_p + 1 = (max_p - min_p + 1) + 2 ^ 32 := by omega
    rw [this, Nat.add_mod_right]
    exact Nat.mod_eq_of_lt (by omega)
  have hget : (List.replicate (max_p - min_p + 1) ([] : List Nat))[max_p - min_p]? =
      some [] := by
    rw [List.getElem?_replicate]
    simp
  have hbase : WellFormed
      { min_block_size := min_p, max_block_size := max_p, m_storage := 2 ^ max_p,
        m_free := List.replicate (max_p - min_p + 1) [], m_sizes := [] } := by
    refine ⟨h1, h2, rfl, by simp, ?_⟩
    intro l hl
    rw [List.eq_of_mem_replicate hl]
    exact List.Pairwise.nil
  refine ⟨
    { min_block_size := min_p, max_block_size := max_p, m_storage := 2 ^ max_p,
      m_free := (List.replicate (max_p - min_p + 1) []).set (max_p - min_p) [0],
      m_sizes := [] }, ?_, ⟨?_, ?_⟩, rfl, rfl, rfl⟩
  · unfold PoolAllocator.new
    rw [pool_size_eq max_p h2]
    simp only [hn]
    rw [free_insert_eq _ max_p 0 [] h1 h2 hget]
    rfl
  · exact wellFormed_of_set
      { min_block_size := min_p, max_block_size := max_p, m_storage := 2 ^ max_p,
        m_free := List.replicate (max_p - min_p + 1) [], m_sizes := [] }
      _ (max_p - min_p) [0] rfl rfl rfl rfl hbase (List.pairwise_singleton _ _)
  · have hfree := isFree_of_set
      { min_block_size := min_p, max_block_size := max_p, m_storage := 2 ^ max_p,
        m_free := List.replicate (max_p - min_p + 1) [], m_sizes := [] }
      { min_block_size := min_p, max_block_size := max_p, m_storage := 2 ^ max_p,
        m_free := (List.replicate (max_p - min_p + 1) []).set (max_p - min_p) [0],
        m_sizes := [] } max_p [0] rfl rfl h1 (by simp)
    have hnone : ∀ i o, ¬ IsFree
        { min_block_size := min_p, max_block_size := max_p, m_storage := 2 ^ max_p,
          m_free := List.replicate (max_p - min_p + 1) [], m_sizes := [] } i o := by
      rintro i o ⟨_, l, hl, hi⟩
      have hmem := List.getElem?_mem hl
      rw [List.eq_of_mem_replicate hmem] at hi
      exact absurd hi (List.not_mem_nil _)
    have hF : ∀ t i o, blocks
        { min_block_size := min_p, max_block_size := max_p, m_storage := 2 ^ max_p,
          m_free := (List.replicate (max_p - min_p + 1) []).set (max_p - min_p) [0],
          m_sizes := [] } none t i o ↔ t = Tag.free ∧ i = 0 ∧ o = max_p := by
      intro t i o
      cases t with
      | free =>
        simp only [blocks, true_and]
        rw [hfree i o]
        simp only [List.mem_singleton]
        constructor
        · rintro (⟨e1, e2⟩ | ⟨_, hf⟩)
          · exact ⟨e2, e1⟩
          · exact absurd hf (hnone i o)
        · rintro ⟨e1, e2⟩; exact Or.inl ⟨e2, e1⟩
      | used => simp [blocks, IsAlloc]
      | held => simp [blocks]
    show Tiling min_p max_p _
    refine ⟨?_, ?_, ?_⟩
    · intro t i o hb
      obtain ⟨_, e2, e3⟩ := (hF t i o).mp hb
      rw [e2, e3]
      exact ⟨h1, le_refl _, dvd_zero _, by omega⟩
    · intro x hx
      exact ⟨Tag.free, 0, max_p, (hF _ _ _).mpr ⟨rfl, rfl, rfl⟩, Nat.zero_le _, by omega⟩
    · intro t i o t' i' o' x hb hb' _ _
      obtain ⟨e1, e2, e3⟩ := (hF t i o).mp hb
      obtain ⟨e1', e2', e3'⟩ := (hF t' i' o').mp hb'
      exact ⟨by rw [e1, e1'], by rw [e2, e2'], by rw [e3, e3']⟩


/-! ### The method `deallocate` -/

theorem sizes_lookup_eq (m : List (Nat × Nat)) (i o : Nat) (h : (i, o) ∈ m)
    (huniq : ∀ o1, (i, o1) ∈ m → o1 = o) : sizes_lookup i m = o := by
  unfold sizes_lookup
  induction m with
  | nil => exact absurd h (List.not_mem_nil _)
  | cons e tl ih =>
    obtain ⟨a, b⟩ := e
    by_cases hia : i = a
    · subst hia
      have hb : b = o := huniq b (List.mem_cons_self _ _)
      simp [List.lookup, hb]
    · have hne : (i == a) = false := by simpa using hia
      rw [List.lookup, hne]
      apply ih
      · rcases List.mem_cons.mp h with e | e
        · exact absurd (Prod.mk.inj e).1 hia
        · exact e
      · intro o1 h1
        exact huniq o1 (List.mem_cons_of_mem _ h1)

/-- The loop of `deallocate` does not read or write `m_sizes`. -/
theorem merge_sizes (m : List (Nat × Nat)) :
    ∀ (r cs cur : Nat) (s : PoolAllocator),
      merge r cs cur { s with m_sizes := m } =
        (merge r cs cur s).map fun s2 => { s2 with m_sizes := m } := by
  intro r
  induction r with
  | zero => intro cs cur s; rfl
  | succ r ih =>
    intro cs cur s
    have htf : to_free_index { s with m_sizes := m } cs = to_free_index s cs := rfl
    rw [merge, merge, htf]
    cases pool_size cs with
    | none => rfl
    | some p =>
      simp only
      cases s.m_free[to_free_index s cs]? with
      | none => rfl
      | some l =>
        simp only
        generalize (if cur / p % 2 = 0 then cur + p else (cur + 2 ^ 64 - p) % 2 ^ 64) = buddy
        by_cases hb : buddy ∈ l
        · rw [if_pos hb, if_pos hb]
          cases (s.m_free.set (to_free_index s cs)
            ((l.erase cur).erase buddy))[to_free_index s cs + 1]? with
          | none => rfl
          | some up =>
            simp only
            exact ih (cs + 1) (if cur / p % 2 = 0 then cur else buddy)
              { s with m_free :=
                  ((s.m_free.set (to_free_index s cs) ((l.erase cur).erase buddy)).set
                    (to_free_index s cs + 1)
                    (index_insert (if cur / p % 2 = 0 then cur else buddy) up)) }
        · rw [if_neg hb, if_neg hb]
          rfl


theorem isFree_iff_mem (s : PoolAllocator) (c : Nat) (l : List Nat)
    (hmin : s.min_block_size ≤ c) (hl : s.m_free[c - s.min_block_size]? = some l) (i : Nat) :
    IsFree s i c ↔ i ∈ l := by
  constructor
  · rintro ⟨_, l1, h1, h2⟩
    rw [hl] at h1
    simp only [Option.some.injEq] at h1
    rw [h1]; exact h2
  · intro h; exact ⟨hmin, l, hl, h⟩

/-- One merge of the loop of `deallocate`: the two free buddies at `lower` and
`lower + 2 ^ cs` leave the free set of order `cs`, and the block at `lower` enters
the free set of order `cs + 1`. -/
theorem merge_step_inv (s : PoolAllocator) (hinv : Inv s) (cs lower : Nat)
    (l l1 up : List Nat) (hmin : s.min_block_size ≤ cs) (hcs : cs < s.max_block_size)
    (hl : s.m_free[cs - s.min_block_size]? = some l)
    (hup : s.m_free[cs - s.min_block_size + 1]? = some up)
    (h1 : lower ∈ l) (h2 : lower + 2 ^ cs ∈ l) (hdvd : 2 ^ (cs + 1) ∣ lower)
    (hl1 : ∀ i, i ∈ l1 ↔ i ∈ l ∧ i ≠ lower ∧ i ≠ lower + 2 ^ cs)
    (hs1 : l1.Pairwise fun a b => a < b) :
    Inv { s with m_free :=
        ((s.m_free.set (cs - s.min_block_size) l1).set (cs - s.min_block_size + 1)
          (index_insert lower up)) } ∧
    IsFree { s with m_free :=
        ((s.m_free.set (cs - s.min_block_size) l1).set (cs - s.min_block_size + 1)
          (index_insert lower up)) } lower (cs + 1) := by
  obtain ⟨hs, ht⟩ := hinv
  have hlen : cs - s.min_block_size < s.m_free.length := by rw [hs.2.2.2.1]; omega
  have hlen1 : cs + 1 - s.min_block_size < s.m_free.length := by rw [hs.2.2.2.1]; omega
  have hk : cs - s.min_block_size + 1 = cs + 1 - s.min_block_size := by omega
  have hupsorted : up.Pairwise fun a b => a < b :=
    hs.2.2.2.2 up (List.getElem?_mem hup)
  have hmid := isFree_of_set s { s with m_free := s.m_free.set (cs - s.min_block_size) l1 }
    cs l1 rfl rfl hmin hlen
  have hwmid : WellFormed { s with m_free := s.m_free.set (cs - s.min_block_size) l1 } :=
    wellFormed_of_set s _ _ _ rfl rfl rfl rfl hs hs1
  have hnew := isFree_of_set { s with m_free := s.m_free.set (cs - s.min_block_size) l1 }
    { s with m_free :=
        ((s.m_free.set (cs - s.min_block_size) l1).set (cs - s.min_block_size + 1)
          (index_insert lower up)) }
    (cs + 1) (index_insert lower up) rfl (by rw [hk]) (by show s.min_block_size ≤ cs + 1; omega)
    (by show cs + 1 - s.min_block_size < (s.m_free.set _ _).length
        rw [List.length_set]; exact hlen1)
  have hfl := isFree_iff_mem s cs l hmin hl
  have hfu := isFree_iff_mem s (cs + 1) up (by omega) (by rw [← hk]; exact hup)
  have hfree : ∀ i o,
      IsFree { s with m_free :=
        ((s.m_free.set (cs - s.min_block_size) l1).set (cs - s.min_block_size + 1)
          (index_insert lower up)) } i o ↔
      (IsFree s i o ∧ ¬ (i = lower ∧ o = cs) ∧ ¬ (i = lower + 2 ^ cs ∧ o = cs)) ∨
        (i = lower ∧ o = cs + 1) := by
    intro i o
    rw [hnew i o, mem_index_insert]
    by_cases ho1 : o = cs + 1
    · subst ho1
      rw [hfu i]
      constructor
      · rintro (⟨_, h | h⟩ | ⟨h, _⟩)
        · exact Or.inr ⟨h, rfl⟩
        · exact Or.inl ⟨h, fun e => by omega, fun e => by omega⟩
        · exact absurd rfl h
      · rintro (⟨h, _, _⟩ | ⟨h, _⟩)
        · exact Or.inl ⟨rfl, Or.inr h⟩
        · exact Or.inl ⟨rfl, Or.inl h⟩
    · rw [hmid i o]
      by_cases ho : o = cs
      · subst ho
        rw [hl1 i, hfl i]
        constructor
        · rintro (⟨h, _⟩ | ⟨_, ⟨_, h, n1, n2⟩ | ⟨h, _⟩⟩)
          · exact absurd h ho1
          · exact Or.inl ⟨h, fun e => n1 e.1, fun e => n2 e.1⟩
          · exact absurd rfl h
        · rintro (⟨h, n1, n2⟩ | ⟨_, h⟩)
          · exact Or.inr ⟨ho1, Or.inl ⟨rfl, h, fun e => n1 ⟨e, rfl⟩, fun e => n2 ⟨e, rfl⟩⟩⟩
          · exact absurd h ho1
      · constructor
        · rintro (⟨h, _⟩ | ⟨_, ⟨h, _⟩ | ⟨_, h⟩⟩)
          · exact absurd h ho1
          · exact absurd h ho
          · exact Or.inl ⟨h, fun e => ho e.2, fun e => ho e.2⟩
        · rintro (⟨h, _, _⟩ | ⟨_, h⟩)
          · exact Or.inr ⟨ho1, Or.inr ⟨ho, h⟩⟩
          · exact absurd h ho1
  refine ⟨⟨?_, ?_⟩, (hfree lower (cs + 1)).mpr (Or.inr ⟨rfl, rfl⟩)⟩
  · exact wellFormed_of_set { s with m_free := s.m_free.set (cs - s.min_block_size) l1 } _
      (cs - s.min_block_size + 1) (index_insert lower up) rfl rfl rfl rfl hwmid
      (index_insert_sorted lower up hupsorted)
  · show Tiling s.min_block_size s.max_block_size _
    refine tiling_merge ht Tag.free Tag.free Tag.free lower cs (by omega) hdvd
      ((hfl lower).mpr h1) ((hfl _).mpr h2) ?_
    intro t i o
    cases t with
    | free =>
      simp only [blocks, true_and]
      exact hfree i o
    | used =>
      simp only [blocks, reduceCtorEq, false_and, not_false_eq_true, and_true, or_false]
      exact Iff.rfl
    | held =>
      simp only [blocks, reduceCtorEq, false_and, not_false_eq_true, and_true, or_false]


theorem mem_erase_erase (l : List Nat) (hs : l.Pairwise fun a b => a < b) (a b i : Nat) :
    i ∈ (l.erase a).erase b ↔ i ∈ l ∧ i ≠ a ∧ i ≠ b := by
  have hnd := index_sorted_nodup l hs
  rw [(hnd.erase a).mem_erase_iff, hnd.mem_erase_iff]
  constructor
  · rintro ⟨h1, h2, h3⟩; exact ⟨h3, h2, h1⟩
  · rintro ⟨h1, h2, h3⟩; exact ⟨h3, h2, h1⟩

theorem erase_erase_sorted (l : List Nat) (hs : l.Pairwise fun a b => a < b) (a b : Nat) :
    ((l.erase a).erase b).Pairwise fun a b => a < b :=
  (hs.sublist (List.erase_sublist a l)).sublist (List.erase_sublist b _)

theorem merge_keeps_sizes (r cs cur : Nat) (s s1 : PoolAllocator)
    (h : merge r cs cur s = some s1) : s1.m_sizes = s.m_sizes := by
  have hm := merge_sizes s.m_sizes r cs cur s
  have hs : ({ s with m_sizes := s.m_sizes } : PoolAllocator) = s := rfl
  rw [hs, h] at hm
  simp only [Option.map_some', Option.some.injEq] at hm
  rw [hm]

/-- The loop of `deallocate`, from a free block `current` of order `current_size`:
it runs to its end and keeps the invariant. -/
theorem merge_inv :
    ∀ (r cs cur : Nat) (s : PoolAllocator), Inv s → IsFree s cur cs →
      cs + r = s.max_block_size →
      ∃ s1, merge r cs cur s = some s1 ∧ Inv s1 ∧
        s1.min_block_size = s.min_block_size ∧ s1.max_block_size = s.max_block_size := by
  intro r
  induction r with
  | zero => intro cs cur s hinv _ _; exact ⟨s, rfl, hinv, rfl, rfl⟩
  | succ r ih =>
    intro cs cur s hinv hfree hr
    have hs := hinv.1
    obtain ⟨hmin, l, hl, hcur⟩ := hfree
    have hcs : cs < s.max_block_size := by omega
    have h32 : cs < 32 := by have := hs.2.1; omega
    obtain ⟨_, _, hdvd, hend⟩ := hinv.2.1 Tag.free cur cs ⟨hmin, l, hl, hcur⟩
    have hsorted : l.Pairwise fun a b => a < b := hs.2.2.2.2 l (List.getElem?_mem hl)
    obtain ⟨up, hup, _⟩ := free_list_exists s hs (cs + 1) (by omega) (by omega)
    have hk : cs + 1 - s.min_block_size = cs - s.min_block_size + 1 := by omega
    rw [hk] at hup
    have hpmax : 2 ^ s.max_block_size ≤ 2 ^ 31 :=
      Nat.pow_le_pow_right (by decide) (by have := hs.2.1; omega)
    have hppos : 0 < 2 ^ cs := Nat.pow_pos (by decide)
    obtain ⟨q, hq⟩ := hdvd
    have hdiv : cur / 2 ^ cs = q := by
      rw [hq]; exact Nat.mul_div_cancel_left q hppos
    rw [merge, pool_size_eq cs h32]
    simp only
    rw [to_free_index_eq s cs hmin h32, hl, hdiv]
    simp only
    by_cases hpar : q % 2 = 0
    · simp only [hpar, if_true]
      by_cases hb : cur + 2 ^ cs ∈ l
      · rw [if_pos hb, List.getElem?_set_ne (by omega), hup]
        simp only
        have hq2 : q = 2 * (q / 2) := by omega
        have hd2 : 2 ^ (cs + 1) ∣ cur :=
          ⟨q / 2, by rw [pow_succ, mul_assoc, ← hq2]; exact hq⟩
        obtain ⟨hinv3, hfree3⟩ := merge_step_inv s hinv cs cur l
          ((l.erase cur).erase (cur + 2 ^ cs)) up hmin hcs hl hup hcur hb hd2
          (mem_erase_erase l hsorted _ _) (erase_erase_sorted l hsorted _ _)
        obtain ⟨s1, e, h1, h2, h3⟩ := ih (cs + 1) cur _ hinv3 hfree3
          (by show cs + 1 + r = s.max_block_size; omega)
        exact ⟨s1, e, h1, h2, h3⟩
      · rw [if_neg hb]
        exact ⟨s, rfl, hinv, rfl, rfl⟩
    · simp only [hpar, if_false]
      have hq1 : 1 ≤ q := by omega
      have hge : 2 ^ cs ≤ cur := by
        rw [hq]; exact Nat.le_mul_of_pos_right _ hq1
      have hbud : (cur + 2 ^ 64 - 2 ^ cs) % 2 ^ 64 = cur - 2 ^ cs := by
        have : cur + 2 ^ 64 - 2 ^ cs = (cur - 2 ^ cs) + 2 ^ 64 := by omega
        rw [this, Nat.add_mod_right]
        exact Nat.mod_eq_of_lt (by omega)
      rw [hbud]
      by_cases hb : cur - 2 ^ cs ∈ l
      · rw [if_pos hb, List.getElem?_set_ne (by omega), hup]
        simp only
        have hq2 : q - 1 = 2 * ((q - 1) / 2) := by omega
        have hlow : cur - 2 ^ cs = 2 ^ cs * (q - 1) := by
          rw [Nat.mul_sub, mul_one, ← hq]
        have hd2 : 2 ^ (cs + 1) ∣ cur - 2 ^ cs :=
          ⟨(q - 1) / 2, by rw [pow_succ, mul_assoc, ← hq2]; exact hlow⟩
        have hcur2 : cur - 2 ^ cs + 2 ^ cs ∈ l := by
          rw [Nat.sub_add_cancel hge]; exact hcur
        have hmem : ∀ i, i ∈ (l.erase cur).erase (cur - 2 ^ cs) ↔
            i ∈ l ∧ i ≠ cur - 2 ^ cs ∧ i ≠ cur - 2 ^ cs + 2 ^ cs := by
          intro i
          rw [mem_erase_erase l hsorted, Nat.sub_add_cancel hge]
          constructor
          · rintro ⟨h1, h2, h3⟩; exact ⟨h1, h3, h2⟩
          · rintro ⟨h1, h2, h3⟩; exact ⟨h1, h3, h2⟩
        obtain ⟨hinv3, hfree3⟩ := merge_step_inv s hinv cs (cur - 2 ^ cs) l
          ((l.erase cur).erase (cur - 2 ^ cs)) up hmin hcs hl hup hb hcur2 hd2
          hmem (erase_erase_sorted l hsorted _ _)
        obtain ⟨s1, e, h1, h2, h3⟩ := ih (cs + 1) (cur - 2 ^ cs) _ hinv3 hfree3
          (by show cs + 1 + r = s.max_block_size; omega)
        exact ⟨s1, e, h1, h2, h3⟩
      · rw [if_neg hb]
        exact ⟨s, rfl, hinv, rfl, rfl⟩

/-- A call `deallocate` of the start of an allocated block, on a state that meets the
invariant: it returns and leaves a state that meets the invariant, in which the
other allocated blocks are allocated still. -/
theorem deallocate_inv (s : PoolAllocator) (hinv : Inv s) (index o : Nat)
    (ha : IsAlloc s index o) :
    ∃ s1, deallocate s index = DeallocResult.done s1 ∧ Inv s1 ∧
      s1.min_block_size = s.min_block_size ∧ s1.max_block_size = s.max_block_size ∧
      ∀ i o1, IsAlloc s1 i o1 ↔ IsAlloc s i o1 ∧ i ≠ index := by
  have hs := hinv.1
  obtain ⟨hmin, hmax, _, hend⟩ := hinv.2.1 Tag.used index o ha
  have h32 : o < 32 := by have := hs.2.1; omega
  have huniq : ∀ o1, (index, o1) ∈ s.m_sizes → o1 = o := by
    intro o1 h1
    exact (hinv.2.2.2 Tag.used index o1 Tag.used index o index h1 ha
      (covers_self _ _) (covers_self _ _)).2.2
  have hlook := sizes_lookup_eq s.m_sizes index o ha huniq
  obtain ⟨l, hl, hsorted⟩ := free_list_exists s hs o hmin hmax
  have hlen : o - s.min_block_size < s.m_free.length := by rw [hs.2.2.2.1]; omega
  have hppos : 0 < 2 ^ o := Nat.pow_pos (by decide)
  unfold deallocate
  rw [if_neg (by rw [hs.2.2.1]; omega), hlook, free_insert_eq s o index l hmin h32 hl]
  simp only
  have hfree1 := isFree_of_set s
    { s with m_free := s.m_free.set (o - s.min_block_size) (index_insert index l),
             m_sizes := sizes_erase index s.m_sizes }
    o (index_insert index l) rfl rfl hmin hlen
  have hinv1 : Inv
      { s with m_free := s.m_free.set (o - s.min_block_size) (index_insert index l),
               m_sizes := sizes_erase index s.m_sizes } := by
    refine ⟨wellFormed_of_set s _ _ _ rfl rfl rfl rfl hs (index_insert_sorted index l hsorted),
      ?_⟩
    show Tiling s.min_block_size s.max_block_size _
    refine tiling_retag hinv.2 Tag.used Tag.free index o ha ?_
    intro t i o1
    cases t with
    | free =>
      simp only [blocks, reduceCtorEq, false_and, not_false_eq_true, and_true, true_and]
      rw [hfree1 i o1, mem_index_insert]
      by_cases ho : o1 = o
      · subst ho
        rw [isFree_iff_mem s o1 l hmin hl]
        constructor
        · rintro (⟨_, h | h⟩ | ⟨h, _⟩)
          · exact Or.inr ⟨h, rfl⟩
          · exact Or.inl h
          · exact absurd rfl h
        · rintro (h | ⟨h, _⟩)
          · exact Or.inl ⟨rfl, Or.inr h⟩
          · exact Or.inl ⟨rfl, Or.inl h⟩
      · constructor
        · rintro (⟨h, _⟩ | ⟨_, h⟩)
          · exact absurd h ho
          · exact Or.inl h
        · rintro (h | ⟨_, h⟩)
          · exact Or.inr ⟨ho, h⟩
          · exact absurd h ho
    | used =>
      simp only [blocks, IsAlloc, true_and, reduceCtorEq, false_and, or_false]
      rw [mem_sizes_erase]
      constructor
      · rintro ⟨h1, h2⟩; exact ⟨h1, fun e => h2 e.1⟩
      · rintro ⟨h1, h2⟩
        refine ⟨h1, fun e => h2 ⟨e, ?_⟩⟩
        rw [e] at h1
        exact huniq o1 h1
    | held =>
      simp only [blocks, reduceCtorEq, false_and, not_false_eq_true, and_true, or_false]
  have hstart : IsFree
      { s with m_free := s.m_free.set (o - s.min_block_size) (index_insert index l),
               m_sizes := sizes_erase index s.m_sizes } index o :=
    (hfree1 index o).mpr (Or.inl ⟨rfl, (mem_index_insert _ _ _).mpr (Or.inl rfl)⟩)
  obtain ⟨s2, e2, hinv2, hmin2, hmax2⟩ := merge_inv (s.max_block_size - o) o index _ hinv1
    hstart (by show o + (s.max_block_size - o) = s.max_block_size; omega)
  have hcomm := merge_sizes (sizes_erase index s.m_sizes) (s.max_block_size - o) o index
    { s with m_free := s.m_free.set (o - s.min_block_size) (index_insert index l) }
  rw [e2] at hcomm
  rcases hm : merge (s.max_block_size - o) o index
    { s with m_free := s.m_free.set (o - s.min_block_size) (index_insert index l) }
    with _ | s3
  · rw [hm] at hcomm
    exact absurd hcomm (by simp)
  · rw [hm] at hcomm
    simp only [Option.map_some', Option.some.injEq] at hcomm
    have hk := merge_keeps_sizes _ _ _ _ _ hm
    simp only
    have hfinal : ({ s3 with m_sizes := sizes_erase index s3.m_sizes } : PoolAllocator) = s2 := by
      rw [hcomm, hk]
    rw [hfinal]
    refine ⟨s2, rfl, hinv2, hmin2, hmax2, ?_⟩
    intro i o1
    have hs2 : s2.m_sizes = sizes_erase index s.m_sizes := by rw [hcomm]
    show (i, o1) ∈ s2.m_sizes ↔ _
    rw [hs2, mem_sizes_erase]
    exact Iff.rfl


/-! ### The reachable states -/

/-- A request of more than `2 ^ 63` bytes: `allocate` does not return. -/
theorem allocate_no_return (s : PoolAllocator) (n : Nat) (hn : 2 ^ 63 < n) :
    allocate s n = AllocResult.no_return := by
  unfold allocate block_size
  rw [show (1 : Nat) = 2 ^ 0 from rfl, block_size_loop_never n hn 65 0 0 (by omega)]

theorem pool_reachable_inv (min_p max_p : Nat) (h1 : min_p ≤ max_p) (h2 : max_p < 32)
    (s : PoolAllocator) (hr : Reachable min_p max_p s) :
    Inv s ∧ s.min_block_size = min_p ∧ s.max_block_size = max_p := by
  induction hr with
  | new s hnew =>
    obtain ⟨s0, e, hinv, hmin, hmax, _⟩ := pool_new_inv min_p max_p h1 h2
    rw [e] at hnew
    simp only [Option.some.injEq] at hnew
    rw [← hnew]
    exact ⟨hinv, hmin, hmax⟩
  | allocate s s1 n index _ hn hstep ih =>
    by_cases hbig : n ≤ 2 ^ 63
    · rcases allocate_inv s ih.1 n hbig with e | ⟨i, s2, e, hinv, _, hmin, hmax, _⟩
      · rw [e] at hstep
        exact absurd hstep (by simp)
      · rw [e] at hstep
        simp only [AllocResult.block.injEq] at hstep
        rw [← hstep.2]
        exact ⟨hinv, by rw [hmin]; exact ih.2.1, by rw [hmax]; exact ih.2.2⟩
    · rw [allocate_no_return s n (by omega)] at hstep
      exact absurd hstep (by simp)
  | deallocate s s1 index order _ hmem hstep ih =>
    obtain ⟨s2, e, hinv, hmin, hmax, _⟩ := deallocate_inv s ih.1 index order hmem
    rw [e] at hstep
    simp only [DeallocResult.done.injEq] at hstep
    rw [← hstep]
    exact ⟨hinv, by rw [hmin]; exact ih.2.1, by rw [hmax]; exact ih.2.2⟩

/-- C39: for a `PoolAllocator(min_p, max_p)` with `min_p ≤ max_p ≤ 31`, in every
state reached by calls of `allocate` and by calls of `deallocate` on allocated
blocks, the free blocks and the allocated blocks have orders from `min_p` to `max_p`,
start at a multiple of their size, lie in the pool `[0, 2 ^ max_p)`, cover it, and no
two of them share a byte; `allocate(n)` with `n ≤ 2 ^ 63` throws `std::bad_alloc`
(the state is as before) or returns a block of order `max(min_p, ⌈log2 n⌉)`, and
`deallocate` of an allocated block returns; both leave a state that meets the
invariant.  But `allocate(n)` with `n > 2 ^ 63` neither returns nor throws: the loop
of `block_size` has not ended after any number of iterations; and with
`max_p ≥ 32` the shift `1U << max_p` of the constructor is undefined, so that no
allocator is constructed. -/
theorem pool_tiles_but_allocate_may_not_return (min_p max_p : Nat) (h1 : min_p ≤ max_p)
    (h2 : max_p ≤ 31) (s : PoolAllocator) (hr : Reachable min_p max_p s) :
    (∀ i o, IsFree s i o ∨ IsAlloc s i o →
      min_p ≤ o ∧ o ≤ max_p ∧ 2 ^ o ∣ i ∧ i + 2 ^ o ≤ 2 ^ max_p) ∧
    (∀ x, x < 2 ^ max_p → ∃ i o, (IsFree s i o ∨ IsAlloc s i o) ∧ Covers i o x) ∧
    (∀ i o j p x, IsFree s i o → IsFree s j p → Covers i o x → Covers j p x →
      i = j ∧ o = p) ∧
    (∀ i o j p x, IsAlloc s i o → IsAlloc s j p → Covers i o x → Covers j p x →
      i = j ∧ o = p) ∧
    (∀ i o j p x, IsFree s i o → IsAlloc s j p → Covers i o x → ¬ Covers j p x) ∧
    (∀ n, n ≤ 2 ^ 63 →
      allocate s n = AllocResult.bad_alloc ∨
      ∃ index s1, allocate s n = AllocResult.block index s1 ∧ Inv s1 ∧
        IsAlloc s1 index (max min_p (Nat.clog 2 n)) ∧
        ∀ i o, IsAlloc s1 i o ↔ IsAlloc s i o ∨ (i = index ∧ o = max min_p (Nat.clog 2 n))) ∧
    (∀ index order, IsAlloc s index order →
      ∃ s1, deallocate s index = DeallocResult.done s1 ∧ Inv s1 ∧
        ∀ i o, IsAlloc s1 i o ↔ IsAlloc s i o ∧ i ≠ index) ∧
    (∀ n, 2 ^ 63 < n →
      allocate s n = AllocResult.no_return ∧ ∀ fuel, block_size_loop n fuel 1 0 = none) ∧
    (∀ p, 32 ≤ p → PoolAllocator.new min_p p = none) := by
  obtain ⟨hinv, hmin, hmax⟩ := pool_reachable_inv min_p max_p h1 (by omega) s hr
  have ht := hinv.2
  rw [hmin, hmax] at ht
  obtain ⟨ha, hc, hu⟩ := ht
  refine ⟨?_, ?_, ?_, ?_, ?_, ?_, ?_, ?_, ?_⟩
  · rintro i o (h | h)
    · exact ha Tag.free i o h
    · exact ha Tag.used i o h
  · intro x hx
    obtain ⟨t, i, o, hb, hcov⟩ := hc x hx
    cases t with
    | free => exact ⟨i, o, Or.inl hb, hcov⟩
    | used => exact ⟨i, o, Or.inr hb, hcov⟩
    | held => exact absurd hb (by simp [blocks])
  · intro i o j p x hf hf' hcov hcov'
    exact (hu Tag.free i o Tag.free j p x hf hf' hcov hcov').2
  · intro i o j p x hf hf' hcov hcov'
    exact (hu Tag.used i o Tag.used j p x hf hf' hcov hcov').2
  · intro i o j p x hf hf' hcov hcov'
    exact absurd (hu Tag.free i o Tag.used j p x hf hf' hcov hcov').1 (by decide)
  · intro n hn
    rcases allocate_inv s hinv n hn with
      e | ⟨index, s1, e, hinv1, hal, _, _, hfr⟩
    · exact Or.inl e
    · rw [hmin] at hal hfr
      exact Or.inr ⟨index, s1, e, hinv1, hal, hfr⟩
  · intro index order hal
    obtain ⟨s1, e, hinv1, _, _, hfr⟩ :=
      deallocate_inv s hinv index order hal
    exact ⟨s1, e, hinv1, hfr⟩
  · intro n hn
    refine ⟨allocate_no_return s n hn, fun fuel => ?_⟩
    rw [show (1 : Nat) = 2 ^ 0 from rfl]
    exact block_size_loop_never n hn fuel 0 0 (by omega)
  · intro p hp
    unfold PoolAllocator.new pool_size
    rw [if_neg (by omega)]

theorem pool_tiles_but_allocate_may_not_return_witness :
    2 ≤ 5 ∧ 5 ≤ 31 ∧
    Reachable 2 5
      { min_block_size := 2, max_block_size := 5, m_storage := 32,
        m_free := [[], [8], [16], []], m_sizes := [(0, 3)] } ∧
    allocate
      { min_block_size := 2, max_block_size := 5, m_storage := 32,
        m_free := [[], [8], [16], []], m_sizes := [(0, 3)] }
      (2 ^ 63 + 1) = AllocResult.no_return :=
  ⟨by decide, by decide,
    Reachable.allocate _ _ 5 0 (Reachable.new _ rfl) (by decide) rfl,
    ((pool_tiles_but_allocate_may_not_return 2 5 (by decide) (by decide)
      { min_block_size := 2, max_block_size := 5, m_storage := 32,
        m_free := [[], [8], [16], []], m_sizes := [(0, 3)] }
      (Reachable.allocate _ _ 5 0 (Reachable.new _ rfl) (by decide) rfl)).2.2.2.2.2.2.2.1
      (2 ^ 63 + 1) (by decide)).1⟩

end pool
